import Mathlib

/-!
# GoPractice: the RPC runtime (`src/rpc`)

A shallow embedding of the client call engine (`rpc/day4-timeout/client.go`),
the gob codec (`rpc/day6-load-balance/codec/gob.go`), the server dispatch loop
(`rpc/day3-sevice/server.go`) and the service registry
(`rpc/day7-registry/service.go`), followed by theorems about them.

Conventions of the embedding

* `uint64` values are natural numbers; every increment is taken modulo `2^64`.
* A Go `error` is `Option GoError`: `none` is the nil error, `some e` an error
  whose `Error()` text is `e.msg`.
* `*Call` pointers are indices into a heap of `Call` records, so that a write
  through one alias is seen through every other alias.
* A method that runs under `client.mu` is one atomic state transition.  The
  goroutines of the program are interleavings of these transitions.
* A Go map is an association list with pairwise distinct keys; the order of the
  list stands for the unspecified iteration order of `range`.
* A channel send is recorded in a log of `(channel, value)` pairs; when the
  receiver takes the value is a matter of scheduling and is not part of the
  model.
-/

namespace Grpc

/-! ## Errors and values -/

/-- A non-nil Go `error`, identified by its message. -/
structure GoError where
  msg : String
deriving DecidableEq, Repr

/-- The function `errors.New`. -/
def errorsNew (text : String) : GoError := ⟨text⟩

/-- The modulus of `uint64` arithmetic. -/
def uint64Mod : Nat := 2 ^ 64

/-- The modulus of `int` arithmetic on a 64-bit platform is `2^64`; values lie in
`[-2^63, 2^63)`. -/
def wrapInt (i : Int) : Int := (i + 2 ^ 63) % 2 ^ 64 - 2 ^ 63

/-- The Go values of the model: `nil`, an `int`, a `string`, a struct of `int`
fields such as `Args{Num1, Num2}`, an empty map, an empty slice, and the
placeholder `invalidRequest` (`struct{}{}`). -/
inductive Value where
  | nil
  | int (i : Int)
  | str (s : String)
  | ints (fields : List Int)
  | emptyMap
  | emptySlice
  | invalidRequest
deriving DecidableEq, Repr

/-! ## codec.Header and the gob codec -/

/-- The struct `codec.Header`. -/
structure Header where
  ServiceMethod : String
  Seq : Nat
  Error : String
deriving DecidableEq, Repr

/-- The zero value `var h codec.Header`. -/
def Header.zero : Header := ⟨"", 0, ""⟩

/-- One gob message on the wire.  A gob stream is self-describing, so a message
is either an encoded `Header`, an encoded body value, or a point at which the
transport fails with the given error. -/
inductive Msg where
  | header (h : Header)
  | body (v : Value)
  | fault (e : GoError)
deriving DecidableEq, Repr

/-- The struct `GobCodec`: `input` is what `dec` will still read from `conn`,
`output` what has been flushed to `conn`, `closed` whether `conn` is closed,
and `bufErr` the error `buf` keeps once a flush has failed. -/
structure GobCodec where
  input : List Msg
  output : List Msg
  closed : Bool
  bufErr : Option GoError
deriving DecidableEq, Repr

/-- The function `NewGobCodec` on a connection that will deliver `input`. -/
def NewGobCodec (input : List Msg) : GobCodec := ⟨input, [], false, none⟩

/-- The error `io.EOF`. -/
def ioEOF : GoError := errorsNew "EOF"

/-- The error of gob when the next message does not have the wanted type. -/
def gobTypeMismatch : GoError := errorsNew "gob: type mismatch"

/-- The error of reading from a closed connection. -/
def errClosed : GoError := errorsNew "use of closed network connection"

/-- `func (c *GobCodec) ReadHeader(h *Header) error` is `c.dec.Decode(h)`: it
takes the next message off the stream and succeeds when it is a header. -/
def GobCodec.ReadHeader (c : GobCodec) : GobCodec × Except GoError Header :=
  if c.closed then (c, .error errClosed) else
  match c.input with
  | [] => (c, .error ioEOF)
  | Msg.header h :: rest => ({ c with input := rest }, .ok h)
  | Msg.body _ :: rest => ({ c with input := rest }, .error gobTypeMismatch)
  | Msg.fault e :: _ => (c, .error e)

/-- `func (c *GobCodec) ReadBody(body interface{}) error` is
`c.dec.Decode(body)`.  `wanted` says whether `body` is non-nil.  With a nil
`body` the next message is read and discarded.  The second component is the
value stored through `body`, if any. -/
def GobCodec.ReadBody (c : GobCodec) (wanted : Bool) :
    GobCodec × Option Value × Option GoError :=
  if c.closed then (c, none, some errClosed) else
  match c.input with
  | [] => (c, none, some ioEOF)
  | Msg.fault e :: _ => (c, none, some e)
  | Msg.body v :: rest =>
      if wanted then ({ c with input := rest }, some v, none)
      else ({ c with input := rest }, none, none)
  | Msg.header _ :: rest =>
      if wanted then ({ c with input := rest }, none, some gobTypeMismatch)
      else ({ c with input := rest }, none, none)

/-- `func (c *GobCodec) Close() error` is `c.conn.Close()`. -/
def GobCodec.Close (c : GobCodec) : GobCodec × Option GoError :=
  if c.closed then (c, some errClosed) else ({ c with closed := true }, none)

/-- `func (c *GobCodec) Write(h *Header, body interface{}) (err error)` for
messages that fit into the buffer of `buf`.  Both `Encode` calls write into
`buf` and fail only with the error `buf` has kept; the deferred function
flushes, dropping the error of a failed flush into `buf`, and closes the codec
when an `Encode` failed. -/
def GobCodec.Write (c : GobCodec) (h : Header) (body : Value) : GobCodec × Option GoError :=
  match c.bufErr with
  | some e => ((c.Close).1, some e)
  | none =>
      if c.closed then ({ c with bufErr := some errClosed }, none)
      else ({ c with output := c.output ++ [Msg.header h, Msg.body body] }, none)

/-! ## fmt.Errorf without operands -/

/-- The function `parsenum` of package `fmt` on the characters that follow:
the number read, whether one was read, and what is left.  A number above
`1e6` makes it give up and skip to the end of the format. -/
def parsenum : List Char → Nat → Bool → Nat × Bool × List Char
  | [], num, isnum => (num, isnum, [])
  | c :: rest, num, isnum =>
      if '0' ≤ c ∧ c ≤ '9' then
        if num > 1000000 then (0, false, [])
        else parsenum rest (num * 10 + (c.toNat - '0'.toNat)) true
      else (num, isnum, c :: rest)

/-- The function `parseArgNumber` of package `fmt` with `format` starting at
the opening bracket: how many characters the index takes and whether it is
well-formed. -/
def parseArgNumber (format : List Char) : Nat × Bool :=
  if format.length < 3 then (1, false) else
  match (format.drop 1).indexOf? ']' with
  | none => (1, false)
  | some j =>
      let (_, ok, left) := parsenum ((format.drop 1).take j) 0 false
      if !ok || !left.isEmpty then (j + 2, false) else (j + 2, true)

/-- The method `argNumber` of package `fmt` when there are no operands: the
rest of the format, whether an index was found, and whether the argument number
is still good (an index is never in range without operands). -/
def argNumber (format : List Char) (good : Bool) : List Char × Bool × Bool :=
  match format with
  | '[' :: _ =>
      let (wid, ok) := parseArgNumber format
      (format.drop wid, ok, false)
  | _ => (format, false, good)

/-- One verb of `doPrintf` without operands, `format` starting after the `%`:
the text written and the rest of the format. -/
def doVerb (format : List Char) : List Char × List Char :=
  let afterFlags := format.dropWhile (fun c => c = '#' ∨ c = '0' ∨ c = '+' ∨ c = '-' ∨ c = ' ')
  let (f1, afterIndex1, good1) := argNumber afterFlags true
  -- width
  let (out2, f2, afterIndex2, good2) :=
    match f1 with
    | '*' :: rest => ("%!(BADWIDTH)".data, rest, false, good1)
    | _ =>
        let (_, present, rest) := parsenum f1 0 false
        ([], rest, afterIndex1, if afterIndex1 && present then false else good1)
  -- precision
  let (out3, f3, afterIndex3, good3) :=
    match f2 with
    | '.' :: rest =>
        let good := if afterIndex2 then false else good2
        let (r1, ai, g) := argNumber rest good
        (match r1 with
        | '*' :: rest2 => ("%!(BADPREC)".data, rest2, false, g)
        | _ =>
            let (_, _, rest2) := parsenum r1 0 false
            ([], rest2, ai, g))
    | _ => ([], f2, afterIndex2, good2)
  let (f4, _, good4) := if afterIndex3 then (f3, afterIndex3, good3) else argNumber f3 good3
  match f4 with
  | [] => (out2 ++ out3 ++ "%!(NOVERB)".data, [])
  | verb :: rest =>
      if verb = '%' then (out2 ++ out3 ++ ['%'], rest)
      else if !good4 then (out2 ++ out3 ++ "%!".data ++ [verb] ++ "(BADINDEX)".data, rest)
      else (out2 ++ out3 ++ "%!".data ++ [verb] ++ "(MISSING)".data, rest)

/-- The loop of `doPrintf` without operands.  Every round consumes at least the
`%` it starts from, so `fuel = len(format)` rounds are enough. -/
def doPrintf : Nat → List Char → List Char
  | 0, _ => []
  | fuel + 1, format =>
      let text := format.takeWhile (fun c => c ≠ '%')
      match format.dropWhile (fun c => c ≠ '%') with
      | [] => text
      | _ :: afterPercent =>
          let (out, rest) := doVerb afterPercent
          text ++ out ++ doPrintf fuel rest

/-- The call `fmt.Errorf(format)` with a format and no operands, as
`client.receive` makes it: the format is interpreted, not copied. -/
def fmtErrorf (format : String) : GoError :=
  errorsNew (String.mk (doPrintf (format.length + 1) format.data))


/-! ## The client: `Call`, `Client` and the state of the program -/

/-- The struct `Call`.  `Reply` is the value behind the caller's reply pointer,
`Done` the identity of the channel `chan *Call`. -/
structure Call where
  Seq : Nat
  ServiceMethod : String
  Args : Value
  Reply : Value
  Error : Option GoError
  Done : Nat
deriving DecidableEq, Repr

/-- The struct `Client` (its two mutexes and `opt` carry no data the methods
below read). -/
structure Client where
  cc : GobCodec
  header : Header
  seq : Nat
  pending : List (Nat × Nat)
  closing : Bool
  shutdown : Bool
deriving DecidableEq, Repr

/-- The state of the program around one client: the client, the `Call`
records that `*Call` pointers refer to, and the log of channel sends. -/
structure World where
  client : Client
  heap : List Call
  sent : List (Nat × Nat)
deriving DecidableEq, Repr

/-- The error `ErrShutdown`. -/
def ErrShutdown : GoError := errorsNew "connection is shut down"

/-- The map read `m[k]` of a `map[uint64]*Call`; `none` is the nil pointer. -/
def mapGet (m : List (Nat × Nat)) (k : Nat) : Option Nat := m.lookup k

/-- The builtin `delete(m, k)`. -/
def mapDelete (m : List (Nat × Nat)) (k : Nat) : List (Nat × Nat) :=
  m.filter (fun e => e.1 ≠ k)

/-- The map write `m[k] = v`. -/
def mapSet (m : List (Nat × Nat)) (k v : Nat) : List (Nat × Nat) :=
  (k, v) :: mapDelete m k

/-- Applies `f` to the record behind the pointer `p`. -/
def World.update (w : World) (p : Nat) (f : Call → Call) : World :=
  { w with heap := w.heap.modify f p }

/-- `func (call *Call) done()` is `call.Done <- call`. -/
def Call.done (w : World) (call : Nat) : World :=
  match w.heap[call]? with
  | some c => { w with sent := w.sent ++ [(c.Done, call)] }
  | none => w

/-- The function `newClientCodec`; the receive goroutine it starts is
`receive` below. -/
def newClientCodec (cc : GobCodec) : World :=
  { client :=
      { seq := 1, cc := cc, header := Header.zero, pending := [],
        closing := false, shutdown := false },
    heap := [], sent := [] }

/-- `func (client *Client) registerCall(call *Call) (uint64, error)`. -/
def registerCall (w : World) (call : Nat) : World × Nat × Option GoError :=
  if w.client.closing || w.client.shutdown then (w, 0, some ErrShutdown)
  else
    let seq := w.client.seq
    let w1 := w.update call (fun c => { c with Seq := seq })
    ({ w1 with client :=
        { w1.client with
          pending := mapSet w1.client.pending seq call,
          seq := (seq + 1) % uint64Mod } },
      seq, none)

/-- `func (client *Client) removeCall(seq uint64) *Call`. -/
def removeCall (w : World) (seq : Nat) : World × Option Nat :=
  ({ w with client := { w.client with pending := mapDelete w.client.pending seq } },
    mapGet w.client.pending seq)

/-- The body of the loop of `terminateCalls` for one map entry. -/
def terminateOne (err : Option GoError) (w : World) (entry : Nat × Nat) : World :=
  Call.done (w.update entry.2 (fun c => { c with Error := err })) entry.2

/-- `func (client *Client) terminateCalls(err error)`. -/
def terminateCalls (w : World) (err : Option GoError) : World :=
  let w1 := { w with client := { w.client with shutdown := true } }
  w1.client.pending.foldl (terminateOne err) w1

/-- `func (client *Client) Close() error`. -/
def Close (w : World) : World × Option GoError :=
  if w.client.closing then (w, some ErrShutdown)
  else
    let r := w.client.cc.Close
    ({ w with client := { w.client with closing := true, cc := r.1 } }, r.2)

/-- `func (client *Client) IsAvailable() bool`. -/
def IsAvailable (w : World) : Bool :=
  !w.client.shutdown && !w.client.closing

/-- One round of the loop of `func (client *Client) receive()`: the state after
it and the value of `err` the loop condition then sees.  The flag says which
`switch` case ran: 0 no header, 1 no pending call, 2 error header, 3 reply. -/
def receiveStep (w : World) : World × Option GoError × Nat :=
  let r := w.client.cc.ReadHeader
  let w0 := { w with client := { w.client with cc := r.1 } }
  match r.2 with
  | .error e => (w0, some e, 0)
  | .ok h =>
      let rc := removeCall w0 h.Seq
      let w1 := rc.1
      match rc.2 with
      | none =>
          let b := w1.client.cc.ReadBody false
          ({ w1 with client := { w1.client with cc := b.1 } }, b.2.2, 1)
      | some call =>
          if h.Error ≠ "" then
            let w2 := w1.update call (fun c => { c with Error := some (fmtErrorf h.Error) })
            let b := w2.client.cc.ReadBody false
            let w3 := { w2 with client := { w2.client with cc := b.1 } }
            (Call.done w3 call, b.2.2, 2)
          else
            let b := w1.client.cc.ReadBody true
            let w2 := { w1 with client := { w1.client with cc := b.1 } }
            let w3 := match b.2.1 with
              | some v => w2.update call (fun c => { c with Reply := v })
              | none => w2
            let w4 := match b.2.2 with
              | some err =>
                  w3.update call
                    (fun c => { c with Error := some (errorsNew ("reading body " ++ err.msg)) })
              | none => w3
            (Call.done w4 call, b.2.2, 3)

/-- The loop of `receive` up to its exit: the state and the error it exits
with, or `none` when `fuel` rounds were not enough. -/
def receiveLoop : Nat → World → Option (World × GoError)
  | 0, _ => none
  | fuel + 1, w =>
      match receiveStep w with
      | (w1, some err, _) => some (w1, err)
      | (w1, none, _) => receiveLoop fuel w1

/-- `func (client *Client) receive()`: the loop, then `terminateCalls(err)`. -/
def receive (fuel : Nat) (w : World) : Option World :=
  match receiveLoop fuel w with
  | some (w1, err) => some (terminateCalls w1 (some err))
  | none => none

/-- The allocation `call := &Call{...}` in `Go`: a new record at the end of the
heap; the pointer is its index. -/
def newCall (w : World) (serviceMethod : String) (args reply : Value) (done : Nat) :
    World × Nat :=
  ({ w with heap := w.heap ++
      [{ Seq := 0, ServiceMethod := serviceMethod, Args := args, Reply := reply,
         Error := none, Done := done }] },
    w.heap.length)

/-- The cancellation branch `case <-ctx.Done()` of `Client.Call`, `ctxErr`
being `ctx.Err()`. -/
def CallCancelled (w : World) (call : Nat) (ctxErr : GoError) : World × Option GoError :=
  match w.heap[call]? with
  | some c =>
      ((removeCall w c.Seq).1, some (errorsNew ("rpc client: call failed: " ++ ctxErr.msg)))
  | none => (w, some (errorsNew ("rpc client: call failed: " ++ ctxErr.msg)))

/-- The branch `case call := <-call.Done` of `Client.Call`. -/
def CallCompleted (w : World) (call : Nat) : World × Option GoError :=
  match w.heap[call]? with
  | some c => (w, c.Error)
  | none => (w, none)

/-- The steps the claims about the pending table range over.  `register` is
the allocation of a call followed by `registerCall`, as `Go` and `send` do;
`receive` is one round of the receive loop. -/
inductive Step where
  | register (serviceMethod : String) (args reply : Value) (done : Nat)
  | remove (seq : Nat)
  | terminate (err : GoError)
  | close
  | receive
deriving DecidableEq, Repr

/-- Runs one step; the second component is the sequence number a successful
`registerCall` returned. -/
def Step.run (w : World) : Step → World × Option Nat
  | .register sm a r d =>
      let n := newCall w sm a r d
      let rr := registerCall n.1 n.2
      (rr.1, if rr.2.2 = none then some rr.2.1 else none)
  | .remove seq => ((removeCall w seq).1, none)
  | .terminate err => (terminateCalls w (some err), none)
  | .close => ((Close w).1, none)
  | .receive => ((receiveStep w).1, none)

/-- Runs a list of steps and collects the sequence numbers issued, oldest
first. -/
def runSteps : World → List Step → World × List Nat
  | w, [] => (w, [])
  | w, s :: rest =>
      let r := Step.run w s
      let rs := runSteps r.1 rest
      (rs.1, (match r.2 with | some n => [n] | none => []) ++ rs.2)


/-! ## Invariants of the pending table -/

/-- The pending table is a map (its keys are pairwise distinct) and the entry
under key `k` points to a live call whose `Seq` field is `k`. -/
def PendingOK (w : World) : Prop :=
  (w.client.pending.map Prod.fst).Nodup ∧
  ∀ e ∈ w.client.pending, (w.heap[e.2]?).map Call.Seq = some e.1

/-- After `n` successful registrations the counter is `n + 1` in `uint64`
arithmetic and every key of the table is one of the `n` numbers issued. -/
def Numbered (w : World) (n : Nat) : Prop :=
  w.client.seq = (n + 1) % uint64Mod ∧
  ∀ e ∈ w.client.pending, ∃ i, i < n ∧ e.1 = (i + 1) % uint64Mod

/-- The step `register` with the fields of the call left at their zero
values. -/
def plainRegister : Step := Step.register "" Value.nil Value.nil 0

/-- A client with one call registered under sequence number 1 whose response
(`Seq = 1`, reply 7) is still on the wire. -/
def cancelWorld : World :=
  (runSteps
    (newClientCodec
      (NewGobCodec [Msg.header ⟨"Foo.Sum", 1, ""⟩, Msg.body (Value.int 7)]))
    [Step.register "Foo.Sum" (Value.ints [3, 4]) (Value.int 0) 0]).1

/-- The error `context.DeadlineExceeded`. -/
def deadlineExceeded : GoError := errorsNew "context deadline exceeded"

/-- How often the call behind `p` has been sent on the channel `d`. -/
def delivered (w : World) (d p : Nat) : Nat := w.sent.count (d, p)

/-- A client with two pending calls (sequence numbers 1 and 2) whose
connection is about to fail. -/
def failingWorld : World :=
  (runSteps
    (newClientCodec (NewGobCodec [Msg.fault (errorsNew "connection reset by peer")]))
    [Step.register "Foo.Sum" (Value.ints [3, 4]) (Value.int 0) 0,
     Step.register "Foo.Sum" (Value.ints [1, 1]) (Value.int 0) 1]).1

/-! ## Package reflect and `ast.IsExported` -/

/-- The kinds of `reflect.Kind` the model tells apart; a struct kind carries
the number of its (`int`) fields. -/
inductive Kind where
  | Bool
  | Int
  | Uint64
  | String
  | Struct (numField : Nat)
  | Ptr
  | Map
  | Slice
  | Array
  | Chan
  | Interface
  | Func
deriving DecidableEq, Repr

/-- A `reflect.Type`: its `Name()`, `PkgPath()`, `Kind()` and, for a type made
from another one, the element type. -/
inductive RType where
  | basic (name pkgPath : String) (kind : Kind)
  | composite (name pkgPath : String) (kind : Kind) (elem : RType)
deriving DecidableEq, Repr

/-- The method `Type.Name`. -/
def RType.Name : RType → String
  | .basic n _ _ => n
  | .composite n _ _ _ => n

/-- The method `Type.PkgPath`. -/
def RType.PkgPath : RType → String
  | .basic _ p _ => p
  | .composite _ p _ _ => p

/-- The method `Type.Kind`. -/
def RType.Kind : RType → Kind
  | .basic _ _ k => k
  | .composite _ _ k _ => k

/-- The method `Type.Elem`; `none` is its panic on a type whose kind is not
Array, Chan, Map, Ptr or Slice. -/
def RType.Elem : RType → Option RType
  | .basic _ _ _ => none
  | .composite _ _ k e =>
      if k = Kind.Ptr ∨ k = Kind.Map ∨ k = Kind.Slice ∨ k = Kind.Array ∨ k = Kind.Chan
      then some e else none

/-- The type `error`, which is `reflect.TypeOf((*error)(nil)).Elem()`. -/
def errorType : RType := .basic "error" "" Kind.Interface

/-- The type `int`. -/
def intType : RType := .basic "int" "" Kind.Int

/-- The pointer type `*t`. -/
def ptrTo (t : RType) : RType := .composite "" "" Kind.Ptr t

/-- The zero value `reflect.New(t).Elem()` of a type. -/
def zeroValue (t : RType) : Value :=
  match t.Kind with
  | Kind.Bool => Value.int 0
  | Kind.Int => Value.int 0
  | Kind.Uint64 => Value.int 0
  | Kind.String => Value.str ""
  | Kind.Struct n => Value.ints (List.replicate n 0)
  | _ => Value.nil

/-- The function `ast.IsExported`: the name begins with an upper-case letter.
`upper` is the table `unicode.IsUpper`. -/
def IsExported (upper : Char → Bool) (name : String) : Bool :=
  match name.data with
  | [] => false
  | c :: _ => upper c

/-- The function `isExportedOrBuiltinType`. -/
def isExportedOrBuiltinType (upper : Char → Bool) (t : RType) : Bool :=
  IsExported upper t.Name || t.PkgPath = ""

/-- A `reflect.Method`: its name, the parameter types `In(i)` (receiver
first) and result types `Out(i)` of its function type, and its function.
`Func` takes the receiver, the argument and the value behind the reply and
gives the receiver and the value behind the reply afterwards and the returned
error. -/
structure Method where
  Name : String
  In : List RType
  Out : List RType
  Func : Value → Value → Value → Value × Value × Option GoError

/-- A receiver passed to `Register`: `reflect.TypeOf(rcvr)`, the value, and
the exported methods `Method(0)`, ..., `Method(NumMethod() - 1)` of its
type. -/
structure Receiver where
  typ : RType
  value : Value
  methods : List Method

/-- The type of `reflect.Indirect(v)`: the element type of a pointer, the type
itself otherwise. -/
def indirectType (t : RType) : RType :=
  match t with
  | .composite _ _ Kind.Ptr e => e
  | _ => t

/-! ## The service registry (`service.go`) -/

/-- The struct `methodType`. -/
structure methodType where
  method : Method
  ArgType : RType
  ReplyType : RType
  numCalls : Nat

/-- `func (m *methodType) NumCalls() uint64`. -/
def methodType.NumCalls (m : methodType) : Nat := m.numCalls

/-- `func (m *methodType) newArgv() reflect.Value`; `none` is a panic of
package reflect. -/
def methodType.newArgv (m : methodType) : Option Value :=
  if m.ArgType.Kind = Kind.Ptr then m.ArgType.Elem.map zeroValue
  else some (zeroValue m.ArgType)

/-- `func (m *methodType) newReplyv() reflect.Value`, as the value behind the
pointer it returns; `none` is the panic of `m.ReplyType.Elem()`. -/
def methodType.newReplyv (m : methodType) : Option Value :=
  match m.ReplyType.Elem with
  | none => none
  | some t =>
      match t.Kind with
      | Kind.Map => some Value.emptyMap
      | Kind.Slice => some Value.emptySlice
      | _ => some (zeroValue t)

/-- The struct `service`. -/
structure service where
  name : String
  typ : RType
  rcvr : Receiver
  method : List (String × methodType)

/-- The body of the loop of `registerMethods` for the method `Method(i)`. -/
def registerMethod (upper : Char → Bool) (methods : List (String × methodType))
    (method : Method) : List (String × methodType) :=
  if method.In.length ≠ 3 ∨ method.Out.length ≠ 1 then methods
  else if method.Out[0]? ≠ some errorType then methods
  else
    match method.In[1]?, method.In[2]? with
    | some argType, some replyType =>
        if !isExportedOrBuiltinType upper argType || !isExportedOrBuiltinType upper replyType
        then methods
        else
          (method.Name,
            { method := method, ArgType := argType, ReplyType := replyType, numCalls := 0 })
            :: methods.filter (fun e => e.1 ≠ method.Name)
    | _, _ => methods

/-- `func (s *service) registerMethods()`: the method map it builds. -/
def registerMethods (upper : Char → Bool) (rcvr : Receiver) : List (String × methodType) :=
  rcvr.methods.foldl (registerMethod upper) []

/-- The function `newService`; `Except.error` is the exit of the process in
`log.Fatalf`, with the text it logs. -/
def newService (upper : Char → Bool) (rcvr : Receiver) : Except String service :=
  let name := (indirectType rcvr.typ).Name
  if !IsExported upper name then
    .error ("rpc server: " ++ name ++ " is not a valid service name")
  else
    .ok { name := name, typ := rcvr.typ, rcvr := rcvr, method := registerMethods upper rcvr }

/-- `func (s *service) call(m *methodType, argv, replyv reflect.Value) error`:
the service (its receiver may have changed), the method descriptor with its
counter, the value behind `replyv`, and the returned error. -/
def service.call (s : service) (m : methodType) (argv replyv : Value) :
    service × methodType × Value × Option GoError :=
  let m1 := { m with numCalls := (m.numCalls + 1) % uint64Mod }
  let returnValues := m.method.Func s.rcvr.value argv replyv
  ({ s with rcvr := { s.rcvr with value := returnValues.1 } }, m1,
    returnValues.2.1, returnValues.2.2)

/-! ## The server (`server.go`) -/

/-- The struct `Server`; `serviceMap` is its `sync.Map`. -/
structure Server where
  serviceMap : List (String × service)

/-- The function `NewServer`. -/
def NewServer : Server := ⟨[]⟩

/-- `func (server *Server) Register(rcvr interface{}) error`. -/
def Server.Register (upper : Char → Bool) (server : Server) (rcvr : Receiver) :
    Except String (Server × Option GoError) :=
  match newService upper rcvr with
  | .error fatal => .error fatal
  | .ok s =>
      match server.serviceMap.lookup s.name with
      | some _ => .ok (server, some (errorsNew ("rpc: service already defined: " ++ s.name)))
      | none => .ok ({ serviceMap := (s.name, s) :: server.serviceMap }, none)

/-- The call `strings.LastIndex(s, ".")` on the characters of `s`: the index of
the last `.`, or -1. -/
def LastIndexDot : List Char → Int
  | [] => -1
  | c :: rest =>
      if LastIndexDot rest ≥ 0 then LastIndexDot rest + 1
      else if c = '.' then 0 else -1

/-- `func (server *Server) findService(serviceMethod string)
(svc *service, mtype *methodType, err error)`. -/
def Server.findService (server : Server) (serviceMethod : String) :
    Option service × Option methodType × Option GoError :=
  let dot := LastIndexDot serviceMethod.data
  if dot < 0 then
    (none, none,
      some (errorsNew ("rpc server: service/method request ill-formed: " ++ serviceMethod)))
  else
    let serviceName := String.mk (serviceMethod.data.take dot.toNat)
    let methodName := String.mk (serviceMethod.data.drop (dot.toNat + 1))
    match server.serviceMap.lookup serviceName with
    | none => (none, none, some (errorsNew ("rpc server: can't find service " ++ serviceName)))
    | some svc =>
        match svc.method.lookup methodName with
        | none =>
            (some svc, none, some (errorsNew ("rpc server: can't find method " ++ methodName)))
        | some mtype => (some svc, some mtype, none)

/-- The struct `request`. -/
structure request where
  h : Header
  argv : Value
  replyv : Value
  mtype : Option methodType
  svc : Option service

/-- `func (server *Server) readRequestHeader(cc codec.Codec)
(*codec.Header, error)`. -/
def Server.readRequestHeader (cc : GobCodec) : GobCodec × Option Header × Option GoError :=
  match cc.ReadHeader with
  | (cc1, .error err) => (cc1, none, some err)
  | (cc1, .ok h) => (cc1, some h, none)

/-- `func (server *Server) readRequest(cc codec.Codec) (*request, error)`.
The outer `none` is a panic of package reflect in `newArgv` or `newReplyv`. -/
def Server.readRequest (server : Server) (cc : GobCodec) :
    Option (GobCodec × Option request × Option GoError) :=
  match Server.readRequestHeader cc with
  | (cc1, _, some err) => some (cc1, none, some err)
  | (cc1, none, none) => some (cc1, none, none)
  | (cc1, some h, none) =>
      match server.findService h.ServiceMethod with
      | (svc, mtype, some err) =>
          some (cc1,
            some { h := h, argv := Value.nil, replyv := Value.nil, mtype := mtype, svc := svc },
            some err)
      | (_, none, none) => none
      | (svc, some m, none) =>
          match m.newArgv, m.newReplyv with
          | some argv, some replyv =>
              match cc1.ReadBody true with
              | (cc2, _, some err) =>
                  some (cc2,
                    some { h := h, argv := argv, replyv := replyv, mtype := some m, svc := svc },
                    some err)
              | (cc2, decoded, none) =>
                  some (cc2,
                    some { h := h, argv := decoded.getD argv, replyv := replyv,
                           mtype := some m, svc := svc },
                    none)
          | _, _ => none

/-- `func (server *Server) sendResponse(cc, h, body, sending)`; the error of
`cc.Write` is logged only. -/
def Server.sendResponse (cc : GobCodec) (h : Header) (body : Value) : GobCodec :=
  (cc.Write h body).1

/-- Writes the method descriptor `m` back under its service and method name:
`serviceMap` and `service.method` hold pointers, so the counter that
`service.call` increments is the one they hold. -/
def Server.store (server : Server) (s : service) (m : methodType) : Server :=
  { serviceMap := server.serviceMap.map (fun e =>
      if e.1 = s.name then
        (e.1, { s with method := e.2.method.map (fun f =>
          if f.1 = m.method.Name then (f.1, m) else f) })
      else e) }

/-- `func (server *Server) handleRequest(cc, req, sending, wg)`. -/
def Server.handleRequest (server : Server) (cc : GobCodec) (req : request) :
    Server × GobCodec :=
  match req.svc, req.mtype with
  | some svc, some mtype =>
      match svc.call mtype req.argv req.replyv with
      | (svc1, m1, _, some err) =>
          (server.store svc1 m1,
            Server.sendResponse cc { req.h with Error := err.msg } Value.invalidRequest)
      | (svc1, m1, reply, none) =>
          (server.store svc1 m1, Server.sendResponse cc req.h reply)
  | _, _ => (server, cc)

/-- One round of the loop of `serveCodec`, the handler of the request run to
its end before the next request is read: the state afterwards and whether the
loop goes on.  The outer `none` is a panic. -/
def Server.serveStep (server : Server) (cc : GobCodec) : Option (Server × GobCodec × Bool) :=
  match server.readRequest cc with
  | none => none
  | some (cc1, none, some _) => some (server, cc1, false)
  | some (cc1, some req, some err) =>
      some (server, Server.sendResponse cc1 { req.h with Error := err.msg } Value.invalidRequest,
        true)
  | some (cc1, some req, none) =>
      let r := server.handleRequest cc1 req
      some (r.1, r.2, true)
  | some (cc1, none, none) => some (server, cc1, false)

/-- `func (server *Server) serveCodec(cc codec.Codec)`: rounds of the loop
until it breaks, then `cc.Close()`; `none` when a round panics or `fuel` rounds
were not enough. -/
def Server.serveCodec : Nat → Server → GobCodec → Option (Server × GobCodec)
  | 0, _, _ => none
  | fuel + 1, server, cc =>
      match server.serveStep cc with
      | none => none
      | some (server1, cc1, false) => some (server1, (cc1.Close).1)
      | some (server1, cc1, true) => Server.serveCodec fuel server1 cc1

/-! ## The example service of `main.go` -/

/-- The type `Foo` (`type Foo int`). -/
def fooType : RType := .basic "Foo" "main" Kind.Int

/-- The type `Args` (`type Args struct{ Num1, Num2 int }`). -/
def argsType : RType := .basic "Args" "main" (Kind.Struct 2)

/-- `func (f Foo) Sum(args Args, reply *int) error`. -/
def FooSum (f : Value) (args : Value) (reply : Value) : Value × Value × Option GoError :=
  match args with
  | Value.ints [Num1, Num2] => (f, Value.int (wrapInt (Num1 + Num2)), none)
  | _ => (f, reply, none)

/-- The method `Sum` as `reflect` describes it. -/
def sumMethod : Method :=
  { Name := "Sum", In := [fooType, argsType, ptrTo intType], Out := [errorType],
    Func := FooSum }

/-- The receiver `&foo` that `startServer` registers. -/
def fooReceiver : Receiver :=
  { typ := ptrTo fooType, value := Value.int 0, methods := [sumMethod] }

/-- A client with one pending call (sequence number 1) whose response says
that the server failed with the error text "100%". -/
def errorReplyWorld : World :=
  (runSteps
    (newClientCodec
      (NewGobCodec [Msg.header ⟨"Foo.Sum", 1, "100%"⟩, Msg.body Value.invalidRequest]))
    [Step.register "Foo.Sum" (Value.ints [3, 4]) (Value.int 0) 0]).1

/-- The table `unicode.IsUpper` on ASCII letters. -/
def asciiUpper (c : Char) : Bool := c.isUpper

/-- The server of `main.go`: `Register(&foo)` on a new server. -/
def fooServer : Server :=
  match NewServer.Register asciiUpper fooReceiver with
  | .ok r => r.1
  | .error _ => NewServer

/-- Two requests on one connection: a call of the unknown method `Foo.Nope`
with its argument body, then a call of `Foo.Sum` with the argument `{3, 4}`. -/
def twoRequests : List Msg :=
  [Msg.header ⟨"Foo.Nope", 1, ""⟩, Msg.body (Value.ints [1, 2]),
   Msg.header ⟨"Foo.Sum", 2, ""⟩, Msg.body (Value.ints [3, 4])]

/-- What a caller sees of the result of `readRequest`: the rest of the input,
the header of the request, and the error. -/
def requestView (r : Option (GobCodec × Option request × Option GoError)) :
    Option (List Msg × Option Header × Option GoError) :=
  r.map (fun x => (x.1.input, x.2.1.map (fun q => q.h), x.2.2))

/-- What the peer sees of the result of `serveCodec`: what was left unread,
what was written, and whether the connection is closed. -/
def connView (r : Option (Server × GobCodec)) : Option (List Msg × List Msg × Bool) :=
  r.map (fun x => (x.2.input, x.2.output, x.2.closed))

/-- A method `func (f Foo) Bad(a int, b int) error`: its second parameter is
an `int`, not a pointer. -/
def badMethod : Method :=
  { Name := "Bad", In := [fooType, intType, intType], Out := [errorType],
    Func := fun f _ reply => (f, reply, none) }

/-- A receiver of type `*Foo` whose type has the methods `Bad` and `Sum`. -/
def badReceiver : Receiver :=
  { typ := ptrTo fooType, value := Value.int 0, methods := [badMethod, sumMethod] }

/-- The shape `registerMethods` checks before it registers a method: three
parameters with the receiver, one result of type `error`, and argument and
reply types that are exported or builtin. -/
def Registrable (upper : Char → Bool) (m : methodType) : Prop :=
  m.method.In.length = 3 ∧ m.method.Out = [errorType] ∧
  m.method.In[1]? = some m.ArgType ∧ m.method.In[2]? = some m.ReplyType ∧
  isExportedOrBuiltinType upper m.ArgType = true ∧
  isExportedOrBuiltinType upper m.ReplyType = true ∧
  m.numCalls = 0

/-- The service `newService(&foo)` builds. -/
def fooService : service :=
  { name := "Foo", typ := ptrTo fooType, rcvr := fooReceiver,
    method := [("Sum",
      { method := sumMethod, ArgType := argsType, ReplyType := ptrTo intType, numCalls := 0 })] }

/-- A second receiver whose type is also named `Foo`. -/
def otherFooReceiver : Receiver :=
  { typ := .basic "Foo" "other" (Kind.Struct 0), value := Value.ints [], methods := [] }

/-! ## `Client.send` -/

/-- `func (client *Client) send(call *Call)`. -/
def send (w : World) (call : Nat) : World :=
  let r := registerCall w call
  match r.2.2 with
  | some err => Call.done (r.1.update call (fun c => { c with Error := some err })) call
  | none =>
      match r.1.heap[call]? with
      | none => r.1
      | some c =>
          let header : Header := { ServiceMethod := c.ServiceMethod, Seq := r.2.1, Error := "" }
          let w2 := { r.1 with client := { r.1.client with header := header } }
          let wr := w2.client.cc.Write header c.Args
          let w3 := { w2 with client := { w2.client with cc := wr.1 } }
          match wr.2 with
          | none => w3
          | some err =>
              match (removeCall w3 r.2.1).2 with
              | none => (removeCall w3 r.2.1).1
              | some p =>
                  Call.done
                    ((removeCall w3 r.2.1).1.update p (fun c => { c with Error := some err })) p

/-- A client with one pending call on which `Close` has been called. -/
def closedWorld : World := (Close cancelWorld).1

/-! ## The handshake (`Server.ServeConn`) -/

/-- The constant `MagicNumber`. -/
def MagicNumber : Int := 0x3bef5c

/-- The constant `codec.GobType`. -/
def GobType : String := "application/gob"

/-- The constant `codec.JsonType`. -/
def JsonType : String := "application/json"

/-- The struct `Option` of the server: what a connection negotiates. -/
structure ConnOption where
  MagicNumber : Int
  CodecType : String
deriving DecidableEq, Repr

/-- The map `codec.NewCodecFuncMap` as `init` fills it: the only key is
`GobType`. -/
def NewCodecFuncMap (t : String) : Option (List Msg → GobCodec) :=
  if t = GobType then some NewGobCodec else none

/-- A connection as `ServeConn` gets it: the result of decoding the JSON
handshake at its start, the gob messages that follow it, what has been written
to it, and whether it is closed. -/
structure Conn where
  handshake : Except GoError ConnOption
  input : List Msg
  output : List Msg
  closed : Bool

/-- The call `conn.Close()`. -/
def Conn.Close (conn : Conn) : Conn := { conn with closed := true }

/-- `func (server *Server) ServeConn(conn io.ReadWriteCloser)`; `none` when
`serveCodec` panics or `fuel` rounds were not enough. -/
def Server.ServeConn (fuel : Nat) (server : Server) (conn : Conn) : Option (Server × Conn) :=
  match conn.handshake with
  | .error _ => some (server, conn.Close)
  | .ok opt =>
      if opt.MagicNumber ≠ MagicNumber then some (server, conn.Close)
      else
        match NewCodecFuncMap opt.CodecType with
        | none => some (server, conn.Close)
        | some f =>
            match server.serveCodec fuel (f conn.input) with
            | none => none
            | some (server1, cc) =>
                some (server1,
                  Conn.Close { conn with input := cc.input, output := cc.output })

/-- What the peer sees of a connection: what was left unread, what was
written, and whether it is closed. -/
def Conn.view (conn : Conn) : List Msg × List Msg × Bool :=
  (conn.input, conn.output, conn.closed)

/-- A connection with the given handshake on which the request `Foo.Sum` with
the argument `{3, 4}` follows. -/
def sumConn (handshake : Except GoError ConnOption) : Conn :=
  { handshake := handshake,
    input := [Msg.header ⟨"Foo.Sum", 1, ""⟩, Msg.body (Value.ints [3, 4])],
    output := [], closed := false }

end Grpc

namespace Strings

/-! ## The parts of package `strings` the code uses

Go strings are taken as sequences of characters.  The separators the code
splits at and the marks it looks for (`,`, `/`, `.`, `:`, `*`) are ASCII, so
positions found on characters and on UTF-8 bytes agree. -/

/-- The function `strings.Join`. -/
def Join : List String → String → String
  | [], _ => ""
  | [a], _ => a
  | a :: b :: rest, sep => a ++ sep ++ Join (b :: rest) sep

/-- The segments of `strings.Split` for a separator of one character, on the
characters of the string. -/
def splitChars (sep : Char) : List Char → List (List Char)
  | [] => [[]]
  | c :: rest =>
      if c = sep then [] :: splitChars sep rest
      else
        match splitChars sep rest with
        | [] => [[c]]
        | seg :: segs => (c :: seg) :: segs

/-- The function `strings.Split` for a separator of one character. -/
def Split (s : String) (sep : Char) : List String :=
  (splitChars sep s.data).map String.mk

/-- The function `strings.TrimSpace`; `space` is the table `unicode.IsSpace`. -/
def TrimSpace (space : Char → Bool) (s : String) : String :=
  String.mk ((s.data.dropWhile space).reverse.dropWhile space).reverse

/-- The table `unicode.IsSpace` on ASCII. -/
def asciiSpace (c : Char) : Bool :=
  c = ' ' || c = '\t' || c = '\n' || c = '\r' || c.toNat = 11 || c.toNat = 12

/-- The function `strings.HasPrefix`. -/
def HasPrefix (s pre : String) : Bool := pre.data.isPrefixOf s.data

/-- The segments of `strings.SplitN` for a separator of one character and a
count `n >= 0`, on the characters of the string. -/
def splitNChars (sep : Char) : Nat → List Char → List (List Char)
  | 0, _ => []
  | 1, l => [l]
  | n + 2, l =>
      match l.span (fun c => c ≠ sep) with
      | (_, []) => [l]
      | (a, _ :: rest) => a :: splitNChars sep (n + 1) rest

/-- The function `strings.SplitN` for a separator of one character and a
count `n >= 0`. -/
def SplitN (s : String) (sep : Char) (n : Nat) : List String :=
  (splitNChars sep n s.data).map String.mk

end Strings

namespace Http

/-! ## The parts of `net/http` the registry and its client use -/

/-- An `http.Header`: the values under each (canonical) key. -/
structure Header where
  entries : List (String × List String)
deriving DecidableEq, Repr

/-- The method `Header.Get`: the first value under the key, or "". -/
def Header.Get (h : Header) (key : String) : String :=
  match h.entries.lookup key with
  | some (v :: _) => v
  | _ => ""

/-- The method `Header.Set`: the key gets the single value, replacing what it
had. -/
def Header.Set (h : Header) (key value : String) : Header :=
  { entries := (key, [value]) :: h.entries.filter (fun e => e.1 ≠ key) }

/-- An `*http.Request`, as far as the handlers read it. -/
structure Request where
  Method : String
  Header : Header
deriving DecidableEq, Repr

/-- An `http.ResponseWriter`: the header map and the status code of the first
`WriteHeader`, if there was one. -/
structure ResponseWriter where
  header : Header
  status : Option Nat
deriving DecidableEq, Repr

/-- The method `ResponseWriter.WriteHeader`; a second call changes nothing. -/
def ResponseWriter.WriteHeader (w : ResponseWriter) (statusCode : Nat) : ResponseWriter :=
  match w.status with
  | some _ => w
  | none => { w with status := some statusCode }

/-- The status the client gets: that of `WriteHeader`, or 200 when the handler
returned without calling it. -/
def ResponseWriter.statusCode (w : ResponseWriter) : Nat := w.status.getD 200

/-- The constant `http.StatusInternalServerError`. -/
def StatusInternalServerError : Nat := 500

/-- The constant `http.StatusMethodNotAllowed`. -/
def StatusMethodNotAllowed : Nat := 405

/-- The constant `http.StatusNotFound`. -/
def StatusNotFound : Nat := 404

/-- The constant `http.StatusBadRequest`. -/
def StatusBadRequest : Nat := 400

/-- What one call of `Write` puts into the body of a response: a text or
bytes. -/
inductive Chunk where
  | text (s : String)
  | bytes (b : List UInt8)
deriving DecidableEq, Repr

/-- An `http.ResponseWriter` with the calls of `Write` so far. -/
structure Response where
  w : ResponseWriter
  body : List Chunk
deriving DecidableEq, Repr

/-- The method `ResponseWriter.Write`: the first write sends the status 200 if
none has been sent. -/
def Response.Write (r : Response) (c : Chunk) : Response :=
  { w := r.w.WriteHeader 200, body := r.body ++ [c] }

/-- The function `http.Error`: the headers of a plain text, the status, and
the text with a newline. -/
def Error (r : Response) (error : String) (code : Nat) : Response :=
  let h := (r.w.header.Set "Content-Type" "text/plain; charset=utf-8").Set
    "X-Content-Type-Options" "nosniff"
  Response.Write { r with w := ({ r.w with header := h } : ResponseWriter).WriteHeader code }
    (.text (error ++ "\n"))

/-- A response nothing has been written to. -/
def freshResponse : Response := { w := { header := ⟨[]⟩, status := none }, body := [] }

end Http

namespace Registry

/-! ## The registry (`registry.go`)

Times are instants in nanoseconds, durations are differences of instants.
The readings of `time.Now()` within one call of a method are one instant
`now`. -/

/-- The struct `ServerItem`. -/
structure ServerItem where
  Addr : String
  start : Int
deriving DecidableEq, Repr

/-- The struct `GrpcRegistry`; `servers` is its `map[string]*ServerItem`. -/
structure GrpcRegistry where
  timeout : Int
  servers : List (String × ServerItem)
deriving DecidableEq, Repr

/-- The function `New`. -/
def New (timeout : Int) : GrpcRegistry := { timeout := timeout, servers := [] }

/-- `func (r *GrpcRegistry) putServer(addr string)` at the instant `now`. -/
def putServer (r : GrpcRegistry) (addr : String) (now : Int) : GrpcRegistry :=
  match r.servers.lookup addr with
  | none => { r with servers := (addr, { Addr := addr, start := now }) :: r.servers }
  | some _ =>
      { r with servers := r.servers.map (fun e =>
          if e.1 = addr then (e.1, { e.2 with start := now }) else e) }

/-- The order of Go strings on their characters: lexicographic by code point,
which for UTF-8 is the order of the bytes. -/
def lexLe : List Char → List Char → Bool
  | [], _ => true
  | _ :: _, [] => false
  | a :: as, b :: bs =>
      if a.toNat < b.toNat then true
      else if b.toNat < a.toNat then false
      else lexLe as bs

/-- The comparison `a <= b` of two Go strings. -/
def strLe (a b : String) : Prop := lexLe a.data b.data = true

instance (a b : String) : Decidable (strLe a b) := by
  unfold strLe
  exact inferInstance

/-- The call `sort.Strings`: the ascending rearrangement of the slice. -/
def sortStrings (l : List String) : List String := l.insertionSort strLe

/-- The body of the loop of `aliveServers` for one entry of the map: the slice
`alive` and the map afterwards. -/
def aliveStep (timeout now : Int) (acc : List String × List (String × ServerItem))
    (e : String × ServerItem) : List String × List (String × ServerItem) :=
  if timeout = 0 ∨ now < e.2.start + timeout then (acc.1 ++ [e.1], acc.2)
  else (acc.1, acc.2.filter (fun x => x.1 ≠ e.1))

/-- `func (r *GrpcRegistry) aliveServers() []string` at the instant `now`: the
registry afterwards and the slice returned. -/
def aliveServers (r : GrpcRegistry) (now : Int) : GrpcRegistry × List String :=
  let res := r.servers.foldl (aliveStep r.timeout now) ([], r.servers)
  ({ r with servers := res.2 }, sortStrings res.1)

/-- The condition of `aliveServers` under which an entry stays. -/
def Alive (timeout now : Int) (item : ServerItem) : Prop :=
  timeout = 0 ∨ now < item.start + timeout

instance (timeout now : Int) (item : ServerItem) : Decidable (Alive timeout now item) := by
  unfold Alive
  exact inferInstance

/-- A registry with a timeout of 5 and three servers whose last heartbeats
were at the instants 10, 1 and 7. -/
def threeServers : GrpcRegistry :=
  { timeout := 5,
    servers := [("tcp@c", ⟨"tcp@c", 10⟩), ("tcp@a", ⟨"tcp@a", 1⟩), ("tcp@b", ⟨"tcp@b", 7⟩)] }

/-- The requests a registry serves: a heartbeat of `addr` and a listing, each
at an instant. -/
inductive RegOp where
  | put (addr : String) (now : Int)
  | alive (now : Int)
deriving DecidableEq, Repr

/-- Runs one request on the registry. -/
def RegOp.run (r : GrpcRegistry) : RegOp → GrpcRegistry
  | .put addr now => putServer r addr now
  | .alive now => (aliveServers r now).1

/-- Runs requests in order. -/
def runOps (r : GrpcRegistry) (ops : List RegOp) : GrpcRegistry := ops.foldl RegOp.run r

/-- `func (r *GrpcRegistry) ServeHTTP(w http.ResponseWriter, req *http.Request)`
at the instant `now`. -/
def ServeHTTP (r : GrpcRegistry) (w : Http.ResponseWriter) (req : Http.Request) (now : Int) :
    GrpcRegistry × Http.ResponseWriter :=
  if req.Method = "GET" then
    let a := aliveServers r now
    (a.1, { w with header := w.header.Set "X-Geerpc-Servers" (Strings.Join a.2 ",") })
  else if req.Method = "POST" then
    let addr := req.Header.Get "X-Geerpc-Server"
    if addr = "" then (r, w.WriteHeader Http.StatusInternalServerError)
    else (putServer r addr now, w)
  else (r, w.WriteHeader Http.StatusMethodNotAllowed)

/-- A response writer nothing has been written to. -/
def freshWriter : Http.ResponseWriter := { header := ⟨[]⟩, status := none }

end Registry

namespace Xclient

/-! ## Registry-backed discovery (`discovery_grpc.go`) -/

/-- The struct `GrpcRegistryDiscovery`; `servers` is the field of the embedded
`MultiServersDiscovery` that `Refresh` writes. -/
structure GrpcRegistryDiscovery where
  servers : List String
  registry : String
  timeout : Int
  lastUpdate : Int
deriving DecidableEq, Repr

/-- The body of the loop of `Refresh` for one segment. -/
def refreshStep (space : Char → Bool) (servers : List String) (server : String) :
    List String :=
  if Strings.TrimSpace space server ≠ "" then servers ++ [Strings.TrimSpace space server]
  else servers

/-- `func (d *GrpcRegistryDiscovery) Refresh() error`.  `now` is the instant of
the check, `resp` the outcome of `http.Get(d.registry)` (the header of the
response, or the error) if the request is made, and `later` the instant at
which the response has been read. -/
def Refresh (space : Char → Bool) (d : GrpcRegistryDiscovery) (now later : Int)
    (resp : Except Grpc.GoError Http.Header) : GrpcRegistryDiscovery × Option Grpc.GoError :=
  if now < d.lastUpdate + d.timeout then (d, none)
  else
    match resp with
    | .error err => (d, some err)
    | .ok header =>
        let servers := Strings.Split (header.Get "X-Geerpc-Servers") ','
        ({ d with servers := servers.foldl (refreshStep space) [], lastUpdate := later }, none)

/-- A discovery whose list was last refreshed at the instant 100, with a
timeout of 10. -/
def staleDiscovery : GrpcRegistryDiscovery :=
  { servers := ["tcp@old"], registry := "http://localhost:9999/_grpc_/registry",
    timeout := 10, lastUpdate := 100 }

/-- An address the registry can list and the discovery can read back: not
empty, without a comma, and without white space at either end. -/
def PlainAddr (space : Char → Bool) (a : String) : Prop :=
  a ≠ "" ∧ ',' ∉ a.data ∧
  (∀ c, a.data.head? = some c → space c = false) ∧
  (∀ c, a.data.getLast? = some c → space c = false)

end Xclient

namespace Consistenthash

/-! ## Consistent hashing (`consistenthash.go`) -/

/-- The type `Hash`, `func(data []byte) uint32`, on strings. -/
abbrev Hash := String → Nat

/-- The conversion `int(m.hash(...))` of a `uint32` on a 64-bit platform. -/
def hashInt (fn : Hash) (data : String) : Nat := fn data % 2 ^ 32

/-- The struct `Map`. -/
structure Map where
  hash : Hash
  replicas : Int
  keys : List Nat
  hashMap : List (Nat × String)

/-- The function `New`; `ChecksumIEEE` is `crc32.ChecksumIEEE`, which a nil
`fn` is replaced by. -/
def New (ChecksumIEEE : Hash) (replicas : Int) (fn : Option Hash) : Map :=
  { replicas := replicas, hash := fn.getD ChecksumIEEE, keys := [], hashMap := [] }

/-- The decimal digits of a number, most significant first; `fuel` bounds the
number of digits. -/
def digits : Nat → Nat → List Char
  | 0, _ => []
  | fuel + 1, n =>
      if n < 10 then [Char.ofNat (48 + n)]
      else digits fuel (n / 10) ++ [Char.ofNat (48 + n % 10)]

/-- The function `strconv.Itoa` on a number that is not negative. -/
def Itoa (i : Nat) : String := String.mk (digits (i + 1) i)

/-- The body of the inner loop of `Add`: the virtual node `i` of `node`. -/
def addVirtual (node : String) (m : Map) (i : Nat) : Map :=
  { m with
    keys := m.keys ++ [hashInt m.hash (Itoa i ++ node)],
    hashMap := (hashInt m.hash (Itoa i ++ node), node)
      :: m.hashMap.filter (fun e => e.1 ≠ hashInt m.hash (Itoa i ++ node)) }

/-- The body of the outer loop of `Add`: the `replicas` virtual nodes of one
real node. -/
def addNode (m : Map) (node : String) : Map :=
  (List.range m.replicas.toNat).foldl (addVirtual node) m

/-- The call `sort.Ints`: the ascending rearrangement of the slice. -/
def sortInts (l : List Nat) : List Nat := l.insertionSort (fun a b => a ≤ b)

/-- `func (m *Map) Add(realNode ...string)`. -/
def Add (m : Map) (realNode : List String) : Map :=
  { realNode.foldl addNode m with keys := sortInts (realNode.foldl addNode m).keys }

/-- The loop of `sort.Search`; it halves `j - i`, so `fuel = n` rounds are
enough. -/
def searchLoop (f : Nat → Bool) : Nat → Nat → Nat → Nat
  | 0, i, _ => i
  | fuel + 1, i, j =>
      if i < j then
        if !f ((i + j) / 2) then searchLoop f fuel ((i + j) / 2 + 1) j
        else searchLoop f fuel i ((i + j) / 2)
      else i

/-- The function `sort.Search`. -/
def Search (n : Nat) (f : Nat → Bool) : Nat := searchLoop f n 0 n

/-- `func (m *Map) Get(key string) string`. -/
def Get (m : Map) (key : String) : String :=
  if m.keys.length = 0 then ""
  else
    (m.hashMap.lookup
      (m.keys.getD
        (Search m.keys.length (fun i => decide (m.keys.getD i 0 ≥ hashInt m.hash key))
          % m.keys.length) 0)).getD ""

/-- The ring after a sequence of `Add` calls on a new map. -/
def build (ChecksumIEEE : Hash) (replicas : Int) (fn : Option Hash)
    (adds : List (List String)) : Map :=
  adds.foldl Add (New ChecksumIEEE replicas fn)

/-- The key `k` is where the hash `h` lands on the ring `keys`: the smallest
key that is at least `h`, or the smallest key of all when every key is below
`h`. -/
def IsSucc (keys : List Nat) (h k : Nat) : Prop :=
  k ∈ keys ∧
    ((h ≤ k ∧ ∀ k2 ∈ keys, h ≤ k2 → k ≤ k2) ∨
     ((∀ k2 ∈ keys, k2 < h) ∧ ∀ k2 ∈ keys, k ≤ k2))

/-- The function `strconv.Atoi` on the digits of a number, 0 on anything
else. -/
def atoiChars : List Char → Nat → Option Nat
  | [], acc => some acc
  | c :: rest, acc =>
      if '0' ≤ c ∧ c ≤ '9' then atoiChars rest (acc * 10 + (c.toNat - 48)) else none

/-- The hash of `TestHashing`: the number the string spells. -/
def testHash : Hash := fun data =>
  match data.data with
  | [] => 0
  | cs => (atoiChars cs 0).getD 0

/-- The ring of `TestHashing` before `Add("8")`. -/
def testRing : Map := build testHash 3 (some testHash) [["6", "4", "2"]]

/-- The hash of the virtual node `i` of `node`. -/
def virtualHash (m : Map) (i : Nat) (node : String) : Nat := hashInt m.hash (Itoa i ++ node)

/-- What `Add` keeps true of a ring on which the real nodes `added` have been
put: the keys are exactly the hashes of their virtual nodes, there is one key
for each virtual node, and every key is mapped to a real node that has it as
the hash of one of its virtual nodes. -/
def RingOK (m : Map) (added : List String) : Prop :=
  m.keys.length = m.replicas.toNat * added.length ∧
  (∀ k, k ∈ m.keys ↔ ∃ node i, node ∈ added ∧ i < m.replicas.toNat ∧ k = virtualHash m i node) ∧
  ∀ k ∈ m.keys, ∃ node i, m.hashMap.lookup k = some node ∧ node ∈ added ∧
    i < m.replicas.toNat ∧ k = virtualHash m i node

end Consistenthash

namespace Gin

/-! ## The route trie (`trie.go`) and the router (`router.go`) -/

/-- The byte `s[0]` of a string; `none` is the panic on the empty string. -/
def byte0 (s : String) : Option Char := s.data.head?

/-- The slice `s[1:]` of a string whose first byte is a character. -/
def tail1 (s : String) : String := String.mk (s.data.drop 1)

/-- The struct `node`. -/
inductive node where
  | mk (pattern part : String) (children : List node) (isWild : Bool)

/-- The field `pattern`. -/
def node.pattern : node → String
  | .mk p _ _ _ => p

/-- The field `part`. -/
def node.part : node → String
  | .mk _ p _ _ => p

/-- The field `children`. -/
def node.children : node → List node
  | .mk _ _ c _ => c

/-- The field `isWild`. -/
def node.isWild : node → Bool
  | .mk _ _ _ w => w

/-- The condition of `matchChild` and `matchChildren` on one child. -/
def node.matches (child : node) (part : String) : Bool :=
  child.part == part || child.isWild

/-- `func (n *node) insert(pattern string, parts []string, height int)`, on
the parts from `height` on: the node afterwards; `none` is the panic of
`part[0]` on an empty part. -/
def node.insert (pattern : String) : List String → node → Option node
  | [], n => some (.mk pattern n.part n.children n.isWild)
  | part :: rest, n =>
      match n.children.findIdx? (fun c => c.matches part) with
      | some idx =>
          match n.children[idx]? with
          | some child =>
              (node.insert pattern rest child).map
                (fun c => .mk n.pattern n.part (n.children.set idx c) n.isWild)
          | none => none
      | none =>
          match byte0 part with
          | none => none
          | some b =>
              (node.insert pattern rest (.mk "" part [] (b == ':' || b == '*'))).map
                (fun c => .mk n.pattern n.part (n.children ++ [c]) n.isWild)

/-- `func (n *node) search(parts []string, height int) *node`, on the parts
from `height` on; `none` is nil. -/
def node.search : List String → node → Option node
  | [], n => if n.pattern = "" then none else some n
  | part :: rest, n =>
      if byte0 n.part = some '*' then
        if n.pattern = "" then none else some n
      else
        (n.children.filter (fun c => c.matches part)).findSome? (node.search rest)

/-- The loop of `parsePattern` over the items of `strings.Split`. -/
def parseItems : List String → List String
  | [] => []
  | item :: rest =>
      if item ≠ "" then
        if byte0 item = some '*' then [item] else item :: parseItems rest
      else parseItems rest

/-- The function `parsePattern`. -/
def parsePattern (pattern : String) : List String :=
  parseItems (Strings.Split pattern '/')

/-- The struct `router`; a handler is known by a number. -/
structure router where
  roots : List (String × node)
  handlers : List (String × Nat)

/-- The function `newRouter`. -/
def newRouter : router := { roots := [], handlers := [] }

/-- `func (r *router) addRouter(method string, pattern string, handler
HandlerFunc)`; `none` is a panic. -/
def router.addRouter (r : router) (method pattern : String) (handler : Nat) : Option router :=
  let root := (r.roots.lookup method).getD (.mk "" "" [] false)
  (node.insert pattern (parsePattern pattern) root).map (fun root1 =>
    { roots := (method, root1) :: r.roots.filter (fun e => e.1 ≠ method),
      handlers := (method ++ "-" ++ pattern, handler)
        :: r.handlers.filter (fun e => e.1 ≠ method ++ "-" ++ pattern) })

/-- The map write `params[key] = value`. -/
def setParam (params : List (String × String)) (key value : String) :
    List (String × String) :=
  (key, value) :: params.filter (fun e => e.1 ≠ key)

/-- The loop of `getRoute` over the parts of the pattern from `index` on;
`none` is a panic (`part[0]` of an empty part, or an index out of range). -/
def paramsLoop (searchParts : List String) :
    List String → Nat → List (String × String) → Option (List (String × String))
  | [], _, params => some params
  | part :: rest, index, params =>
      match byte0 part with
      | none => none
      | some b =>
          match (if b = ':' then
              (searchParts[index]?).map (fun v => setParam params (tail1 part) v)
            else some params) with
          | none => none
          | some params1 =>
              if b = '*' ∧ part.length > 1 then
                if index ≤ searchParts.length then
                  some (setParam params1 (tail1 part)
                    (Strings.Join (searchParts.drop index) "/"))
                else none
              else paramsLoop searchParts rest (index + 1) params1

/-- `func (r *router) getRoute(method string, path string)
(*node, map[string]string)`; the outer `none` is a panic, the inner `none` the
result `nil, nil`. -/
def router.getRoute (r : router) (method path : String) :
    Option (Option (node × List (String × String))) :=
  match r.roots.lookup method with
  | none => some none
  | some root =>
      match node.search (parsePattern path) root with
      | none => some none
      | some n =>
          (paramsLoop (parsePattern path) (parsePattern n.pattern) 0 []).map
            (fun params => some (n, params))

/-- Adds routes in order; `none` is a panic. -/
def addRoutes (r : router) : List (String × String) → Option router
  | [] => some r
  | (method, pattern) :: rest =>
      match r.addRouter method pattern 0 with
      | none => none
      | some r1 => addRoutes r1 rest

/-- The function `newTestRouter` of `gin_test.go`. -/
def newTestRouter : Option router :=
  addRoutes newRouter
    [("GET", "/"), ("GET", "/hello/:name"), ("GET", "/hello/b/c"), ("GET", "/hi/:name"),
     ("GET", "/assets/*filepath")]

/-- What a test sees of the result of `getRoute`: the pattern of the node and
the parameters. -/
def routeView (r : Option router) (method path : String) :
    Option (Option (String × List (String × String))) :=
  match r with
  | none => none
  | some r => (r.getRoute method path).map (fun x => x.map (fun y => (y.1.pattern, y.2)))

/-- The name a part of a pattern binds in `getRoute`: that of `:name`, and
that of `*name` when the name is not empty. -/
def paramName (part : String) : Option String :=
  match byte0 part with
  | some b =>
      if b = ':' then some (tail1 part)
      else if b = '*' ∧ part.length > 1 then some (tail1 part)
      else none
  | none => none

/-- The part `part` of a pattern, at index `i`, gives the parameter `name` the
value `v` on the path with the segments `searchParts`. -/
def Binds (searchParts : List String) (part : String) (i : Nat) (name v : String) : Prop :=
  (part = ":" ++ name ∧ searchParts[i]? = some v) ∨
  (part = "*" ++ name ∧ name ≠ "" ∧ v = Strings.Join (searchParts.drop i) "/")

/-- A part that begins with `*` can only be the last one. -/
def StarLast : List String → Prop
  | [] => True
  | part :: rest => (byte0 part = some '*' → rest = []) ∧ StarLast rest

/-- The non-empty segments of a path between its slashes. -/
def segments (path : String) : List String :=
  (Strings.Split path '/').filter (fun s => s ≠ "")

/-- A router with the single route "/hello/:name". -/
def nameRouter : router :=
  (addRoutes newRouter [("GET", "/hello/:name")]).getD newRouter

/-- The test `item[0] == '*'` of `parsePattern`. -/
def isStar (s : String) : Bool := byte0 s == some '*'

/-! ## The engine and its route groups (`gin.go`)

A `*RouteGroup` is the index of the group in `engine.groups`; the group the
engine embeds has the index 0.  A middleware is known by a number, as a
handler is. -/

/-- The struct `RouteGroup`, without the pointer to its engine. -/
structure RouteGroup where
  prefix_ : String
  middlewares : List Nat
deriving DecidableEq, Repr

/-- The struct `Engine`. -/
structure Engine where
  router : router
  groups : List RouteGroup

/-- The function `New`. -/
def New : Engine := { router := newRouter, groups := [{ prefix_ := "", middlewares := [] }] }

/-- `func (group *RouteGroup) Use(middlewares ...HandlerFunc)`. -/
def RouteGroup.Use (e : Engine) (group : Nat) (middlewares : List Nat) : Engine :=
  match e.groups[group]? with
  | some g =>
      { e with groups := e.groups.set group { g with middlewares := g.middlewares ++ middlewares } }
  | none => e

/-- `func (group *RouteGroup) Group(prefix string) *RouteGroup`: the engine
afterwards and the new group. -/
def RouteGroup.Group (e : Engine) (group : Nat) (pre : String) : Engine × Nat :=
  match e.groups[group]? with
  | some g =>
      ({ e with groups := e.groups ++ [{ prefix_ := g.prefix_ ++ pre, middlewares := [] }] },
        e.groups.length)
  | none => (e, group)

/-- The struct `Context`, as far as `ServeHTTP` fills it. -/
structure Context where
  Path : String
  Method : String
  handlers : List Nat
  index : Int
deriving DecidableEq, Repr

/-- The function `NewContext`. -/
def NewContext (method path : String) : Context :=
  { Path := path, Method := method, handlers := [], index := -1 }

/-- `func (engine *Engine) ServeHTTP(w http.ResponseWriter, req *http.Request)`
up to its last statement: the context it hands to `engine.router.handle`. -/
def Engine.ServeHTTP (e : Engine) (method path : String) : Context :=
  let middlewares := e.groups.foldl
    (fun acc group =>
      if Strings.HasPrefix path group.prefix_ then acc ++ group.middlewares else acc) []
  { NewContext method path with handlers := middlewares }

/-- The group at `j` was made after the group at `i` and its path begins with
the path of that group, as it does for a group made by `Group` on the group
at `i` or on a group under it. -/
def Under (e : Engine) (i j : Nat) : Prop :=
  i < j ∧ ∃ gi gj s, e.groups[i]? = some gi ∧ e.groups[j]? = some gj ∧
    gj.prefix_ = gi.prefix_ ++ s

/-- The engine of `day5-middleware/main.go`: the middleware 1 on the engine,
the group "/v2" with the middleware 2. -/
def mainEngine : Engine :=
  RouteGroup.Use (RouteGroup.Group (RouteGroup.Use New 0 [1]) 0 "/v2").1 1 [2]

/-- What holds of the nodes of a trie built by `insert`: a node at the depth
`d` that has a pattern has one of `d` parts, and its children are at the
depth `d + 1`. -/
inductive DepthOK : Nat → node → Prop where
  | mk (d : Nat) (pattern part : String) (children : List node) (isWild : Bool) :
      (pattern ≠ "" → (parsePattern pattern).length = d) →
      (∀ c, c ∈ children → DepthOK (d + 1) c) →
      DepthOK d (.mk pattern part children isWild)

/-- Every root of the router is a trie built by `insert`. -/
def RouterOK (r : router) : Prop := ∀ e ∈ r.roots, DepthOK 0 e.2

end Gin

namespace Lru

/-! ## The LRU cache (`lru/lru.go`)

A `*list.Element` is an address together with the entry its field `Value`
points to; the list `ll` of `container/list` is the sequence of its elements
from the front to the back, and the map `cache` gives each key the address of
an element.  The interface `Value` is a type `V` with its method
`Len() int`, here `vlen`.  `int` and `int64` are 64 bits wide. -/

/-- The length `len(s)` of a Go string: the number of its bytes. -/
def len (s : String) : Nat := s.utf8ByteSize

/-- The struct `entry`. -/
structure entry (V : Type) where
  key : String
  value : V
deriving DecidableEq, Repr

/-- A `*list.Element`: its address and the entry its `Value` points to. -/
structure Element (V : Type) where
  ptr : Nat
  kv : entry V
deriving DecidableEq, Repr

/-- The method `(*list.List).MoveToFront`: an element of the list goes to the
front, anything else changes nothing. -/
def MoveToFront {V : Type} (l : List (Element V)) (p : Nat) : List (Element V) :=
  match l.find? (fun e => e.ptr = p) with
  | some e => e :: l.filter (fun x => x.ptr ≠ p)
  | none => l

/-- The method `(*list.List).Remove`. -/
def Remove {V : Type} (l : List (Element V)) (p : Nat) : List (Element V) :=
  l.filter (fun x => x.ptr ≠ p)

/-- The struct `Cache`.  `OnEvicted` says whether the callback is not nil,
`evicted` lists the calls of the callback so far, and `fresh` is the address
the next element gets. -/
structure Cache (V : Type) where
  maxBytes : Int
  nbytes : Int
  ll : List (Element V)
  cache : List (String × Nat)
  OnEvicted : Bool
  evicted : List (String × V)
  fresh : Nat
deriving DecidableEq, Repr

/-- The function `New`. -/
def New {V : Type} (maxBytes : Int) (onEvicted : Bool) : Cache V :=
  { maxBytes := maxBytes, nbytes := 0, ll := [], cache := [], OnEvicted := onEvicted,
    evicted := [], fresh := 0 }

/-- `func (c *Cache) Get(key string) (value Value, ok bool)`: the cache
afterwards and the value, if the key is there.  The outer `none` stands for a
map entry that names no element of the list. -/
def Get {V : Type} (c : Cache V) (key : String) : Option (Cache V × Option V) :=
  match c.cache.lookup key with
  | some p =>
      match c.ll.find? (fun e => e.ptr = p) with
      | some ele => some ({ c with ll := MoveToFront c.ll p }, some ele.kv.value)
      | none => none
  | none => some (c, none)

/-- `func (c *Cache) RemoveOldest()`. -/
def RemoveOldest {V : Type} (vlen : V → Int) (c : Cache V) : Cache V :=
  match c.ll.getLast? with
  | some ele =>
      { c with
        ll := Remove c.ll ele.ptr,
        cache := c.cache.filter (fun x => x.1 ≠ ele.kv.key),
        nbytes := Grpc.wrapInt
          (c.nbytes - Grpc.wrapInt ((len ele.kv.key : Int) + vlen ele.kv.value)),
        evicted :=
          if c.OnEvicted then c.evicted ++ [(ele.kv.key, ele.kv.value)] else c.evicted }
  | none => c

/-- The first statement of `Add`: the entry of the key is updated and moved
to the front, or a new element is pushed to the front.  `none` stands for a
map entry that names no element of the list. -/
def store {V : Type} (vlen : V → Int) (c : Cache V) (key : String) (value : V) :
    Option (Cache V) :=
  match c.cache.lookup key with
  | some p =>
      match c.ll.find? (fun e => e.ptr = p) with
      | some ele =>
          some { c with
            ll := (MoveToFront c.ll p).map (fun e =>
              if e.ptr = p then { e with kv := { e.kv with value := value } } else e),
            nbytes := Grpc.wrapInt
              (c.nbytes + Grpc.wrapInt (vlen value - vlen ele.kv.value)) }
      | none => none
  | none =>
      some { c with
        ll := ⟨c.fresh, ⟨key, value⟩⟩ :: c.ll,
        cache := (key, c.fresh) :: c.cache.filter (fun x => x.1 ≠ key),
        nbytes := Grpc.wrapInt (c.nbytes + Grpc.wrapInt ((len key : Int) + vlen value)),
        fresh := c.fresh + 1 }

/-- The loop `for c.maxBytes != 0 && c.maxBytes < c.nbytes { c.RemoveOldest() }`
run for at most `fuel` tests of its condition; `none` when the condition
still held at the last of them. -/
def evictLoop {V : Type} (vlen : V → Int) : Nat → Cache V → Option (Cache V)
  | 0, _ => none
  | fuel + 1, c =>
      if c.maxBytes ≠ 0 ∧ c.maxBytes < c.nbytes then evictLoop vlen fuel (RemoveOldest vlen c)
      else some c

/-- `func (c *Cache) Add(key string, value Value)`.  The loop gets one test
more than the list has elements: when the condition still holds on the empty
list, `RemoveOldest` changes nothing any more and the loop does not end. -/
def Add {V : Type} (vlen : V → Int) (c : Cache V) (key : String) (value : V) :
    Option (Cache V) :=
  (store vlen c key value).bind (fun c1 => evictLoop vlen (c1.ll.length + 1) c1)

/-- The method `Len`. -/
def Cache.Len {V : Type} (c : Cache V) : Nat := c.ll.length

/-- A call of a method of the cache. -/
inductive Op (V : Type) where
  | add (key : String) (value : V)
  | get (key : String)
  | removeOldest
deriving DecidableEq, Repr

/-- Runs one call; `none` when the call does not return. -/
def Op.run {V : Type} (vlen : V → Int) (c : Cache V) : Op V → Option (Cache V)
  | .add key value => Add vlen c key value
  | .get key => (Get c key).map Prod.fst
  | .removeOldest => some (RemoveOldest vlen c)

/-- Runs calls in order. -/
def run {V : Type} (vlen : V → Int) : List (Op V) → Cache V → Option (Cache V)
  | [], c => some c
  | op :: ops, c => (op.run vlen c).bind (run vlen ops)

/-- The sum of `len(key) + value.Len()` over the elements of a list. -/
def total {V : Type} (vlen : V → Int) (l : List (Element V)) : Int :=
  (l.map (fun e => (len e.kv.key : Int) + vlen e.kv.value)).sum

/-- Whether a call touches a key: `Add` and `Get` of that key do. -/
def Op.touches {V : Type} (k : String) : Op V → Bool
  | .add key _ => key == k
  | .get key => key == k
  | .removeOldest => false

/-- The position, counted from 1, of the last call that touched the key; 0
when no call did. -/
def lastTouch {V : Type} (ops : List (Op V)) (k : String) : Nat :=
  (ops.reverse.dropWhile (fun o => !o.touches k)).length

/-- The length of a string value, for caches of strings. -/
def strLen (s : String) : Int := (len s : Int)

/-- The representation invariant of a cache: the elements of the list have
distinct addresses and distinct keys, the map has each key once and holds
exactly the pairs of the key and the address of an element, every address is
below `fresh`, and `nbytes` is the `int64` sum of the sizes. -/
def Inv {V : Type} (vlen : V → Int) (c : Cache V) : Prop :=
  (c.ll.map (fun e => e.ptr)).Nodup ∧
  (c.ll.map (fun e => e.kv.key)).Nodup ∧
  (c.cache.map Prod.fst).Nodup ∧
  (∀ k p, (k, p) ∈ c.cache ↔ ∃ e ∈ c.ll, e.ptr = p ∧ e.kv.key = k) ∧
  (∀ e ∈ c.ll, e.ptr < c.fresh) ∧
  c.nbytes = Grpc.wrapInt (total vlen c.ll)

/-- The condition of the loop of `Add`. -/
def over {V : Type} (c : Cache V) : Prop := c.maxBytes ≠ 0 ∧ c.maxBytes < c.nbytes

instance {V : Type} (c : Cache V) : Decidable (over c) := by
  unfold over
  exact inferInstance

/-- A cache of strings with the entries of the keys "a" and "b". -/
def twoEntries : Cache String :=
  { maxBytes := 0, nbytes := 7, ll := [⟨0, ⟨"a", "333"⟩⟩, ⟨1, ⟨"b", "22"⟩⟩],
    cache := [("b", 1), ("a", 0)], OnEvicted := false, evicted := [], fresh := 2 }

/-- A cache of strings with room for 2 bytes, after `Add("key", "value")`:
the entry just added has been evicted. -/
def evictedAll : Cache String :=
  { maxBytes := 2, nbytes := 0, ll := [], cache := [], OnEvicted := true,
    evicted := [("key", "value")], fresh := 1 }

/-- A cache of strings with room for 10 bytes that holds 10 bytes. -/
def fullCache : Cache String :=
  { maxBytes := 10, nbytes := 10, ll := [⟨1, ⟨"b", "2222"⟩⟩, ⟨0, ⟨"a", "1111"⟩⟩],
    cache := [("b", 1), ("a", 0)], OnEvicted := false, evicted := [], fresh := 2 }

/-- A cache of strings with a callback, after `Add("a", "1")`,
`Add("b", "22")` and `Get("a")`. -/
def touched : Cache String :=
  { maxBytes := 0, nbytes := 5, ll := [⟨0, ⟨"a", "1"⟩⟩, ⟨1, ⟨"b", "22"⟩⟩],
    cache := [("b", 1), ("a", 0)], OnEvicted := true, evicted := [], fresh := 2 }

/-- The cache `New(-1, nil)` of strings after the first statement of
`Add("k", "v")`. -/
def spinning : Cache String :=
  { maxBytes := -1, nbytes := 2, ll := [⟨0, ⟨"k", "v"⟩⟩], cache := [("k", 0)],
    OnEvicted := false, evicted := [], fresh := 1 }

end Lru

namespace Gcache

/-! ## The group cache (`gcache/byteview.go`, `cache.go`, `gcache.go`)

Calls are made one after the other, so the mutexes are always free and
`loader.Do` finds no call in flight and runs the function it is given. -/

/-- The struct `ByteView`. -/
structure ByteView where
  b : List UInt8
deriving DecidableEq, Repr

/-- The method `ByteView.Len`. -/
def ByteView.Len (v : ByteView) : Int := (v.b.length : Int)

/-- The function `cloneBytes`: a copy of the slice. -/
def cloneBytes (b : List UInt8) : List UInt8 := b

/-- The method `ByteView.ByteSlice`. -/
def ByteView.ByteSlice (v : ByteView) : List UInt8 := cloneBytes v.b

/-- The struct `cache`; `lru` is nil until the first `add`. -/
structure cache where
  lru : Option (Lru.Cache ByteView)
  cacheBytes : Int
deriving DecidableEq, Repr

/-- `func (c *cache) add(key string, value ByteView)`; `none` when `lru.Add`
does not return. -/
def cache.add (c : cache) (key : String) (value : ByteView) : Option cache :=
  let l :=
    match c.lru with
    | none => Lru.New c.cacheBytes false
    | some l => l
  (Lru.Add ByteView.Len l key value).map (fun l1 => { c with lru := some l1 })

/-- `func (c *cache) get(key string) (value ByteView, ok bool)`: the cache
afterwards and the value, if the key is there. -/
def cache.get (c : cache) (key : String) : Option (cache × Option ByteView) :=
  match c.lru with
  | none => some (c, none)
  | some l => (Lru.Get l key).map (fun r => ({ c with lru := some r.1 }, r.2))

/-- A `PeerGetter`: what its `Get` answers for a group and a key, the bytes of
`out.Value` or the error. -/
abbrev PeerGetter := String → String → Except Grpc.GoError (List UInt8)

/-- A `PeerPicker`: the peer `PickPeer` gives for a key, if it gives one. -/
abbrev PeerPicker := String → Option PeerGetter

/-- The struct `Group`.  `getter` is what `getter.Get` returns for a key, and
`loads` lists the keys `getter.Get` has been called with. -/
structure Group where
  name : String
  getter : String → Except Grpc.GoError (List UInt8)
  mainCache : cache
  peers : Option PeerPicker
  loads : List String

/-- The function `NewGroup`, without the entry it makes in `groups`. -/
def NewGroup (name : String) (cacheBytes : Int)
    (getter : String → Except Grpc.GoError (List UInt8)) : Group :=
  { name := name, getter := getter, mainCache := { lru := none, cacheBytes := cacheBytes },
    peers := none, loads := [] }

/-- `func (g *Group) getLocally(key string) (ByteView, error)`. -/
def Group.getLocally (g : Group) (key : String) :
    Option (Group × Except Grpc.GoError ByteView) :=
  match g.getter key with
  | .error err => some ({ g with loads := g.loads ++ [key] }, .error err)
  | .ok bytes =>
      (g.mainCache.add key ⟨cloneBytes bytes⟩).map (fun mc =>
        ({ g with loads := g.loads ++ [key], mainCache := mc }, .ok ⟨cloneBytes bytes⟩))

/-- `func (g *Group) getFromPeer(peer PeerGetter, key string) (ByteView, error)`. -/
def Group.getFromPeer (g : Group) (peer : PeerGetter) (key : String) :
    Except Grpc.GoError ByteView :=
  match peer g.name key with
  | .error err => .error err
  | .ok value => .ok ⟨value⟩

/-- `func (g *Group) load(key string) (value ByteView, err error)`. -/
def Group.load (g : Group) (key : String) : Option (Group × Except Grpc.GoError ByteView) :=
  match g.peers with
  | some peers =>
      match peers key with
      | some peer =>
          match g.getFromPeer peer key with
          | .ok value => some (g, .ok value)
          | .error _ => g.getLocally key
      | none => g.getLocally key
  | none => g.getLocally key

/-- `func (g *Group) Get(key string) (ByteView, error)`: the group afterwards
and the result; `none` when the call does not return. -/
def Group.Get (g : Group) (key : String) : Option (Group × Except Grpc.GoError ByteView) :=
  if key = "" then some (g, .error (Grpc.fmtErrorf "key is required"))
  else
    match g.mainCache.get key with
    | none => none
    | some (mc, some v) => some ({ g with mainCache := mc }, .ok v)
    | some (mc, none) => Group.load { g with mainCache := mc } key

/-- Calls `Get` for the keys in order and drops the results. -/
def Group.gets : List String → Group → Option Group
  | [], g => some g
  | key :: rest, g => (g.Get key).bind (fun r => Group.gets rest r.1)

/-- What holds of a group made by `NewGroup(name, cacheBytes, getter)` after
`Get` has been called for the keys `ks`: no peers, the same getter, and a
cache whose entries are results of the getter for keys of `ks`. -/
def GroupOK (cacheBytes : Int) (getter : String → Except Grpc.GoError (List UInt8))
    (ks : List String) (g : Group) : Prop :=
  g.getter = getter ∧ g.peers.isNone = true ∧ g.mainCache.cacheBytes = cacheBytes ∧
  ∀ l, g.mainCache.lru = some l →
    Lru.Inv ByteView.Len l ∧ l.maxBytes = cacheBytes ∧
    ∀ e ∈ l.ll, e.kv.key ∈ ks ∧ getter e.kv.key = .ok e.kv.value.b

/-- The database of the test `TestGroup`. -/
def db (key : String) : Except Grpc.GoError (List UInt8) :=
  if key = "Tom" then .ok [54, 51, 48]
  else if key = "Jack" then .ok [53, 56, 57]
  else if key = "Sam" then .ok [53, 54, 55]
  else .error (Grpc.errorsNew (key ++ " not exist"))

/-- The group of `TestGroup` after `Get("Tom")`. -/
def afterTom : Group :=
  { name := "scores", getter := db,
    mainCache :=
      { lru := some
          { maxBytes := 2048, nbytes := 6, ll := [⟨0, ⟨"Tom", ⟨[54, 51, 48]⟩⟩⟩],
            cache := [("Tom", 0)], OnEvicted := false, evicted := [], fresh := 1 },
        cacheBytes := 2048 },
    peers := none, loads := ["Tom"] }

/-! ## The HTTP pool (`gcache/http.go`) -/

/-- The constant `defaultBasePath`. -/
def defaultBasePath : String := "/_gcache/"

/-- The struct `HTTPPool`, with the fields `ServeHTTP` reads. -/
structure HTTPPool where
  self : String
  basePath : String
deriving DecidableEq, Repr

/-- The function `NewHTTPPool`. -/
def NewHTTPPool (self : String) : HTTPPool := { self := self, basePath := defaultBasePath }

/-- The message of the panic of a nil pointer dereference. -/
def nilDereference : String :=
  "runtime error: invalid memory address or nil pointer dereference"

/-- What a call of `ServeHTTP` leaves: the map `groups`, the response, the
calls of `Get` it made (the name of the group and the key), and the message
of the panic, if it ended in one. -/
structure Served where
  groups : List (String × Group)
  w : Http.Response
  gets : List (String × String)
  panicked : Option String

/-- The call `group.Get(key)` of `ServeHTTP` on what `GetGroup` returned, a
group or nil: the group afterwards and the result, or the message of the
panic.  On nil the test of the key does not touch the group, and
`g.mainCache` does.  The outer `none`: the call does not return. -/
def callGet (group : Option Group) (key : String) :
    Option (Except String (Option Group × Except Grpc.GoError ByteView)) :=
  match group with
  | none =>
      if key = "" then some (.ok (none, .error (Grpc.fmtErrorf "key is required")))
      else some (.error nilDereference)
  | some g => (g.Get key).map (fun r => .ok (some r.1, r.2))

/-- The last two statements of `ServeHTTP`. -/
def writeView (w : Http.Response) (view : ByteView) : Http.Response :=
  Http.Response.Write
    { w with w := { w.w with header := w.w.header.Set "Content-Type" "application/octet-stream" } }
    (.bytes view.ByteSlice)

/-- `func (p *HTTPPool) ServeHTTP(w http.ResponseWriter, r *http.Request)` of
`day5-multi-nodes`, for the path of the request; `groups` is the map of the
package.  The outer `none`: the call does not return. -/
def HTTPPool.ServeHTTP (p : HTTPPool) (groups : List (String × Group)) (w : Http.Response)
    (path : String) : Option Served :=
  if Strings.HasPrefix path p.basePath = false then
    some { groups := groups, w := w, gets := [],
           panicked := some ("HTTPPool serving unexpected path: " ++ path) }
  else
    match Strings.SplitN (String.mk (path.data.drop p.basePath.data.length)) '/' 2 with
    | [groupName, key] =>
        let group := groups.lookup groupName
        let w1 :=
          match group with
          | none => Http.Error w ("no such group: " ++ groupName) Http.StatusNotFound
          | some _ => w
        match callGet group key with
        | none => none
        | some (.error msg) =>
            some { groups := groups, w := w1, gets := [(groupName, key)], panicked := some msg }
        | some (.ok (group1, res)) =>
            let groups1 :=
              match group1 with
              | none => groups
              | some g1 => groups.map (fun e => if e.1 = groupName then (e.1, g1) else e)
            match res with
            | .error err =>
                some { groups := groups1,
                       w := writeView (Http.Error w1 err.msg Http.StatusInternalServerError) ⟨[]⟩,
                       gets := [(groupName, key)], panicked := none }
            | .ok view =>
                some { groups := groups1, w := writeView w1 view,
                       gets := [(groupName, key)], panicked := none }
    | _ =>
        some { groups := groups, w := Http.Error w "bad request" Http.StatusBadRequest,
               gets := [], panicked := none }

/-- What a client and a test see of a call of `ServeHTTP`: the status, the
body, the calls of `Get` and the panic. -/
def Served.view (s : Option Served) :
    Option (Nat × List Http.Chunk × List (String × String) × Option String) :=
  s.map (fun x => (x.w.w.statusCode, x.w.body, x.gets, x.panicked))

end Gcache

/-! # Theorems -/

namespace Grpc

/-! ## The pending table -/

theorem mem_mapDelete {m : List (Nat × Nat)} {k : Nat} {e : Nat × Nat} :
    e ∈ mapDelete m k ↔ e ∈ m ∧ e.1 ≠ k := by
  simp [mapDelete]

theorem mapDelete_keys_nodup {m : List (Nat × Nat)} (k : Nat)
    (h : (m.map Prod.fst).Nodup) : ((mapDelete m k).map Prod.fst).Nodup := by
  unfold mapDelete
  exact h.sublist ((List.filter_sublist m).map Prod.fst)

theorem mapGet_mapDelete_self (m : List (Nat × Nat)) (k : Nat) :
    mapGet (mapDelete m k) k = none := by
  simp only [mapGet, List.lookup_eq_none_iff]
  intro e he
  have := (mem_mapDelete.1 he).2
  simpa [bne_iff_ne] using fun h => this h.symm

theorem mapGet_eq_some_of_mem {m : List (Nat × Nat)} (h : (m.map Prod.fst).Nodup)
    {k p : Nat} (hm : (k, p) ∈ m) : mapGet m k = some p := by
  induction m with
  | nil => simp at hm
  | cons e rest ih =>
      obtain ⟨k1, p1⟩ := e
      simp only [List.map_cons, List.nodup_cons] at h
      rcases List.mem_cons.1 hm with heq | hmem
      · cases heq
        simp [mapGet]
      · have hne : k ≠ k1 := by
          intro hk
          apply h.1
          rw [← hk]
          exact List.mem_map_of_mem Prod.fst hmem
        have := ih h.2 hmem
        simp only [mapGet] at this ⊢
        rw [List.lookup_cons]
        have hb : (k == k1) = false := by simpa using hne
        simp [hb, this]

theorem mem_of_mapGet_eq_some {m : List (Nat × Nat)} {k p : Nat}
    (h : mapGet m k = some p) : (k, p) ∈ m := by
  obtain ⟨l1, l2, rfl, _⟩ := List.lookup_eq_some_iff.1 h
  simp

/-! ## Frame lemmas for the heap -/

theorem update_client (w : World) (p : Nat) (f : Call → Call) :
    (w.update p f).client = w.client := rfl

theorem update_sent (w : World) (p : Nat) (f : Call → Call) :
    (w.update p f).sent = w.sent := rfl

theorem update_heap_get (w : World) (p q : Nat) (f : Call → Call) :
    (w.update p f).heap[q]? = (fun a => if p = q then f a else a) <$> w.heap[q]? := by
  simp [World.update, List.getElem?_modify]

theorem done_client (w : World) (p : Nat) : (Call.done w p).client = w.client := by
  unfold Call.done
  split <;> rfl

theorem done_heap (w : World) (p : Nat) : (Call.done w p).heap = w.heap := by
  unfold Call.done
  split <;> rfl

theorem terminateOne_client (err : Option GoError) (w : World) (e : Nat × Nat) :
    (terminateOne err w e).client = w.client := by
  simp [terminateOne, done_client, update_client]

theorem terminateOne_heap_get (err : Option GoError) (w : World) (e : Nat × Nat) (q : Nat) :
    (terminateOne err w e).heap[q]? =
      (fun a => if e.2 = q then { a with Error := err } else a) <$> w.heap[q]? := by
  simp [terminateOne, done_heap, update_heap_get]

theorem foldl_terminateOne_client (err : Option GoError) (l : List (Nat × Nat)) :
    ∀ w : World, (l.foldl (terminateOne err) w).client = w.client := by
  induction l with
  | nil => intro w; rfl
  | cons e rest ih =>
      intro w
      rw [List.foldl_cons, ih, terminateOne_client]

theorem foldl_terminateOne_seq (err : Option GoError) (l : List (Nat × Nat)) :
    ∀ (w : World) (q : Nat),
      ((l.foldl (terminateOne err) w).heap[q]?).map Call.Seq = (w.heap[q]?).map Call.Seq := by
  induction l with
  | nil => intro w q; rfl
  | cons e rest ih =>
      intro w q
      rw [List.foldl_cons, ih, terminateOne_heap_get]
      cases w.heap[q]? with
      | none => rfl
      | some c => by_cases h : e.2 = q <;> simp [h]

theorem receiveStep_frame (w : World) :
    (receiveStep w).1.client.seq = w.client.seq ∧
    (receiveStep w).1.client.closing = w.client.closing ∧
    (receiveStep w).1.client.shutdown = w.client.shutdown ∧
    ((receiveStep w).1.client.pending = w.client.pending ∨
      ∃ k, (receiveStep w).1.client.pending = mapDelete w.client.pending k) ∧
    ∀ q : Nat, ((receiveStep w).1.heap[q]?).map Call.Seq = (w.heap[q]?).map Call.Seq := by
  unfold receiveStep
  rcases hh : (w.client.cc.ReadHeader).2 with e | h
  · simp [hh]
  · simp only [hh, removeCall]
    rcases hg : mapGet w.client.pending h.Seq with _ | call
    · simp [hg]
    · simp only [hg]
      by_cases he : h.Error ≠ ""
      · rw [if_pos he]
        simp only [done_client, done_heap, update_client, update_heap_get]
        refine ⟨trivial, trivial, trivial, Or.inr ⟨_, rfl⟩, ?_⟩
        intro q
        cases w.heap[q]? with
        | none => simp
        | some c => by_cases hq : call = q <;> simp [hq]
      · rw [if_neg he]
        simp only [done_client, done_heap]
        refine ⟨?_, ?_, ?_, ?_, ?_⟩
        all_goals
          rcases hb1 : (GobCodec.ReadBody (w.client.cc.ReadHeader).1 true).2.1 with _ | v <;>
          rcases hb2 : (GobCodec.ReadBody (w.client.cc.ReadHeader).1 true).2.2 with _ | err <;>
          simp only [hb1, hb2, update_client, update_heap_get]
        all_goals first
          | trivial
          | rfl
          | exact Or.inr ⟨_, rfl⟩
          | (intro q
             cases w.heap[q]? with
             | none => simp
             | some c => by_cases hq : call = q <;> simp [hq])

theorem terminateCalls_client (w : World) (err : Option GoError) :
    (terminateCalls w err).client = { w.client with shutdown := true } := by
  simp [terminateCalls, foldl_terminateOne_client]

theorem terminateCalls_seq (w : World) (err : Option GoError) (q : Nat) :
    ((terminateCalls w err).heap[q]?).map Call.Seq = (w.heap[q]?).map Call.Seq := by
  simp only [terminateCalls]
  rw [foldl_terminateOne_seq]


/-! ## Every step keeps the invariants -/

theorem pendingOK_remove (w : World) (seq : Nat) (h : PendingOK w) :
    PendingOK (removeCall w seq).1 := by
  refine ⟨mapDelete_keys_nodup seq h.1, ?_⟩
  intro e he
  exact h.2 e (mem_mapDelete.1 he).1

theorem pendingOK_terminate (w : World) (err : Option GoError) (h : PendingOK w) :
    PendingOK (terminateCalls w err) := by
  refine ⟨by rw [terminateCalls_client]; exact h.1, ?_⟩
  intro e he
  rw [terminateCalls_client] at he
  rw [terminateCalls_seq]
  exact h.2 e he

theorem pendingOK_close (w : World) (h : PendingOK w) : PendingOK (Close w).1 := by
  unfold Close
  split
  · exact h
  · exact h

theorem pendingOK_register (w : World) (sm : String) (a r : Value) (d : Nat)
    (h : PendingOK w) :
    PendingOK (registerCall (newCall w sm a r d).1 (newCall w sm a r d).2).1 := by
  have hold : ∀ e ∈ w.client.pending, e.2 < w.heap.length := by
    intro e he
    have := h.2 e he
    by_contra hlt
    rw [List.getElem?_eq_none (Nat.le_of_not_lt hlt)] at this
    simp at this
  unfold registerCall
  by_cases hc : ((newCall w sm a r d).1.client.closing || (newCall w sm a r d).1.client.shutdown) = true
  · rw [if_pos hc]
    refine ⟨h.1, ?_⟩
    intro e he
    have hlt := hold e he
    have := h.2 e he
    show (((w.heap ++ _)[e.2]?).map Call.Seq) = some e.1
    rw [List.getElem?_append_left hlt]
    exact this
  · rw [if_neg hc]
    constructor
    · show ((mapSet w.client.pending w.client.seq w.heap.length).map Prod.fst).Nodup
      simp only [mapSet, List.map_cons, List.nodup_cons]
      refine ⟨?_, mapDelete_keys_nodup _ h.1⟩
      intro hmem
      obtain ⟨e, he, hk⟩ := List.mem_map.1 hmem
      exact (mem_mapDelete.1 he).2 hk
    · intro e he
      have he2 : e ∈ mapSet w.client.pending w.client.seq w.heap.length := he
      simp only [mapSet, List.mem_cons] at he2
      show ((((newCall w sm a r d).1.update w.heap.length _).heap[e.2]?).map Call.Seq) = some e.1
      rw [update_heap_get]
      rcases he2 with rfl | hmem
      · simp [newCall]
      · have hin := (mem_mapDelete.1 hmem).1
        have hlt := hold e hin
        have hne : ¬ (w.heap.length = e.2) := by omega
        have := h.2 e hin
        simp only [newCall, List.getElem?_append_left hlt, hne, if_false]
        cases hq : w.heap[e.2]? with
        | none => rw [hq] at this; simp at this
        | some c => rw [hq] at this; simpa using this

theorem numbered_mono {w : World} {n : Nat} (h : Numbered w n) {w2 : World}
    (hs : w2.client.seq = w.client.seq)
    (hp : ∀ e ∈ w2.client.pending, e ∈ w.client.pending) : Numbered w2 n :=
  ⟨hs.trans h.1, fun e he => h.2 e (hp e he)⟩

theorem step_inv (w : World) (n : Nat) (s : Step) (h1 : PendingOK w) (h2 : Numbered w n) :
    PendingOK (s.run w).1 ∧
      (((s.run w).2 = none ∧ Numbered (s.run w).1 n) ∨
       ((s.run w).2 = some ((n + 1) % uint64Mod) ∧ Numbered (s.run w).1 (n + 1))) := by
  cases s with
  | remove seq =>
      refine ⟨pendingOK_remove w seq h1, Or.inl ⟨rfl, ?_⟩⟩
      exact numbered_mono h2 rfl (fun e he => (mem_mapDelete.1 he).1)
  | terminate err =>
      refine ⟨pendingOK_terminate w _ h1, Or.inl ⟨rfl, ?_⟩⟩
      refine numbered_mono h2 ?_ ?_
      · show (terminateCalls w (some err)).client.seq = _
        rw [terminateCalls_client]
      · intro e he
        have he2 : e ∈ (terminateCalls w (some err)).client.pending := he
        rw [terminateCalls_client] at he2
        exact he2
  | close =>
      refine ⟨pendingOK_close w h1, Or.inl ⟨rfl, ?_⟩⟩
      refine numbered_mono h2 ?_ ?_
      · show (Close w).1.client.seq = _
        unfold Close; split <;> rfl
      · intro e he
        have he2 : e ∈ (Close w).1.client.pending := he
        unfold Close at he2
        split at he2 <;> exact he2
  | receive =>
      obtain ⟨hseq, _, _, hpend, hheap⟩ := receiveStep_frame w
      have hsub : ∀ e ∈ (receiveStep w).1.client.pending, e ∈ w.client.pending := by
        intro e he
        rcases hpend with h | ⟨k, h⟩
        · rw [h] at he; exact he
        · rw [h] at he; exact (mem_mapDelete.1 he).1
      refine ⟨⟨?_, ?_⟩, Or.inl ⟨rfl, numbered_mono h2 hseq hsub⟩⟩
      · show ((receiveStep w).1.client.pending.map Prod.fst).Nodup
        rcases hpend with h | ⟨k, h⟩
        · rw [h]; exact h1.1
        · rw [h]; exact mapDelete_keys_nodup k h1.1
      · intro e he
        show ((receiveStep w).1.heap[e.2]?).map Call.Seq = some e.1
        rw [hheap]
        exact h1.2 e (hsub e he)
  | register sm a r d =>
      refine ⟨pendingOK_register w sm a r d h1, ?_⟩
      show (_ ∧ Numbered (registerCall (newCall w sm a r d).1 (newCall w sm a r d).2).1 n) ∨
        (_ ∧ Numbered (registerCall (newCall w sm a r d).1 (newCall w sm a r d).2).1 (n + 1))
      simp only [Step.run]
      unfold registerCall
      by_cases hc : ((newCall w sm a r d).1.client.closing || (newCall w sm a r d).1.client.shutdown) = true
      · rw [if_pos hc]
        left
        exact ⟨by simp, h2⟩
      · rw [if_neg hc]
        right
        refine ⟨by simp [newCall, h2.1], ?_, ?_⟩
        · show (w.client.seq + 1) % uint64Mod = (n + 1 + 1) % uint64Mod
          rw [h2.1, Nat.mod_add_mod]
        · intro e he
          have he2 : e ∈ mapSet w.client.pending w.client.seq w.heap.length := he
          simp only [mapSet, List.mem_cons] at he2
          rcases he2 with rfl | hmem
          · exact ⟨n, Nat.lt_succ_self n, h2.1⟩
          · obtain ⟨i, hi, hk⟩ := h2.2 e (mem_mapDelete.1 hmem).1
            exact ⟨i, Nat.lt_succ_of_lt hi, hk⟩

theorem runSteps_inv (steps : List Step) :
    ∀ (w : World) (n : Nat), PendingOK w → Numbered w n →
      PendingOK (runSteps w steps).1 ∧
      Numbered (runSteps w steps).1 (n + (runSteps w steps).2.length) ∧
      ∀ i, i < (runSteps w steps).2.length →
        (runSteps w steps).2[i]? = some ((n + i + 1) % uint64Mod) := by
  induction steps with
  | nil =>
      intro w n h1 h2
      exact ⟨h1, h2, fun i hi => absurd hi (Nat.not_lt_zero i)⟩
  | cons s rest ih =>
      intro w n h1 h2
      obtain ⟨hp, hcase⟩ := step_inv w n s h1 h2
      simp only [runSteps]
      rcases hcase with ⟨hnone, hnum⟩ | ⟨hsome, hnum⟩
      · rw [hnone]
        simpa using ih (s.run w).1 n hp hnum
      · rw [hsome]
        obtain ⟨a, b, c⟩ := ih (s.run w).1 (n + 1) hp hnum
        refine ⟨a, ?_, ?_⟩
        · have : n + ([(n + 1) % uint64Mod] ++ (runSteps (s.run w).1 rest).2).length
              = n + 1 + (runSteps (s.run w).1 rest).2.length := by
            simp; omega
          rw [this]; exact b
        · intro i hi
          cases i with
          | zero => simp
          | succ j =>
              have hj : j < (runSteps (s.run w).1 rest).2.length := by
                simp at hi; omega
              have := c j hj
              simp only [List.singleton_append, List.getElem?_cons_succ]
              rw [this]
              congr 2
              omega

theorem newClientCodec_inv (cc : GobCodec) :
    PendingOK (newClientCodec cc) ∧ Numbered (newClientCodec cc) 0 := by
  refine ⟨⟨by simp [newClientCodec], by simp [newClientCodec]⟩, ?_, by simp [newClientCodec]⟩
  simp [newClientCodec, uint64Mod]


/-! ## Sequence numbers (C1) -/

theorem register_open (w : World) (sm : String) (a r : Value) (d : Nat)
    (hc : w.client.closing = false) (hs : w.client.shutdown = false) :
    ((Step.register sm a r d).run w).1.client.closing = false ∧
    ((Step.register sm a r d).run w).1.client.shutdown = false ∧
    ((Step.register sm a r d).run w).1.client.seq = (w.client.seq + 1) % uint64Mod ∧
    ((Step.register sm a r d).run w).2 = some w.client.seq ∧
    (w.client.seq, w.heap.length) ∈ ((Step.register sm a r d).run w).1.client.pending := by
  simp [Step.run, registerCall, newCall, hc, hs, World.update, mapSet]

theorem runSteps_cons (w : World) (s : Step) (rest : List Step) :
    runSteps w (s :: rest) =
      ((runSteps (s.run w).1 rest).1,
        (match (s.run w).2 with | some n => [n] | none => []) ++ (runSteps (s.run w).1 rest).2) :=
  rfl

theorem runSteps_replicate_register (n : Nat) :
    ∀ w : World, w.client.closing = false → w.client.shutdown = false →
      (runSteps w (List.replicate (n + 1) plainRegister)).2.length = n + 1 ∧
      ∃ e ∈ (runSteps w (List.replicate (n + 1) plainRegister)).1.client.pending,
        e.1 = w.client.seq + n ∨ e.1 % uint64Mod = (w.client.seq + n) % uint64Mod := by
  induction n with
  | zero =>
      intro w hc hs
      obtain ⟨_, _, _, h4, h5⟩ := register_open w "" Value.nil Value.nil 0 hc hs
      simp only [List.replicate, runSteps, plainRegister]
      rw [h4]
      exact ⟨by simp, _, h5, Or.inl rfl⟩
  | succ m ih =>
      intro w hc hs
      obtain ⟨h1, h2, h3, h4, _⟩ := register_open w "" Value.nil Value.nil 0 hc hs
      obtain ⟨hl, e, he, hk⟩ := ih (plainRegister.run w).1 h1 h2
      rw [List.replicate_succ, runSteps_cons]
      refine ⟨?_, e, he, Or.inr ?_⟩
      · have h4b : (plainRegister.run w).2 = some w.client.seq := h4
        rw [h4b]
        simp only [List.singleton_append, List.length_cons, hl]
      · have h3b : (plainRegister.run w).1.client.seq = (w.client.seq + 1) % uint64Mod := h3
        rw [h3b] at hk
        rcases hk with hk | hk
        · rw [hk, Nat.add_mod, Nat.mod_mod, ← Nat.add_mod]
          congr 1
          omega
        · rw [hk, Nat.add_mod, Nat.mod_mod, ← Nat.add_mod]
          congr 1
          omega

theorem reachable_pendingOK (cc : GobCodec) (steps : List Step) :
    PendingOK (runSteps (newClientCodec cc) steps).1 :=
  (runSteps_inv steps (newClientCodec cc) 0 (newClientCodec_inv cc).1 (newClientCodec_inv cc).2).1

/-- C1, as stated, fails: after `2^64 - 1` registrations on a fresh client
the counter `client.seq` has wrapped to 0 while the table still holds a key,
so not every key is smaller than `client.seq`. -/
theorem C1_counterexample :
    ¬ ∀ k p : Nat,
        (k, p) ∈ (runSteps (newClientCodec (NewGobCodec []))
            (List.replicate (2 ^ 64 - 1) plainRegister)).1.client.pending →
        k < (runSteps (newClientCodec (NewGobCodec []))
            (List.replicate (2 ^ 64 - 1) plainRegister)).1.client.seq := by
  have hcount : (2 : Nat) ^ 64 - 1 = 2 ^ 64 - 2 + 1 := by norm_num
  rw [hcount]
  intro hall
  obtain ⟨hl, e, he, _⟩ :=
    runSteps_replicate_register (2 ^ 64 - 2) (newClientCodec (NewGobCodec [])) rfl rfl
  obtain ⟨h1, h2⟩ := newClientCodec_inv (NewGobCodec [])
  obtain ⟨_, hnum, _⟩ :=
    runSteps_inv (List.replicate (2 ^ 64 - 2 + 1) plainRegister) _ 0 h1 h2
  have hseq := hnum.1
  rw [hl] at hseq
  have hz : (0 + (2 ^ 64 - 2 + 1) + 1) % uint64Mod = 0 := by
    unfold uint64Mod
    norm_num
  rw [hz] at hseq
  have := hall e.1 e.2 he
  rw [hseq] at this
  exact Nat.not_lt_zero _ this

/-- C1 (amended).  For every client made by `newClientCodec` and every
sequence of `registerCall` / `removeCall` / `terminateCalls` / `Close` steps:
the n-th successful `registerCall` returns `n` modulo `2^64`, hence `n` itself
and never 0 while fewer than `2^64` calls have been registered; every entry of
the pending table under key `k` points to the call whose `Seq` field is `k`;
while fewer than `2^64 - 1` calls have been registered `client.seq` is one
more than their number and every key of the table is smaller than
`client.seq`; and two entries of the table whose calls carry the same sequence
number are the same entry. -/
theorem C1_sequence_numbers (cc : GobCodec) (steps : List Step) :
    (∀ i, i < (runSteps (newClientCodec cc) steps).2.length →
        (runSteps (newClientCodec cc) steps).2[i]? = some ((i + 1) % uint64Mod)) ∧
    ((runSteps (newClientCodec cc) steps).2.length < uint64Mod →
        (∀ i, i < (runSteps (newClientCodec cc) steps).2.length →
          (runSteps (newClientCodec cc) steps).2[i]? = some (i + 1)) ∧
        0 ∉ (runSteps (newClientCodec cc) steps).2) ∧
    (∀ k p, (k, p) ∈ (runSteps (newClientCodec cc) steps).1.client.pending →
        ((runSteps (newClientCodec cc) steps).1.heap[p]?).map Call.Seq = some k) ∧
    ((runSteps (newClientCodec cc) steps).2.length < uint64Mod - 1 →
        (runSteps (newClientCodec cc) steps).1.client.seq
          = (runSteps (newClientCodec cc) steps).2.length + 1 ∧
        ∀ k p, (k, p) ∈ (runSteps (newClientCodec cc) steps).1.client.pending →
          k < (runSteps (newClientCodec cc) steps).1.client.seq) ∧
    (∀ k1 p1 k2 p2,
        (k1, p1) ∈ (runSteps (newClientCodec cc) steps).1.client.pending →
        (k2, p2) ∈ (runSteps (newClientCodec cc) steps).1.client.pending →
        ((runSteps (newClientCodec cc) steps).1.heap[p1]?).map Call.Seq
          = ((runSteps (newClientCodec cc) steps).1.heap[p2]?).map Call.Seq →
        k1 = k2 ∧ p1 = p2) := by
  obtain ⟨h1, h2⟩ := newClientCodec_inv cc
  obtain ⟨hp, hnum, hiss⟩ := runSteps_inv steps (newClientCodec cc) 0 h1 h2
  have hiss2 : ∀ i, i < (runSteps (newClientCodec cc) steps).2.length →
      (runSteps (newClientCodec cc) steps).2[i]? = some ((i + 1) % uint64Mod) := by
    intro i hi
    rw [hiss i hi, Nat.zero_add]
  refine ⟨hiss2, ?_, fun k p hm => hp.2 (k, p) hm, ?_, ?_⟩
  · intro hlen
    have hsmall : ∀ i, i < (runSteps (newClientCodec cc) steps).2.length →
        (runSteps (newClientCodec cc) steps).2[i]? = some (i + 1) := by
      intro i hi
      rw [hiss2 i hi, Nat.mod_eq_of_lt (by omega)]
    refine ⟨hsmall, ?_⟩
    intro hz
    obtain ⟨i, hi, hget⟩ := List.getElem_of_mem hz
    have := hsmall i hi
    rw [List.getElem?_eq_getElem hi, hget] at this
    simp at this
  · intro hlen
    have hseq : (runSteps (newClientCodec cc) steps).1.client.seq
        = (runSteps (newClientCodec cc) steps).2.length + 1 := by
      rw [hnum.1, Nat.zero_add, Nat.mod_eq_of_lt (by omega)]
    refine ⟨hseq, ?_⟩
    intro k p hm
    obtain ⟨i, hi, hk⟩ := hnum.2 (k, p) hm
    rw [hseq]
    have hk2 : k = (i + 1) % uint64Mod := hk
    rw [hk2, Nat.mod_eq_of_lt (by omega)]
    omega
  · intro k1 p1 k2 p2 hm1 hm2 heq
    have e1 := hp.2 (k1, p1) hm1
    have e2 := hp.2 (k2, p2) hm2
    have hk : k1 = k2 := by
      simp only at e1 e2
      rw [e1, e2] at heq
      exact Option.some.inj heq
    refine ⟨hk, ?_⟩
    subst hk
    have g1 := mapGet_eq_some_of_mem hp.1 hm1
    have g2 := mapGet_eq_some_of_mem hp.1 hm2
    rw [g1] at g2
    exact Option.some.inj g2

/-- An instance of C1: two registrations, the removal of the first call and a
`Close`; the bound on the number of registrations holds. -/
theorem C1_sequence_numbers_witness :
    (runSteps (newClientCodec (NewGobCodec []))
        [plainRegister, plainRegister, Step.remove 1, Step.close]).2.length < uint64Mod - 1 ∧
    (runSteps (newClientCodec (NewGobCodec []))
        [plainRegister, plainRegister, Step.remove 1, Step.close]).2 = [1, 2] ∧
    (runSteps (newClientCodec (NewGobCodec []))
        [plainRegister, plainRegister, Step.remove 1, Step.close]).1.client.seq
      = (runSteps (newClientCodec (NewGobCodec []))
        [plainRegister, plainRegister, Step.remove 1, Step.close]).2.length + 1 :=
  ⟨by decide, by decide,
    ((C1_sequence_numbers (NewGobCodec [])
      [plainRegister, plainRegister, Step.remove 1, Step.close]).2.2.2.1 (by decide)).1⟩


/-! ## Cancellation (C2) -/

theorem mapGet_eq_none_iff {m : List (Nat × Nat)} {k : Nat} :
    mapGet m k = none ↔ ∀ e ∈ m, e.1 ≠ k := by
  simp only [mapGet, List.lookup_eq_none_iff, bne_iff_ne, ne_eq]
  constructor
  · intro h e he heq
    exact h e he heq.symm
  · intro h e he heq
    exact h e he heq.symm

theorem step_keys (w : World) (s : Step) :
    ∀ e ∈ (s.run w).1.client.pending, e ∈ w.client.pending ∨ (s.run w).2 = some e.1 := by
  intro e he
  cases s with
  | remove seq => exact Or.inl (mem_mapDelete.1 he).1
  | terminate err =>
      have he2 : e ∈ (terminateCalls w (some err)).client.pending := he
      rw [terminateCalls_client] at he2
      exact Or.inl he2
  | close =>
      have he2 : e ∈ (Close w).1.client.pending := he
      unfold Close at he2
      split at he2 <;> exact Or.inl he2
  | receive =>
      have he2 : e ∈ (receiveStep w).1.client.pending := he
      rcases (receiveStep_frame w).2.2.2.1 with h | ⟨k, h⟩
      · rw [h] at he2; exact Or.inl he2
      · rw [h] at he2; exact Or.inl (mem_mapDelete.1 he2).1
  | register sm a r d =>
      simp only [Step.run] at he ⊢
      unfold registerCall at he ⊢
      by_cases hc : ((newCall w sm a r d).1.client.closing || (newCall w sm a r d).1.client.shutdown) = true
      · rw [if_pos hc] at he
        exact Or.inl he
      · rw [if_neg hc] at he ⊢
        have he2 : e ∈ mapSet w.client.pending w.client.seq w.heap.length := he
        simp only [mapSet, List.mem_cons] at he2
        rcases he2 with rfl | hmem
        · right; simp [newCall]
        · exact Or.inl (mem_mapDelete.1 hmem).1

theorem runSteps_absent (k : Nat) (steps : List Step) :
    ∀ w : World, mapGet w.client.pending k = none → k ∉ (runSteps w steps).2 →
      mapGet (runSteps w steps).1.client.pending k = none := by
  induction steps with
  | nil => intro w h _; exact h
  | cons s rest ih =>
      intro w h hk
      rw [runSteps_cons] at hk ⊢
      simp only [List.mem_append, not_or] at hk
      apply ih (s.run w).1 _ hk.2
      rw [mapGet_eq_none_iff] at h ⊢
      intro e he heq
      rcases step_keys w s e he with hold | hnew
      · exact h e hold heq
      · apply hk.1
        rw [hnew, heq]
        simp

theorem receiveStep_no_pending (w : World) (h : Header)
    (hh : (w.client.cc.ReadHeader).2 = .ok h)
    (hn : mapGet w.client.pending h.Seq = none) :
    receiveStep w =
      ({ w with client := { w.client with
            cc := ((w.client.cc.ReadHeader).1.ReadBody false).1,
            pending := mapDelete w.client.pending h.Seq } },
        ((w.client.cc.ReadHeader).1.ReadBody false).2.2, 1) := by
  unfold receiveStep
  simp only [hh, removeCall, hn]

theorem CallCancelled_eq (w : World) (s call : Nat) (ctxErr : GoError)
    (hok : PendingOK w) (hpend : (s, call) ∈ w.client.pending) :
    CallCancelled w call ctxErr =
      ((removeCall w s).1, some (errorsNew ("rpc client: call failed: " ++ ctxErr.msg))) := by
  have := hok.2 (s, call) hpend
  unfold CallCancelled
  cases hq : w.heap[call]? with
  | none => rw [hq] at this; simp at this
  | some c =>
      rw [hq] at this
      simp only [Option.map_some', Option.some.injEq] at this
      simp only [this]

/-- C2.  In a state where the call `call` is pending under sequence number
`s`, the cancellation branch of `Call` removes entry `s` from the pending
table, leaves every call record as it is, and returns the error
"rpc client: call failed: " followed by the text of `ctx.Err()`.  After any
later steps in which `s` is not issued anew, a round of the receive loop that
reads a header with `Seq = s` finds no pending call, reads the body with a nil
target, and changes neither a call record (so neither the reply value nor the
`Error` field of the cancelled call) nor what has been sent on the `Done`
channels. -/
theorem C2_cancelled_call_untouched (w : World) (s call : Nat) (ctxErr : GoError)
    (later : List Step) (h : Header)
    (hok : PendingOK w) (hpend : (s, call) ∈ w.client.pending)
    (hnew : s ∉ (runSteps (CallCancelled w call ctxErr).1 later).2)
    (hh : ((runSteps (CallCancelled w call ctxErr).1 later).1.client.cc.ReadHeader).2 = .ok h)
    (hs : h.Seq = s) :
    mapGet (CallCancelled w call ctxErr).1.client.pending s = none ∧
    (CallCancelled w call ctxErr).1.heap = w.heap ∧
    (∃ e, (CallCancelled w call ctxErr).2 = some e ∧
        e.msg = "rpc client: call failed: " ++ ctxErr.msg) ∧
    mapGet (runSteps (CallCancelled w call ctxErr).1 later).1.client.pending s = none ∧
    (receiveStep (runSteps (CallCancelled w call ctxErr).1 later).1).2.2 = 1 ∧
    (receiveStep (runSteps (CallCancelled w call ctxErr).1 later).1).1.client.cc
      = (((runSteps (CallCancelled w call ctxErr).1 later).1.client.cc.ReadHeader).1.ReadBody
          false).1 ∧
    (receiveStep (runSteps (CallCancelled w call ctxErr).1 later).1).1.heap
      = (runSteps (CallCancelled w call ctxErr).1 later).1.heap ∧
    (receiveStep (runSteps (CallCancelled w call ctxErr).1 later).1).1.sent
      = (runSteps (CallCancelled w call ctxErr).1 later).1.sent := by
  have hgone : mapGet (CallCancelled w call ctxErr).1.client.pending s = none := by
    rw [CallCancelled_eq w s call ctxErr hok hpend]
    exact mapGet_mapDelete_self _ _
  have hlater := runSteps_absent s later _ hgone hnew
  have hstep := receiveStep_no_pending _ h hh (by rw [hs]; exact hlater)
  refine ⟨hgone, ?_, ?_, hlater, ?_, ?_, ?_, ?_⟩
  · rw [CallCancelled_eq w s call ctxErr hok hpend]
    rfl
  · rw [CallCancelled_eq w s call ctxErr hok hpend]
    exact ⟨_, rfl, rfl⟩
  · rw [hstep]
  · rw [hstep]
  · rw [hstep]
  · rw [hstep]


/-- An instance of C2: the call registered first is cancelled at its deadline,
a second call is registered, and then the response to the first arrives. -/
theorem C2_cancelled_call_untouched_witness :
    PendingOK cancelWorld ∧ (1, 0) ∈ cancelWorld.client.pending ∧
    (receiveStep (runSteps (CallCancelled cancelWorld 0 deadlineExceeded).1
        [Step.register "Foo.Sum" (Value.ints [1, 1]) (Value.int 0) 1]).1).1.heap
      = (runSteps (CallCancelled cancelWorld 0 deadlineExceeded).1
        [Step.register "Foo.Sum" (Value.ints [1, 1]) (Value.int 0) 1]).1.heap :=
  ⟨by unfold PendingOK; decide, by decide,
    (C2_cancelled_call_untouched cancelWorld 1 0 deadlineExceeded
      [Step.register "Foo.Sum" (Value.ints [1, 1]) (Value.int 0) 1] ⟨"Foo.Sum", 1, ""⟩
      (by unfold PendingOK; decide) (by decide) (by decide) rfl rfl).2.2.2.2.2.2.1⟩


/-! ## Termination of all pending calls (C3) -/

theorem pointers_nodup {w : World} (h : PendingOK w) :
    (w.client.pending.map Prod.snd).Nodup := by
  have hkeys : ((w.client.pending.map Prod.snd).map
      (fun p => (w.heap[p]?).map Call.Seq)).Nodup := by
    rw [List.map_map]
    have hcongr : w.client.pending.map ((fun p => (w.heap[p]?).map Call.Seq) ∘ Prod.snd)
        = (w.client.pending.map Prod.fst).map some := by
      rw [List.map_map]
      apply List.map_congr_left
      intro e he
      exact h.2 e he
    rw [hcongr]
    exact h.1.map (Option.some_injective _)
  exact List.Nodup.of_map _ hkeys

theorem terminateOne_sent (err : Option GoError) (w : World) (e : Nat × Nat) :
    (terminateOne err w e).sent =
      w.sent ++ (match w.heap[e.2]? with
        | some c => [(c.Done, e.2)]
        | none => []) := by
  unfold terminateOne Call.done
  rw [update_heap_get]
  cases hq : w.heap[e.2]? with
  | none => simp [update_sent]
  | some c => simp [update_sent]

theorem terminateOne_done_field (err : Option GoError) (w : World) (e : Nat × Nat) (q : Nat) :
    ((terminateOne err w e).heap[q]?).map Call.Done = (w.heap[q]?).map Call.Done := by
  rw [terminateOne_heap_get]
  cases w.heap[q]? with
  | none => rfl
  | some c => by_cases h : e.2 = q <;> simp [h]

theorem terminateOne_count (err : Option GoError) (w : World) (e : Nat × Nat) (d p : Nat) :
    (terminateOne err w e).sent.count (d, p) =
      w.sent.count (d, p) +
        (if (w.heap[p]?).map Call.Done = some d then (if e.2 = p then 1 else 0) else 0) := by
  rw [terminateOne_sent, List.count_append]
  congr 1
  by_cases hp : e.2 = p
  · subst hp
    cases hq : w.heap[e.2]? with
    | none => simp
    | some c =>
        by_cases hd : c.Done = d
        · simp [hd]
        · have : ¬ ((c.Done, e.2) = (d, e.2)) := by
            intro h
            exact hd (Prod.mk.inj h).1
          simp [hd, List.count_cons, this]
  · cases hq : w.heap[e.2]? with
    | none => simp [hp]
    | some c =>
        have : ¬ ((c.Done, e.2) = (d, p)) := by
          intro h
          exact hp (Prod.mk.inj h).2
        simp [hp, List.count_cons, this]

theorem foldl_terminateOne_count (err : Option GoError) (l : List (Nat × Nat)) :
    ∀ (w : World) (d p : Nat),
      (l.foldl (terminateOne err) w).sent.count (d, p) =
        w.sent.count (d, p) +
          (if (w.heap[p]?).map Call.Done = some d then (l.map Prod.snd).count p else 0) := by
  induction l with
  | nil => intro w d p; simp
  | cons e rest ih =>
      intro w d p
      rw [List.foldl_cons, ih, terminateOne_done_field, terminateOne_count]
      by_cases hd : (w.heap[p]?).map Call.Done = some d
      · simp only [hd, if_true, List.map_cons, List.count_cons]
        by_cases hp : e.2 = p
        · simp [hp]; omega
        · simp [hp]
      · simp [hd]

theorem foldl_terminateOne_error (err : Option GoError) (l : List (Nat × Nat)) :
    ∀ (w : World) (q : Nat),
      ((l.foldl (terminateOne err) w).heap[q]?).map Call.Error =
        if q ∈ l.map Prod.snd then (w.heap[q]?).map (fun _ => err)
        else (w.heap[q]?).map Call.Error := by
  induction l with
  | nil => intro w q; simp
  | cons e rest ih =>
      intro w q
      rw [List.foldl_cons, ih, terminateOne_heap_get]
      cases hq : w.heap[q]? with
      | none => simp
      | some c =>
          by_cases h1 : q ∈ rest.map Prod.snd
          · have h2 : q ∈ (e :: rest).map Prod.snd := by
              simp only [List.map_cons, List.mem_cons]
              exact Or.inr h1
            simp only [h1, h2, if_true]
            rfl
          · by_cases h3 : e.2 = q
            · have h2 : q ∈ (e :: rest).map Prod.snd := by
                simp only [List.map_cons, List.mem_cons]
                exact Or.inl h3.symm
              simp [h1, h2, h3]
            · have h2 : ¬ q ∈ (e :: rest).map Prod.snd := by
                simp only [List.map_cons, List.mem_cons, not_or]
                exact ⟨fun h => h3 h.symm, h1⟩
              have h4 : ¬ q = e.2 := fun h => h3 h.symm
              simp [h1, h3, h4]

theorem step_shutdown (w : World) (s : Step) (h : w.client.shutdown = true) :
    (s.run w).1.client.shutdown = true := by
  cases s with
  | remove seq => exact h
  | terminate err =>
      show (terminateCalls w (some err)).client.shutdown = true
      rw [terminateCalls_client]
  | close =>
      show (Close w).1.client.shutdown = true
      unfold Close
      split <;> exact h
  | receive =>
      show (receiveStep w).1.client.shutdown = true
      rw [(receiveStep_frame w).2.2.1]
      exact h
  | register sm a r d =>
      simp [Step.run, registerCall, newCall, h]

theorem runSteps_shutdown (steps : List Step) :
    ∀ w : World, w.client.shutdown = true → (runSteps w steps).1.client.shutdown = true := by
  induction steps with
  | nil => intro w h; exact h
  | cons s rest ih =>
      intro w h
      rw [runSteps_cons]
      exact ih _ (step_shutdown w s h)

theorem registerCall_shutdown (w : World) (call : Nat) (h : w.client.shutdown = true) :
    registerCall w call = (w, 0, some ErrShutdown) := by
  simp [registerCall, h]

theorem ReadHeader_ok_length (c : GobCodec) (h : Header) (hh : c.ReadHeader.2 = .ok h) :
    c.ReadHeader.1.input.length + 1 = c.input.length := by
  unfold GobCodec.ReadHeader at hh ⊢
  by_cases hc : c.closed = true
  · simp [hc] at hh
  · simp only [hc] at hh ⊢
    rcases hi : c.input with _ | ⟨m, rest⟩
    · simp [hi] at hh
    · cases m with
      | header h2 => simp
      | body v => simp [hi] at hh
      | fault e => simp [hi] at hh

theorem ReadBody_length_le (c : GobCodec) (wanted : Bool) :
    (c.ReadBody wanted).1.input.length ≤ c.input.length := by
  unfold GobCodec.ReadBody
  by_cases hc : c.closed = true
  · simp [hc]
  · simp only [hc]
    rcases hi : c.input with _ | ⟨m, rest⟩
    · simp [hi]
    · cases m <;> cases wanted <;> simp [hi]

theorem receiveStep_consumes (w : World) (hnone : (receiveStep w).2.1 = none) :
    (receiveStep w).1.client.cc.input.length < w.client.cc.input.length := by
  unfold receiveStep at hnone ⊢
  rcases hh : (w.client.cc.ReadHeader).2 with e | h
  · simp [hh] at hnone
  · have hlen := ReadHeader_ok_length _ h hh
    simp only [hh, removeCall] at hnone ⊢
    rcases hg : mapGet w.client.pending h.Seq with _ | call
    · simp only [hg]
      have := ReadBody_length_le (w.client.cc.ReadHeader).1 false
      omega
    · simp only [hg]
      by_cases he : h.Error ≠ ""
      · rw [if_pos he]
        simp only [done_client, update_client]
        have := ReadBody_length_le (w.client.cc.ReadHeader).1 false
        omega
      · rw [if_neg he]
        simp only [done_client]
        have := ReadBody_length_le (w.client.cc.ReadHeader).1 true
        rcases hb1 : (GobCodec.ReadBody (w.client.cc.ReadHeader).1 true).2.1 with _ | v <;>
        rcases hb2 : (GobCodec.ReadBody (w.client.cc.ReadHeader).1 true).2.2 with _ | err <;>
        simp only [hb1, hb2, update_client] <;> omega

theorem receiveLoop_terminates (fuel : Nat) :
    ∀ w : World, w.client.cc.input.length < fuel →
      ∃ w1 err, receiveLoop fuel w = some (w1, err) := by
  induction fuel with
  | zero => intro w h; exact absurd h (Nat.not_lt_zero _)
  | succ n ih =>
      intro w h
      unfold receiveLoop
      rcases hr : receiveStep w with ⟨w1, e, flag⟩
      cases e with
      | some err => exact ⟨w1, err, rfl⟩
      | none =>
          have hc := receiveStep_consumes w (by rw [hr])
          rw [hr] at hc
          exact ih w1 (by simp only at hc; omega)

/-- C3.  For every client state with a well-formed pending table and every
error `err`, `terminateCalls(err)` sets `shutdown`, leaves the table as it is,
sets the `Error` of every call in the table to `err`, and sends every such
call exactly once more on its `Done` channel; calls outside the table get
nothing sent.  From then on, whatever steps follow, `IsAvailable` is false and
`registerCall` returns 0 and `ErrShutdown` without changing the state.  The
receive loop calls `terminateCalls` with the error that ended it, and on every
input stream it does end with one. -/
theorem C3_terminateCalls (w : World) (err : GoError) (hok : PendingOK w) :
    (terminateCalls w (some err)).client.shutdown = true ∧
    (∀ k p, (k, p) ∈ w.client.pending →
        ((terminateCalls w (some err)).heap[p]?).map Call.Error = some (some err)) ∧
    (∀ k p c, (k, p) ∈ w.client.pending → w.heap[p]? = some c →
        delivered (terminateCalls w (some err)) c.Done p = delivered w c.Done p + 1) ∧
    (∀ d p, p ∉ w.client.pending.map Prod.snd →
        delivered (terminateCalls w (some err)) d p = delivered w d p) ∧
    (∀ later : List Step,
        IsAvailable (runSteps (terminateCalls w (some err)) later).1 = false ∧
        ∀ call, registerCall (runSteps (terminateCalls w (some err)) later).1 call
          = ((runSteps (terminateCalls w (some err)) later).1, 0, some ErrShutdown)) ∧
    (∀ fuel w0, receiveLoop fuel w0 = some (w, err) →
        receive fuel w0 = some (terminateCalls w (some err))) ∧
    (∀ w0 : World, ∃ w1 e,
        receive (w0.client.cc.input.length + 1) w0 = some (terminateCalls w1 (some e))) := by
  have hsd : (terminateCalls w (some err)).client.shutdown = true := by
    rw [terminateCalls_client]
  refine ⟨hsd, ?_, ?_, ?_, ?_, ?_, ?_⟩
  · intro k p hm
    have hin : p ∈ w.client.pending.map Prod.snd := List.mem_map.2 ⟨(k, p), hm, rfl⟩
    have hseq := hok.2 (k, p) hm
    show ((w.client.pending.foldl (terminateOne (some err)) _).heap[p]?).map Call.Error = _
    rw [foldl_terminateOne_error]
    simp only [hin, if_true]
    cases hq : w.heap[p]? with
    | none => rw [hq] at hseq; simp at hseq
    | some c => rfl
  · intro k p c hm hc
    have hin : p ∈ w.client.pending.map Prod.snd := List.mem_map.2 ⟨(k, p), hm, rfl⟩
    show (w.client.pending.foldl (terminateOne (some err)) _).sent.count (c.Done, p) = _
    rw [foldl_terminateOne_count]
    have hd : (w.heap[p]?).map Call.Done = some c.Done := by rw [hc]; rfl
    simp only [hd, if_true, List.count_eq_one_of_mem (pointers_nodup hok) hin]
    rfl
  · intro d p hnot
    show (w.client.pending.foldl (terminateOne (some err)) _).sent.count (d, p) = _
    rw [foldl_terminateOne_count]
    have hz : (w.client.pending.map Prod.snd).count p = 0 := List.count_eq_zero.2 hnot
    simp only [hz, ite_self, Nat.add_zero]
    rfl
  · intro later
    have h := runSteps_shutdown later _ hsd
    exact ⟨by simp [IsAvailable, h], fun call => registerCall_shutdown _ call h⟩
  · intro fuel w0 hloop
    simp [receive, hloop]
  · intro w0
    obtain ⟨w1, e, hl⟩ := receiveLoop_terminates _ w0 (Nat.lt_succ_self _)
    exact ⟨w1, e, by simp [receive, hl]⟩

/-- An instance of C3: two calls are pending when the connection is reset. -/
theorem C3_terminateCalls_witness :
    PendingOK failingWorld ∧
    (terminateCalls failingWorld (some (errorsNew "connection reset by peer"))).client.shutdown
      = true :=
  ⟨by unfold PendingOK; decide,
    (C3_terminateCalls failingWorld (errorsNew "connection reset by peer")
      (by unfold PendingOK; decide)).1⟩


/-! ## What happens to the pending table (C4) -/

theorem receiveStep_pending (w : World) (h : Header)
    (hh : (w.client.cc.ReadHeader).2 = .ok h) :
    (receiveStep w).1.client.pending = mapDelete w.client.pending h.Seq := by
  unfold receiveStep
  simp only [hh, removeCall]
  rcases hg : mapGet w.client.pending h.Seq with _ | call
  · simp only [hg]
  · simp only [hg]
    by_cases he : h.Error ≠ ""
    · rw [if_pos he]
      simp only [done_client, update_client]
    · rw [if_neg he]
      simp only [done_client]
      rcases hb1 : (GobCodec.ReadBody (w.client.cc.ReadHeader).1 true).2.1 with _ | v <;>
      rcases hb2 : (GobCodec.ReadBody (w.client.cc.ReadHeader).1 true).2.2 with _ | err <;>
      simp only [hb1, hb2, update_client]

/-- C4, as stated, fails: two calls are pending when the connection is reset;
the receive loop exits, `terminateCalls` runs, and both entries are still in
the pending table. -/
theorem C4_counterexample :
    (receive 1 failingWorld).map (fun w => w.client.pending) = some [(2, 1), (1, 0)] := by
  decide

/-- C4 (amended).  When the connection fails a pending call is completed but
not removed: `terminateCalls` leaves the pending table exactly as it was.  An
entry is removed when a response header with its sequence number is read by
the receive loop, and when the caller's `Call` takes the cancellation
branch. -/
theorem C4_pending_table_lifecycle (w : World) (err : GoError) :
    (terminateCalls w (some err)).client.pending = w.client.pending ∧
    (∀ h, (w.client.cc.ReadHeader).2 = .ok h →
        (receiveStep w).1.client.pending = mapDelete w.client.pending h.Seq ∧
        mapGet (receiveStep w).1.client.pending h.Seq = none) ∧
    (∀ s call ctxErr, PendingOK w → (s, call) ∈ w.client.pending →
        (CallCancelled w call ctxErr).1.client.pending = mapDelete w.client.pending s ∧
        mapGet (CallCancelled w call ctxErr).1.client.pending s = none) := by
  refine ⟨by rw [terminateCalls_client], ?_, ?_⟩
  · intro h hh
    rw [receiveStep_pending w h hh]
    exact ⟨rfl, mapGet_mapDelete_self _ _⟩
  · intro s call ctxErr hok hm
    rw [CallCancelled_eq w s call ctxErr hok hm]
    exact ⟨rfl, mapGet_mapDelete_self _ _⟩

/-- An instance of C4: the response to the pending call of `cancelWorld` is
read and its entry is gone. -/
theorem C4_pending_table_lifecycle_witness :
    (cancelWorld.client.cc.ReadHeader).2 = .ok ⟨"Foo.Sum", 1, ""⟩ ∧
    mapGet (receiveStep cancelWorld).1.client.pending 1 = none :=
  ⟨rfl,
    ((C4_pending_table_lifecycle cancelWorld deadlineExceeded).2.1 ⟨"Foo.Sum", 1, ""⟩ rfl).2⟩

/-! ## Error responses (C5) -/

theorem doPrintf_no_percent (fuel : Nat) (format : List Char) (h : '%' ∉ format) :
    doPrintf (fuel + 1) format = format := by
  have hall : ∀ c ∈ format, (decide (c ≠ '%')) = true := by
    intro c hc
    simp only [decide_eq_true_eq]
    intro heq
    exact h (heq ▸ hc)
  have h1 : format.takeWhile (fun c => decide (c ≠ '%')) = format :=
    List.takeWhile_eq_self_iff.2 hall
  have h2 : format.dropWhile (fun c => decide (c ≠ '%')) = [] :=
    List.dropWhile_eq_nil_iff.2 hall
  simp only [doPrintf, h1, h2]

theorem fmtErrorf_no_percent (e : String) (h : '%' ∉ e.data) : fmtErrorf e = errorsNew e := by
  unfold fmtErrorf
  rw [doPrintf_no_percent _ _ h]

/-- C5 at the error text "100%": the receive loop finds the pending call,
removes it, reads the body without writing the reply value (still 0) and
sends the call on its `Done` channel once, but the message of the error it
completes the call with is "100%!(NOVERB)", not "100%". -/
theorem C5_error_text_is_formatted :
    (receiveStep errorReplyWorld).2.2 = 2 ∧
    mapGet errorReplyWorld.client.pending 1 = some 0 ∧
    mapGet (receiveStep errorReplyWorld).1.client.pending 1 = none ∧
    ((receiveStep errorReplyWorld).1.heap[0]?).map Call.Reply = some (Value.int 0) ∧
    delivered (receiveStep errorReplyWorld).1 0 0 = 1 ∧
    ((receiveStep errorReplyWorld).1.heap[0]?).map Call.Error
      = some (some (errorsNew "100%!(NOVERB)")) ∧
    errorsNew "100%!(NOVERB)" ≠ errorsNew "100%" := by
  decide


/-! ## Dispatch errors on the server (C6) -/

/-- C6 on the stream `twoRequests`: `readRequest` returns the header of the
first request (`Seq = 1`) with the error "rpc server: can't find method Nope",
but the argument body of that request is still the next message of the
stream.  `serveCodec` answers the first request with that error, then reads
the left-over body as a header, fails, and closes the connection; the request
`Foo.Sum` with `Seq = 2` is never read and never answered. -/
theorem C6_dispatch_error_leaves_body :
    requestView (fooServer.readRequest (NewGobCodec twoRequests))
      = some ([Msg.body (Value.ints [1, 2]), Msg.header ⟨"Foo.Sum", 2, ""⟩,
                Msg.body (Value.ints [3, 4])],
              some ⟨"Foo.Nope", 1, ""⟩,
              some (errorsNew "rpc server: can't find method Nope")) ∧
    connView (Server.serveCodec 5 fooServer (NewGobCodec twoRequests))
      = some ([Msg.header ⟨"Foo.Sum", 2, ""⟩, Msg.body (Value.ints [3, 4])],
              [Msg.header ⟨"Foo.Nope", 1, "rpc server: can't find method Nope"⟩,
                Msg.body Value.invalidRequest],
              true) := by
  decide


/-! ## Dispatch (C7) -/

theorem LastIndexDot_ge (cs : List Char) : -1 ≤ LastIndexDot cs := by
  induction cs with
  | nil => simp [LastIndexDot]
  | cons c rest ih =>
      rw [LastIndexDot]
      split
      · omega
      · split <;> omega

theorem LastIndexDot_neg_iff (cs : List Char) : LastIndexDot cs < 0 ↔ '.' ∉ cs := by
  induction cs with
  | nil => simp [LastIndexDot]
  | cons c rest ih =>
      rw [LastIndexDot]
      by_cases hr : LastIndexDot rest ≥ 0
      · rw [if_pos hr]
        have hin : '.' ∈ rest := by
          by_contra hn
          have := ih.2 hn
          omega
        constructor
        · intro h; omega
        · intro h; exact absurd (List.mem_cons_of_mem c hin) h
      · rw [if_neg hr]
        have hnot : '.' ∉ rest := ih.1 (by omega)
        by_cases hc : c = '.'
        · rw [if_pos hc]
          constructor
          · intro h; omega
          · intro h; exact absurd (hc ▸ List.mem_cons_self c rest) h
        · rw [if_neg hc]
          constructor
          · intro _ hmem
            rcases List.mem_cons.1 hmem with h | h
            · exact hc h.symm
            · exact hnot h
          · intro _; omega

theorem LastIndexDot_split (a b : List Char) (hb : '.' ∉ b) :
    LastIndexDot (a ++ '.' :: b) = a.length := by
  induction a with
  | nil =>
      have hneg := (LastIndexDot_neg_iff b).2 hb
      simp only [List.nil_append, List.length_nil]
      rw [LastIndexDot]
      rw [if_neg (by omega)]
      simp
  | cons c rest ih =>
      simp only [List.cons_append, List.length_cons]
      rw [LastIndexDot, ih]
      rw [if_pos (by omega)]
      push_cast
      rfl

theorem exists_split_last_dot (cs : List Char) (h : '.' ∈ cs) :
    ∃ a b, cs = a ++ '.' :: b ∧ '.' ∉ b := by
  induction cs with
  | nil => simp at h
  | cons c rest ih =>
      by_cases hr : '.' ∈ rest
      · obtain ⟨a, b, hab, hb⟩ := ih hr
        exact ⟨c :: a, b, by rw [hab]; rfl, hb⟩
      · rcases List.mem_cons.1 h with hc | hc
        · exact ⟨[], rest, by rw [← hc]; rfl, hr⟩
        · exact absurd hc hr

theorem findService_no_dot (server : Server) (s : String) (h : '.' ∉ s.data) :
    server.findService s =
      (none, none,
        some (errorsNew ("rpc server: service/method request ill-formed: " ++ s))) := by
  unfold Server.findService
  simp only [(LastIndexDot_neg_iff s.data).2 h, if_true]

theorem findService_split (server : Server) (s : String) (a b : List Char)
    (hs : s.data = a ++ '.' :: b) (hb : '.' ∉ b) :
    server.findService s =
      (match server.serviceMap.lookup (String.mk a) with
      | none =>
          (none, none, some (errorsNew ("rpc server: can't find service " ++ String.mk a)))
      | some svc =>
          match svc.method.lookup (String.mk b) with
          | none =>
              (some svc, none,
                some (errorsNew ("rpc server: can't find method " ++ String.mk b)))
          | some mtype => (some svc, some mtype, none)) := by
  unfold Server.findService
  have hdot : LastIndexDot s.data = a.length := by rw [hs]; exact LastIndexDot_split a b hb
  have hnn : ¬ ((a.length : Int) < 0) := by omega
  simp only [hdot, hnn, if_false, Int.toNat_ofNat]
  have htake : s.data.take a.length = a := by rw [hs]; simp
  have hdrop : s.data.drop (a.length + 1) = b := by
    rw [hs]
    have : a ++ '.' :: b = (a ++ ['.']) ++ b := by simp
    rw [this]
    have hl : a.length + 1 = (a ++ ['.']).length := by simp
    rw [hl, List.drop_left]
  rw [htake, hdrop]

theorem message_ne (p q x y : String) (n : Nat) (hp : n ≤ p.length) (hq : n ≤ q.length)
    (hne : p.data.take n ≠ q.data.take n) : errorsNew (p ++ x) ≠ errorsNew (q ++ y) := by
  intro h
  have h1 : p ++ x = q ++ y := congrArg GoError.msg h
  have h2 : (p ++ x).data.take n = (q ++ y).data.take n := by rw [h1]
  simp only [String.data_append] at h2
  rw [List.take_append_of_le_length hp, List.take_append_of_le_length hq] at h2
  exact hne h2

/-- C7.  For every server and every string `s`: `findService(s)` returns a nil
error exactly when `s` is `a.b` with no `.` in `b`, `a` the name of a
registered service and `b` the name of one of its registered methods, and it
then returns that service and that method descriptor.  When `s` has no `.` the
error is "rpc server: service/method request ill-formed: " followed by `s`;
when `a` is not registered it is "rpc server: can't find service " followed by
`a`; when the service has no method `b` it is "rpc server: can't find method "
followed by `b`.  No two of these three messages are equal. -/
theorem C7_findService (server : Server) (s : String) :
    ((server.findService s).2.2 = none ↔
      ∃ a b svc m, s.data = a ++ '.' :: b ∧ '.' ∉ b ∧
        server.serviceMap.lookup (String.mk a) = some svc ∧
        svc.method.lookup (String.mk b) = some m) ∧
    (∀ a b svc m, s.data = a ++ '.' :: b → '.' ∉ b →
        server.serviceMap.lookup (String.mk a) = some svc →
        svc.method.lookup (String.mk b) = some m →
        server.findService s = (some svc, some m, none)) ∧
    ('.' ∉ s.data →
        server.findService s =
          (none, none,
            some (errorsNew ("rpc server: service/method request ill-formed: " ++ s)))) ∧
    (∀ a b, s.data = a ++ '.' :: b → '.' ∉ b →
        server.serviceMap.lookup (String.mk a) = none →
        server.findService s =
          (none, none, some (errorsNew ("rpc server: can't find service " ++ String.mk a)))) ∧
    (∀ a b svc, s.data = a ++ '.' :: b → '.' ∉ b →
        server.serviceMap.lookup (String.mk a) = some svc →
        svc.method.lookup (String.mk b) = none →
        server.findService s =
          (some svc, none,
            some (errorsNew ("rpc server: can't find method " ++ String.mk b)))) ∧
    (∀ x y z : String,
        errorsNew ("rpc server: service/method request ill-formed: " ++ x)
          ≠ errorsNew ("rpc server: can't find service " ++ y) ∧
        errorsNew ("rpc server: service/method request ill-formed: " ++ x)
          ≠ errorsNew ("rpc server: can't find method " ++ z) ∧
        errorsNew ("rpc server: can't find service " ++ y)
          ≠ errorsNew ("rpc server: can't find method " ++ z)) := by
  refine ⟨⟨?_, ?_⟩, ?_, findService_no_dot server s, ?_, ?_, ?_⟩
  · intro hnil
    by_cases hdot : '.' ∈ s.data
    · obtain ⟨a, b, hab, hb⟩ := exists_split_last_dot s.data hdot
      rw [findService_split server s a b hab hb] at hnil
      cases hl : server.serviceMap.lookup (String.mk a) with
      | none => rw [hl] at hnil; simp at hnil
      | some svc =>
          rw [hl] at hnil
          cases hm : svc.method.lookup (String.mk b) with
          | none => simp [hm] at hnil
          | some m => exact ⟨a, b, svc, m, hab, hb, hl, hm⟩
    · rw [findService_no_dot server s hdot] at hnil
      simp at hnil
  · rintro ⟨a, b, svc, m, hab, hb, hl, hm⟩
    rw [findService_split server s a b hab hb, hl]
    simp only [hm]
  · intro a b svc m hab hb hl hm
    rw [findService_split server s a b hab hb, hl]
    simp only [hm]
  · intro a b hab hb hl
    rw [findService_split server s a b hab hb, hl]
  · intro a b svc hab hb hl hm
    rw [findService_split server s a b hab hb, hl]
    simp only [hm]
  · intro x y z
    refine ⟨?_, ?_, ?_⟩
    · exact message_ne _ _ x y 13 (by decide) (by decide) (by decide)
    · exact message_ne _ _ x z 13 (by decide) (by decide) (by decide)
    · exact message_ne _ _ y z 24 (by decide) (by decide) (by decide)

/-- An instance of C7: on the server of `main.go` the string "Foo.Sum" is
resolved without error and the string "FooSum" is ill-formed. -/
theorem C7_findService_witness :
    (fooServer.findService "Foo.Sum").2.2 = none ∧
    fooServer.findService "FooSum" =
      (none, none,
        some (errorsNew ("rpc server: service/method request ill-formed: " ++ "FooSum"))) :=
  ⟨by decide, (C7_findService fooServer "FooSum").2.2.1 (by decide)⟩


/-! ## Registration of methods (C8) -/

theorem registerMethod_shape (upper : Char → Bool) (acc : List (String × methodType))
    (method : Method)
    (h : ∀ e ∈ acc, e.1 = e.2.method.Name ∧ Registrable upper e.2) :
    ∀ e ∈ registerMethod upper acc method, e.1 = e.2.method.Name ∧ Registrable upper e.2 := by
  unfold registerMethod
  split
  · exact h
  · rename_i hlen
    split
    · exact h
    · rename_i hout
      split
      · rename_i argType replyType h1 h2
        split
        · exact h
        · rename_i hexp
          intro e he
          rcases List.mem_cons.1 he with rfl | hmem
          · refine ⟨rfl, ?_⟩
            simp only [not_or, not_not, ne_eq] at hlen hout
            simp only [Bool.or_eq_true, Bool.not_eq_true', not_or, Bool.not_eq_false] at hexp
            refine ⟨hlen.1, ?_, h1, h2, hexp.1, hexp.2, rfl⟩
            match hO : method.Out, hlen.2, hout with
            | [t], _, ho =>
                simp only [hO, List.getElem?_cons_zero, Option.some.injEq] at ho
                rw [ho]
          · exact h e (List.mem_filter.1 hmem).1
      · exact h

theorem registerMethods_shape (upper : Char → Bool) (rcvr : Receiver) :
    ∀ e ∈ registerMethods upper rcvr, e.1 = e.2.method.Name ∧ Registrable upper e.2 := by
  unfold registerMethods
  have key : ∀ (l : List Method) (acc : List (String × methodType)),
      (∀ e ∈ acc, e.1 = e.2.method.Name ∧ Registrable upper e.2) →
      ∀ e ∈ l.foldl (registerMethod upper) acc,
        e.1 = e.2.method.Name ∧ Registrable upper e.2 := by
    intro l
    induction l with
    | nil => intro acc h; exact h
    | cons m rest ih =>
        intro acc h
        rw [List.foldl_cons]
        exact ih _ (registerMethod_shape upper acc m h)
  exact key rcvr.methods [] (fun e he => absurd he (List.not_mem_nil e))

/-- C8 on a receiver whose type has the method
`func (f Foo) Bad(a int, b int) error`: `registerMethods` registers `Bad`
although its reply parameter has type `int`, which is not a pointer, and
`newReplyv` of the registered descriptor panics. -/
theorem C8_non_pointer_reply_registered :
    ((registerMethods asciiUpper badReceiver).lookup "Bad").map
        (fun m => (m.ArgType, m.ReplyType, m.ReplyType.Kind, m.newReplyv))
      = some (intType, intType, Kind.Int, none) ∧
    ((registerMethods asciiUpper badReceiver).lookup "Sum").map
        (fun m => (m.ArgType, m.ReplyType, m.ReplyType.Kind, m.newReplyv))
      = some (argsType, ptrTo intType, Kind.Ptr, some (Value.int 0)) := by
  decide


/-! ## Registration of services (C9) -/

theorem newService_exported (upper : Char → Bool) (rcvr : Receiver)
    (h : IsExported upper (indirectType rcvr.typ).Name = true) :
    newService upper rcvr =
      .ok { name := (indirectType rcvr.typ).Name, typ := rcvr.typ, rcvr := rcvr,
            method := registerMethods upper rcvr } := by
  simp [newService, h]

theorem newService_unexported (upper : Char → Bool) (rcvr : Receiver)
    (h : IsExported upper (indirectType rcvr.typ).Name = false) :
    newService upper rcvr =
      .error ("rpc server: " ++ (indirectType rcvr.typ).Name ++ " is not a valid service name") := by
  simp [newService, h]

theorem Register_again (upper : Char → Bool) (server : Server) (r : Receiver)
    (hexp : IsExported upper (indirectType r.typ).Name = true) (svc : service)
    (hl : server.serviceMap.lookup (indirectType r.typ).Name = some svc) :
    server.Register upper r =
      .ok (server,
        some (errorsNew ("rpc: service already defined: " ++ (indirectType r.typ).Name))) := by
  simp only [Server.Register, newService_exported upper r hexp, hl]

/-- C9.  Two receivers with the same exported service name, on any server.
If the name is not registered yet, the first `Register` returns nil and stores
the service of the first receiver.  Whatever the first `Register` returned,
the second returns the error "rpc: service already defined: " followed by the
name and leaves the server as it is, so the name is still resolved to the
service registered first, by the map and by `findService`.  A receiver whose
type name is not exported makes `Register` end in `log.Fatalf`, with no server
state in which a service was added. -/
theorem C9_register_twice (upper : Char → Bool) (server : Server) (r1 r2 : Receiver)
    (hname : (indirectType r2.typ).Name = (indirectType r1.typ).Name)
    (hexp : IsExported upper (indirectType r1.typ).Name = true) :
    (server.serviceMap.lookup (indirectType r1.typ).Name = none →
      ∃ svc1 server1,
        newService upper r1 = .ok svc1 ∧ svc1.rcvr = r1 ∧
        svc1.name = (indirectType r1.typ).Name ∧
        server.Register upper r1 = .ok (server1, none) ∧
        server1.serviceMap = (svc1.name, svc1) :: server.serviceMap ∧
        server1.Register upper r2
          = .ok (server1, some (errorsNew ("rpc: service already defined: " ++ svc1.name))) ∧
        server1.serviceMap.lookup svc1.name = some svc1 ∧
        ∀ b : List Char, '.' ∉ b →
          (server1.findService (String.mk (svc1.name.data ++ '.' :: b))).1 = some svc1) ∧
    (∀ server1 err1, server.Register upper r1 = .ok (server1, err1) →
      server1.Register upper r2
        = .ok (server1,
            some (errorsNew
              ("rpc: service already defined: " ++ (indirectType r1.typ).Name)))) ∧
    (∀ r : Receiver, IsExported upper (indirectType r.typ).Name = false →
      server.Register upper r =
        .error ("rpc server: " ++ (indirectType r.typ).Name ++ " is not a valid service name")) := by
  have hexp2 : IsExported upper (indirectType r2.typ).Name = true := by rw [hname]; exact hexp
  refine ⟨?_, ?_, ?_⟩
  · intro hnew
    refine ⟨_, _, newService_exported upper r1 hexp, rfl, rfl, ?_, rfl, ?_, ?_, ?_⟩
    · simp only [Server.Register, newService_exported upper r1 hexp, hnew]
    · simp only [Server.Register, newService_exported upper r2 hexp2, hname,
        List.lookup_cons_self]
    · simp only [List.lookup_cons_self]
    · intro b hb
      rw [findService_split _ _ (indirectType r1.typ).Name.data b rfl hb]
      simp only [List.lookup_cons_self]
      split <;> rfl
  · intro server1 err1 hreg
    rw [← hname]
    cases hl : server.serviceMap.lookup (indirectType r1.typ).Name with
    | some svc =>
        simp only [Server.Register, newService_exported upper r1 hexp, hl, Except.ok.injEq,
          Prod.mk.injEq] at hreg
        rw [← hreg.1]
        exact Register_again upper server r2 hexp2 svc (by rw [hname]; exact hl)
    | none =>
        simp only [Server.Register, newService_exported upper r1 hexp, hl, Except.ok.injEq,
          Prod.mk.injEq] at hreg
        rw [← hreg.1]
        exact Register_again upper _ r2 hexp2 _ (by rw [hname]; exact List.lookup_cons_self)
  · intro r hr
    simp only [Server.Register, newService_unexported upper r hr]

/-- An instance of C9: `&foo` and a second receiver of a type named `Foo` on a
new server. -/
theorem C9_register_twice_witness :
    (indirectType otherFooReceiver.typ).Name = (indirectType fooReceiver.typ).Name ∧
    IsExported asciiUpper (indirectType fooReceiver.typ).Name = true ∧
    ∃ svc1 server1,
      NewServer.Register asciiUpper fooReceiver = .ok (server1, none) ∧
      server1.Register asciiUpper otherFooReceiver
        = .ok (server1, some (errorsNew ("rpc: service already defined: " ++ svc1.name))) ∧
      server1.serviceMap.lookup svc1.name = some svc1 ∧ svc1.rcvr = fooReceiver :=
  ⟨by decide, by decide,
    match (C9_register_twice asciiUpper NewServer fooReceiver otherFooReceiver
      (by decide) (by decide)).1 rfl with
    | ⟨svc1, server1, _, hr, _, h1, _, h2, h3, _⟩ => ⟨svc1, server1, h1, h2, h3, hr⟩⟩

/-! ## Invocation (C10) -/

theorem wrapInt_of_range (i : Int) (h1 : -2 ^ 63 ≤ i) (h2 : i < 2 ^ 63) : wrapInt i = i := by
  unfold wrapInt
  omega

/-- C10.  The service built from the receiver `&foo` has the method `Sum`;
calling it through `service.call` with the argument `{Num1: a, Num2: b}`
returns a nil error and sets the reply to `a + b` in `int` arithmetic (which
is `a + b` itself when that lies in the range of `int`), so to 7 for
`{3, 4}`.  Every call through `service.call`, of any method of any service,
adds one to the `uint64` counter behind `NumCalls` and returns exactly the
error the method returned. -/
theorem C10_call_sum (a b : Int) (replyv : Value) :
    newService asciiUpper fooReceiver = .ok fooService ∧
    (∃ m, fooService.method.lookup "Sum" = some m ∧
      (fooService.call m (Value.ints [a, b]) replyv).2.2
        = (Value.int (wrapInt (a + b)), none) ∧
      (fooService.call m (Value.ints [3, 4]) replyv).2.2 = (Value.int 7, none) ∧
      (fooService.call m (Value.ints [a, b]) replyv).2.1.NumCalls = m.NumCalls + 1) ∧
    (-2 ^ 63 ≤ a + b → a + b < 2 ^ 63 → wrapInt (a + b) = a + b) ∧
    (∀ (s : service) (m : methodType) (argv reply : Value),
      (s.call m argv reply).2.1.NumCalls = (m.NumCalls + 1) % uint64Mod ∧
      (m.NumCalls + 1 < uint64Mod → (s.call m argv reply).2.1.NumCalls = m.NumCalls + 1) ∧
      (s.call m argv reply).2.2.2 = (m.method.Func s.rcvr.value argv reply).2.2 ∧
      (s.call m argv reply).2.2.1 = (m.method.Func s.rcvr.value argv reply).2.1) := by
  refine ⟨rfl, ⟨_, rfl, rfl, rfl, rfl⟩, wrapInt_of_range (a + b), ?_⟩
  intro s m argv reply
  refine ⟨rfl, ?_, rfl, rfl⟩
  intro h
  show (m.numCalls + 1) % uint64Mod = m.numCalls + 1
  exact Nat.mod_eq_of_lt h

/-- An instance of C10: the sum of 3 and 4 is in the range of `int`. -/
theorem C10_call_sum_witness :
    (-2 ^ 63 ≤ (3 : Int) + 4) ∧ ((3 : Int) + 4 < 2 ^ 63) ∧ wrapInt (3 + 4) = 3 + 4 :=
  ⟨by decide, by decide, (C10_call_sum 3 4 Value.nil).2.2.1 (by decide) (by decide)⟩

/-! ## A closed client (C11) -/

theorem step_closing (w : World) (s : Step) (h : w.client.closing = true) :
    (s.run w).1.client.closing = true := by
  cases s with
  | remove seq => exact h
  | terminate err =>
      show (terminateCalls w (some err)).client.closing = true
      rw [terminateCalls_client]
      exact h
  | close =>
      show (Close w).1.client.closing = true
      unfold Close
      rw [if_pos h]
      exact h
  | receive =>
      show (receiveStep w).1.client.closing = true
      rw [(receiveStep_frame w).2.1]
      exact h
  | register sm a r d =>
      simp [Step.run, registerCall, newCall, h]

theorem runSteps_closing (steps : List Step) :
    ∀ w : World, w.client.closing = true → (runSteps w steps).1.client.closing = true := by
  induction steps with
  | nil => intro w h; exact h
  | cons s rest ih =>
      intro w h
      rw [runSteps_cons]
      exact ih _ (step_closing w s h)

theorem Close_closing (w : World) : (Close w).1.client.closing = true := by
  unfold Close
  by_cases h : w.client.closing = true
  · rw [if_pos h]; exact h
  · rw [if_neg h]

theorem Close_of_closing (w : World) (h : w.client.closing = true) :
    Close w = (w, some ErrShutdown) := by
  unfold Close
  rw [if_pos h]

theorem registerCall_closing (w : World) (call : Nat) (h : w.client.closing = true) :
    registerCall w call = (w, 0, some ErrShutdown) := by
  simp [registerCall, h]

theorem send_closing (w : World) (call : Nat) (h : w.client.closing = true) :
    send w call = Call.done (w.update call (fun c => { c with Error := some ErrShutdown })) call := by
  unfold send
  rw [registerCall_closing w call h]

/-- C11.  In every state reached, by any later steps, from a state in which
`Close` has been called: a further `Close` returns `ErrShutdown` and changes
nothing, so the codec is not closed again; `IsAvailable` is false;
`registerCall` returns 0 and `ErrShutdown` and changes nothing, so neither the
pending table nor the sequence counter; and `send` leaves the client (table,
counter and codec, hence what has been written to the connection) as it is,
sets the `Error` of the call to `ErrShutdown` and sends the call once on its
`Done` channel. -/
theorem C11_closed_client (w0 : World) (later : List Step) :
    Close (runSteps (Close w0).1 later).1
      = ((runSteps (Close w0).1 later).1, some ErrShutdown) ∧
    IsAvailable (runSteps (Close w0).1 later).1 = false ∧
    (∀ call, registerCall (runSteps (Close w0).1 later).1 call
        = ((runSteps (Close w0).1 later).1, 0, some ErrShutdown)) ∧
    (∀ call, (send (runSteps (Close w0).1 later).1 call).client
        = (runSteps (Close w0).1 later).1.client) ∧
    (∀ call c, (runSteps (Close w0).1 later).1.heap[call]? = some c →
        ((send (runSteps (Close w0).1 later).1 call).heap[call]?).map Call.Error
          = some (some ErrShutdown) ∧
        delivered (send (runSteps (Close w0).1 later).1 call) c.Done call
          = delivered (runSteps (Close w0).1 later).1 c.Done call + 1 ∧
        ∀ d p, (d, p) ≠ (c.Done, call) →
          delivered (send (runSteps (Close w0).1 later).1 call) d p
            = delivered (runSteps (Close w0).1 later).1 d p) := by
  have hc := runSteps_closing later _ (Close_closing w0)
  refine ⟨?_, ?_, ?_, ?_, ?_⟩
  · exact Close_of_closing _ hc
  · simp [IsAvailable, hc]
  · intro call
    exact registerCall_closing _ call hc
  · intro call
    rw [send_closing _ call hc, done_client, update_client]
  · intro call c hget
    rw [send_closing _ call hc]
    refine ⟨?_, ?_, ?_⟩
    · rw [done_heap, update_heap_get, hget]
      simp
    · unfold delivered Call.done
      rw [update_heap_get, hget]
      simp [update_sent]
    · intro d p hne
      unfold delivered Call.done
      rw [update_heap_get, hget]
      simp only [Option.map_eq_map, Option.map_some', if_true, update_sent, List.count_append]
      have : List.count (d, p) [(c.Done, call)] = 0 := by
        rw [List.count_eq_zero]
        simp only [List.mem_singleton]
        exact hne
      omega

/-- An instance of C11: on the closed client with one pending call, `send` of
that call completes it with `ErrShutdown`. -/
theorem C11_closed_client_witness :
    closedWorld.heap[0]? = some ⟨1, "Foo.Sum", Value.ints [3, 4], Value.int 0, none, 0⟩ ∧
    ((send (runSteps (Close cancelWorld).1 []).1 0).heap[0]?).map Call.Error
      = some (some ErrShutdown) :=
  ⟨by decide,
    ((C11_closed_client cancelWorld []).2.2.2.2 0
      ⟨1, "Foo.Sum", Value.ints [3, 4], Value.int 0, none, 0⟩ (by decide)).1⟩

/-! ## The handshake (C12) -/

theorem NewCodecFuncMap_isSome (t : String) :
    (NewCodecFuncMap t).isSome = true ↔ t = GobType := by
  unfold NewCodecFuncMap
  by_cases h : t = GobType
  · simp [h]
  · simp [h]

theorem ServeConn_accept (fuel : Nat) (server : Server) (conn : Conn) (opt : ConnOption)
    (hh : conn.handshake = .ok opt) (hm : opt.MagicNumber = 0x3bef5c)
    (hc : (NewCodecFuncMap opt.CodecType).isSome = true) :
    server.ServeConn fuel conn =
      (server.serveCodec fuel (NewGobCodec conn.input)).map
        (fun r => (r.1, Conn.Close { conn with input := r.2.input, output := r.2.output })) := by
  have ht := (NewCodecFuncMap_isSome opt.CodecType).1 hc
  unfold Server.ServeConn
  simp only [hh, hm, MagicNumber, ne_eq, not_true_eq_false, if_false, NewCodecFuncMap, ht,
    if_true]
  cases server.serveCodec fuel (NewGobCodec conn.input) with
  | none => rfl
  | some r => rfl

theorem ServeConn_reject (fuel : Nat) (server : Server) (conn : Conn)
    (h : ¬ ∃ opt, conn.handshake = .ok opt ∧ opt.MagicNumber = 0x3bef5c ∧
        (NewCodecFuncMap opt.CodecType).isSome = true) :
    server.ServeConn fuel conn = some (server, Conn.Close conn) := by
  unfold Server.ServeConn
  cases hh : conn.handshake with
  | error e => rfl
  | ok opt =>
      simp only
      by_cases hm : opt.MagicNumber = 0x3bef5c
      · have hc : ¬ (NewCodecFuncMap opt.CodecType).isSome = true :=
          fun hc => h ⟨opt, hh, hm, hc⟩
        have hn : NewCodecFuncMap opt.CodecType = none := by
          cases hq : NewCodecFuncMap opt.CodecType with
          | none => rfl
          | some f => rw [hq] at hc; simp at hc
        simp [hm, MagicNumber, hn]
      · simp [MagicNumber, hm]

/-- C12.  `ServeConn` hands the connection to `serveCodec` exactly when the
handshake decodes to an `Option` whose `MagicNumber` is `0x3bef5c` and whose
`CodecType` is a key of `NewCodecFuncMap`, whose only key is
"application/gob": then its result is the result of `serveCodec` on the gob
codec of the connection.  For every other handshake (undecodable, wrong magic
number, unknown codec type, "application/json" among them) it returns with the
server as it was and the connection closed, nothing read from it and nothing
written to it. -/
theorem C12_ServeConn (fuel : Nat) (server : Server) (conn : Conn) :
    (∀ t, (NewCodecFuncMap t).isSome = true ↔ t = "application/gob") ∧
    (∀ opt, conn.handshake = .ok opt → opt.MagicNumber = 0x3bef5c →
        (NewCodecFuncMap opt.CodecType).isSome = true →
        server.ServeConn fuel conn =
          (server.serveCodec fuel (NewGobCodec conn.input)).map
            (fun r =>
              (r.1, Conn.Close { conn with input := r.2.input, output := r.2.output }))) ∧
    ((¬ ∃ opt, conn.handshake = .ok opt ∧ opt.MagicNumber = 0x3bef5c ∧
          (NewCodecFuncMap opt.CodecType).isSome = true) →
        server.ServeConn fuel conn = some (server, Conn.Close conn) ∧
        (Conn.Close conn).input = conn.input ∧ (Conn.Close conn).output = conn.output ∧
        (Conn.Close conn).closed = true) :=
  ⟨NewCodecFuncMap_isSome, ServeConn_accept fuel server conn,
    fun h => ⟨ServeConn_reject fuel server conn h, rfl, rfl, rfl⟩⟩

/-- An instance of C12: with the magic number and the gob codec the request
`Foo.Sum` is answered with 7; with the JSON codec type, a wrong magic number
or an undecodable handshake the connection is closed with the request
unread. -/
theorem C12_ServeConn_witness :
    ((fooServer.ServeConn 5 (sumConn (.ok ⟨0x3bef5c, "application/gob"⟩))).map
        (fun r => r.2.view))
      = some ([], [Msg.header ⟨"Foo.Sum", 1, ""⟩, Msg.body (Value.int 7)], true) ∧
    ((fooServer.ServeConn 5 (sumConn (.ok ⟨0x3bef5c, "application/json"⟩))).map
        (fun r => r.2.view))
      = some ([Msg.header ⟨"Foo.Sum", 1, ""⟩, Msg.body (Value.ints [3, 4])], [], true) ∧
    ((fooServer.ServeConn 5 (sumConn (.ok ⟨1, "application/gob"⟩))).map (fun r => r.2.view))
      = some ([Msg.header ⟨"Foo.Sum", 1, ""⟩, Msg.body (Value.ints [3, 4])], [], true) ∧
    fooServer.ServeConn 5 (sumConn (.error (errorsNew "unexpected EOF")))
      = some (fooServer, Conn.Close (sumConn (.error (errorsNew "unexpected EOF")))) :=
  ⟨by decide, by decide, by decide,
    ((C12_ServeConn 5 fooServer (sumConn (.error (errorsNew "unexpected EOF")))).2.2
      (by rintro ⟨opt, h, _⟩; cases h)).1⟩

end Grpc

namespace Registry

/-! ## The order of strings and `sort.Strings` -/

theorem lexLe_total : ∀ a b : List Char, lexLe a b = true ∨ lexLe b a = true
  | [], _ => Or.inl (by simp [lexLe])
  | _ :: _, [] => Or.inr (by simp [lexLe])
  | a :: as, b :: bs => by
      simp only [lexLe]
      by_cases h1 : a.toNat < b.toNat
      · simp [h1]
      · by_cases h2 : b.toNat < a.toNat
        · simp [h1, h2]
        · simp only [h1, h2, if_false]
          exact lexLe_total as bs

theorem lexLe_trans : ∀ a b c : List Char, lexLe a b = true → lexLe b c = true →
    lexLe a c = true
  | [], _, _, _, _ => by simp [lexLe]
  | _ :: _, [], _, h, _ => by simp [lexLe] at h
  | _ :: _, _ :: _, [], _, h => by simp [lexLe] at h
  | a :: as, b :: bs, c :: cs, h1, h2 => by
      simp only [lexLe] at h1 h2 ⊢
      by_cases hab : a.toNat < b.toNat
      · by_cases hbc : b.toNat < c.toNat
        · have : a.toNat < c.toNat := by omega
          simp [this]
        · by_cases hcb : c.toNat < b.toNat
          · simp [hbc, hcb] at h2
          · have : a.toNat < c.toNat := by omega
            simp [this]
      · by_cases hba : b.toNat < a.toNat
        · simp [hab, hba] at h1
        · simp only [hab, hba, if_false] at h1
          by_cases hbc : b.toNat < c.toNat
          · have : a.toNat < c.toNat := by omega
            simp [this]
          · by_cases hcb : c.toNat < b.toNat
            · simp [hbc, hcb] at h2
            · simp only [hbc, hcb, if_false] at h2
              have e1 : ¬ a.toNat < c.toNat := by omega
              have e2 : ¬ c.toNat < a.toNat := by omega
              simp only [e1, e2, if_false]
              exact lexLe_trans as bs cs h1 h2

theorem sortStrings_perm (l : List String) : (sortStrings l).Perm l :=
  List.perm_insertionSort strLe l

theorem sortStrings_sorted (l : List String) : (sortStrings l).Sorted strLe :=
  haveI : IsTotal String strLe := ⟨fun a b => lexLe_total a.data b.data⟩
  haveI : IsTrans String strLe := ⟨fun a b c => lexLe_trans a.data b.data c.data⟩
  List.sorted_insertionSort strLe l

theorem sortStrings_strict (l : List String) (h : l.Nodup) :
    (sortStrings l).Sorted (fun a b => strLe a b ∧ a ≠ b) := by
  have hn : (sortStrings l).Nodup := (sortStrings_perm l).nodup_iff.2 h
  exact List.Pairwise.and (sortStrings_sorted l) hn

/-! ## The registry (C13) -/

theorem foldl_aliveStep (timeout now : Int) (l : List (String × ServerItem)) :
    ∀ acc : List String × List (String × ServerItem),
      l.foldl (aliveStep timeout now) acc =
        (acc.1 ++ (l.filter (fun e => decide (Alive timeout now e.2))).map Prod.fst,
          acc.2.filter (fun x => decide (x.1 ∉
            (l.filter (fun e => decide (¬ Alive timeout now e.2))).map Prod.fst))) := by
  induction l with
  | nil => intro acc; simp
  | cons e rest ih =>
      intro acc
      rw [List.foldl_cons, ih]
      by_cases h : Alive timeout now e.2
      · have hs : aliveStep timeout now acc e = (acc.1 ++ [e.1], acc.2) := by
          unfold aliveStep
          rw [if_pos (show timeout = 0 ∨ now < e.2.start + timeout from h)]
        have k1 : (e :: rest).filter (fun e => decide (Alive timeout now e.2))
            = e :: rest.filter (fun e => decide (Alive timeout now e.2)) :=
          List.filter_cons_of_pos (by simpa using h)
        have k2 : (e :: rest).filter (fun e => decide (¬ Alive timeout now e.2))
            = rest.filter (fun e => decide (¬ Alive timeout now e.2)) :=
          List.filter_cons_of_neg (by simpa using h)
        rw [hs, k1, k2]
        simp
      · have hs : aliveStep timeout now acc e
            = (acc.1, acc.2.filter (fun x => x.1 ≠ e.1)) := by
          unfold aliveStep
          rw [if_neg (show ¬ (timeout = 0 ∨ now < e.2.start + timeout) from h)]
        have k1 : (e :: rest).filter (fun e => decide (Alive timeout now e.2))
            = rest.filter (fun e => decide (Alive timeout now e.2)) :=
          List.filter_cons_of_neg (by simpa using h)
        have k2 : (e :: rest).filter (fun e => decide (¬ Alive timeout now e.2))
            = e :: rest.filter (fun e => decide (¬ Alive timeout now e.2)) :=
          List.filter_cons_of_pos (by simpa using h)
        rw [hs, k1, k2, List.filter_filter]
        congr 1
        apply List.filter_congr
        intro x _
        by_cases hx : x.1 = e.1 <;>
        by_cases hm : x.1 ∈ (rest.filter
          (fun e => decide (¬ Alive timeout now e.2))).map Prod.fst <;>
        simp [hx, hm]

theorem expired_key_iff {timeout now : Int} {l : List (String × ServerItem)}
    (hn : (l.map Prod.fst).Nodup) {x : String × ServerItem} (hx : x ∈ l) :
    x.1 ∈ (l.filter (fun e => decide (¬ Alive timeout now e.2))).map Prod.fst
      ↔ ¬ Alive timeout now x.2 := by
  constructor
  · intro hmem
    obtain ⟨e, he, hk⟩ := List.mem_map.1 hmem
    have hel := (List.mem_filter.1 he).1
    have hexp := (List.mem_filter.1 he).2
    have : e = x := by
      have inj := List.inj_on_of_nodup_map hn
      exact inj hel hx hk
    rw [← this]
    simpa using hexp
  · intro hexp
    exact List.mem_map.2 ⟨x, List.mem_filter.2 ⟨hx, by simpa using hexp⟩, rfl⟩

theorem aliveServers_eq (r : GrpcRegistry) (now : Int) (hn : (r.servers.map Prod.fst).Nodup) :
    aliveServers r now =
      ({ r with servers := r.servers.filter (fun e => decide (Alive r.timeout now e.2)) },
        sortStrings
          ((r.servers.filter (fun e => decide (Alive r.timeout now e.2))).map Prod.fst)) := by
  unfold aliveServers
  rw [foldl_aliveStep]
  simp only [List.nil_append]
  have : r.servers.filter (fun x => decide (x.1 ∉
        (r.servers.filter (fun e => decide (¬ Alive r.timeout now e.2))).map Prod.fst))
      = r.servers.filter (fun e => decide (Alive r.timeout now e.2)) := by
    apply List.filter_congr
    intro x hx
    have hiff := @expired_key_iff r.timeout now r.servers hn x hx
    by_cases ha : Alive r.timeout now x.2
    · have : ¬ x.1 ∈ (r.servers.filter
          (fun e => decide (¬ Alive r.timeout now e.2))).map Prod.fst :=
        fun hm => (hiff.1 hm) ha
      rw [decide_eq_true this, decide_eq_true ha]
    · have : ¬ ¬ x.1 ∈ (r.servers.filter
          (fun e => decide (¬ Alive r.timeout now e.2))).map Prod.fst :=
        fun hm => hm (hiff.2 ha)
      rw [decide_eq_false this, decide_eq_false ha]
  rw [this]

/-- C13.  For every registry (a map: its keys are pairwise distinct), and
every instant `now`: `aliveServers` returns, in strictly ascending order (so
sorted and without duplicates), exactly the addresses whose entry has
`timeout = 0` or `now < start + timeout`; afterwards the directory holds
exactly those entries, each as it was, in their old order, and no expired
entry; the timeout is unchanged. -/
theorem C13_aliveServers (r : GrpcRegistry) (now : Int)
    (hn : (r.servers.map Prod.fst).Nodup) :
    (aliveServers r now).2.Sorted (fun a b => strLe a b ∧ a ≠ b) ∧
    (∀ addr, addr ∈ (aliveServers r now).2 ↔
        ∃ item, (addr, item) ∈ r.servers ∧ (r.timeout = 0 ∨ now < item.start + r.timeout)) ∧
    (∀ e, e ∈ (aliveServers r now).1.servers ↔
        e ∈ r.servers ∧ (r.timeout = 0 ∨ now < e.2.start + r.timeout)) ∧
    (aliveServers r now).1.servers.Sublist r.servers ∧
    ((aliveServers r now).1.servers.map Prod.fst).Nodup ∧
    (aliveServers r now).1.timeout = r.timeout := by
  rw [aliveServers_eq r now hn]
  have hsub : (r.servers.filter (fun e => decide (Alive r.timeout now e.2))).Sublist r.servers :=
    List.filter_sublist _
  have hnod : ((r.servers.filter
      (fun e => decide (Alive r.timeout now e.2))).map Prod.fst).Nodup :=
    hn.sublist (hsub.map Prod.fst)
  refine ⟨sortStrings_strict _ hnod, ?_, ?_, hsub, hnod, rfl⟩
  · intro addr
    rw [(sortStrings_perm _).mem_iff]
    simp only [List.mem_map, List.mem_filter, decide_eq_true_eq, Alive]
    constructor
    · rintro ⟨e, ⟨he, ha⟩, rfl⟩
      exact ⟨e.2, he, ha⟩
    · rintro ⟨item, he, ha⟩
      exact ⟨(addr, item), ⟨he, ha⟩, rfl⟩
  · intro e
    simp only [List.mem_filter, decide_eq_true_eq, Alive]

/-- An instance of C13: at the instant 11 the server whose last heartbeat was
at 1 has expired. -/
theorem C13_aliveServers_witness :
    (threeServers.servers.map Prod.fst).Nodup ∧
    aliveServers threeServers 11
      = ({ timeout := 5, servers := [("tcp@c", ⟨"tcp@c", 10⟩), ("tcp@b", ⟨"tcp@b", 7⟩)] },
          ["tcp@b", "tcp@c"]) ∧
    (aliveServers threeServers 11).2.Sorted (fun a b => strLe a b ∧ a ≠ b) :=
  ⟨by decide, by decide, (C13_aliveServers threeServers 11 (by decide)).1⟩

/-! ## Heartbeats (C14) -/

theorem mem_aliveServers_iff (r : GrpcRegistry) (now : Int)
    (hn : (r.servers.map Prod.fst).Nodup) (addr : String) :
    addr ∈ (aliveServers r now).2 ↔ ∃ item, (addr, item) ∈ r.servers ∧ Alive r.timeout now item := by
  rw [aliveServers_eq r now hn, (sortStrings_perm _).mem_iff]
  simp only [List.mem_map, List.mem_filter, decide_eq_true_eq]
  constructor
  · rintro ⟨e, ⟨he, ha⟩, rfl⟩
    exact ⟨e.2, he, ha⟩
  · rintro ⟨item, he, ha⟩
    exact ⟨(addr, item), ⟨he, ha⟩, rfl⟩

theorem lookup_ne_none_of_mem {l : List (String × ServerItem)} {addr : String}
    {item : ServerItem} (h : (addr, item) ∈ l) : l.lookup addr ≠ none := by
  intro hnone
  have := List.lookup_eq_none_iff.1 hnone (addr, item) h
  simp at this

theorem putServer_present (r : GrpcRegistry) (addr : String) (now : Int) (item : ServerItem)
    (h : (addr, item) ∈ r.servers) :
    putServer r addr now =
      { r with servers := r.servers.map (fun e =>
          if e.1 = addr then (e.1, { e.2 with start := now }) else e) } := by
  unfold putServer
  cases hl : r.servers.lookup addr with
  | none => exact absurd hl (lookup_ne_none_of_mem h)
  | some _ => rfl

theorem putServer_absent (r : GrpcRegistry) (addr : String) (now : Int)
    (h : r.servers.lookup addr = none) :
    putServer r addr now =
      { r with servers := (addr, { Addr := addr, start := now }) :: r.servers } := by
  unfold putServer
  rw [h]

theorem putServer_timeout (r : GrpcRegistry) (addr : String) (now : Int) :
    (putServer r addr now).timeout = r.timeout := by
  unfold putServer
  split <;> rfl

theorem putServer_keys (r : GrpcRegistry) (addr : String) (now : Int) :
    ((putServer r addr now).servers.map Prod.fst =
        r.servers.map Prod.fst ∧ r.servers.lookup addr ≠ none) ∨
    ((putServer r addr now).servers.map Prod.fst =
        addr :: r.servers.map Prod.fst ∧ r.servers.lookup addr = none) := by
  cases hl : r.servers.lookup addr with
  | none =>
      right
      rw [putServer_absent r addr now hl]
      exact ⟨rfl, rfl⟩
  | some it =>
      left
      unfold putServer
      rw [hl]
      refine ⟨?_, by simp⟩
      simp only [List.map_map]
      apply List.map_congr_left
      intro e _
      simp only [Function.comp]
      split <;> rfl

theorem putServer_nodup (r : GrpcRegistry) (addr : String) (now : Int)
    (hn : (r.servers.map Prod.fst).Nodup) :
    ((putServer r addr now).servers.map Prod.fst).Nodup := by
  rcases putServer_keys r addr now with ⟨hk, _⟩ | ⟨hk, hl⟩
  · rw [hk]; exact hn
  · rw [hk]
    refine List.nodup_cons.2 ⟨?_, hn⟩
    intro hmem
    obtain ⟨e, he, hk2⟩ := List.mem_map.1 hmem
    have := List.lookup_eq_none_iff.1 hl e he
    simp [hk2] at this

theorem putServer_other (r : GrpcRegistry) (addr : String) (now : Int)
    (e : String × ServerItem) (hne : e.1 ≠ addr) :
    e ∈ (putServer r addr now).servers ↔ e ∈ r.servers := by
  unfold putServer
  cases hl : r.servers.lookup addr with
  | none =>
      simp only [List.mem_cons]
      constructor
      · rintro (h | h)
        · exact absurd (by rw [h]) hne
        · exact h
      · intro h; exact Or.inr h
  | some it =>
      simp only [List.mem_map]
      constructor
      · rintro ⟨x, hx, hfx⟩
        by_cases hxa : x.1 = addr
        · rw [if_pos hxa] at hfx
          exact absurd (by rw [← hfx]; exact hxa) hne
        · rw [if_neg hxa] at hfx
          rw [← hfx]; exact hx
      · intro h
        exact ⟨e, h, by rw [if_neg hne]⟩

theorem putServer_self (r : GrpcRegistry) (addr : String) (now : Int) :
    ∃ item, (addr, item) ∈ (putServer r addr now).servers ∧ item.start = now := by
  cases hl : r.servers.lookup addr with
  | none =>
      rw [putServer_absent r addr now hl]
      exact ⟨_, List.mem_cons_self _ _, rfl⟩
  | some it =>
      have hmem : (addr, it) ∈ r.servers := by
        obtain ⟨l1, l2, h, _⟩ := List.lookup_eq_some_iff.1 hl
        rw [h]; simp
      rw [putServer_present r addr now it hmem]
      refine ⟨{ it with start := now }, ?_, rfl⟩
      exact List.mem_map.2 ⟨(addr, it), hmem, by simp⟩

theorem putServer_self_start (r : GrpcRegistry) (addr : String) (now : Int)
    (item : ServerItem) (h : (addr, item) ∈ (putServer r addr now).servers) :
    item.start = now := by
  unfold putServer at h
  cases hl : r.servers.lookup addr with
  | none =>
      rw [hl] at h
      rcases List.mem_cons.1 h with h1 | h1
      · cases h1; rfl
      · have := List.lookup_eq_none_iff.1 hl (addr, item) h1
        simp at this
  | some it =>
      rw [hl] at h
      obtain ⟨x, _, hfx⟩ := List.mem_map.1 h
      by_cases hxa : x.1 = addr
      · rw [if_pos hxa] at hfx
        cases hfx; rfl
      · rw [if_neg hxa] at hfx
        exact absurd (by rw [hfx]) hxa

theorem run_timeout (r : GrpcRegistry) (op : RegOp) : (op.run r).timeout = r.timeout := by
  cases op with
  | put addr now => exact putServer_timeout r addr now
  | alive now => rfl

theorem run_nodup (r : GrpcRegistry) (op : RegOp) (hn : (r.servers.map Prod.fst).Nodup) :
    ((op.run r).servers.map Prod.fst).Nodup := by
  cases op with
  | put addr now => exact putServer_nodup r addr now hn
  | alive now =>
      show ((aliveServers r now).1.servers.map Prod.fst).Nodup
      rw [aliveServers_eq r now hn]
      exact hn.sublist ((List.filter_sublist _).map Prod.fst)

theorem runOps_inv (X : String) (t0 t1 : Int) (ops : List RegOp) :
    ∀ r : GrpcRegistry, (r.servers.map Prod.fst).Nodup →
      (∀ t, RegOp.put X t ∉ ops) →
      (∀ item, (X, item) ∈ r.servers → item.start = t0) →
      (runOps r ops).timeout = r.timeout ∧
      ((runOps r ops).servers.map Prod.fst).Nodup ∧
      (∀ item, (X, item) ∈ (runOps r ops).servers → item.start = t0) ∧
      ((∃ item, (X, item) ∈ r.servers) → (∀ t, RegOp.alive t ∈ ops → t ≤ t1) →
        Alive r.timeout t1 ⟨X, t0⟩ → ∃ item, (X, item) ∈ (runOps r ops).servers) := by
  induction ops with
  | nil =>
      intro r hn _ hs
      exact ⟨rfl, hn, hs, fun h _ _ => h⟩
  | cons op rest ih =>
      intro r hn hX hs
      have hX2 : ∀ t, RegOp.put X t ∉ rest := fun t h => hX t (List.mem_cons_of_mem _ h)
      have hs2 : ∀ item, (X, item) ∈ (op.run r).servers → item.start = t0 := by
        intro item hm
        cases op with
        | put addr now =>
            have hne : addr ≠ X := by
              intro h
              exact hX now (by rw [h]; exact List.mem_cons_self _ _)
            exact hs item ((putServer_other r addr now (X, item) (fun h => hne h.symm)).1 hm)
        | alive now =>
            have hm2 : (X, item) ∈ (aliveServers r now).1.servers := hm
            rw [aliveServers_eq r now hn] at hm2
            exact hs item (List.mem_filter.1 hm2).1
      obtain ⟨a, b, c, d⟩ := ih (op.run r) (run_nodup r op hn) hX2 hs2
      have ht := run_timeout r op
      refine ⟨by show (runOps (op.run r) rest).timeout = _; rw [a, ht], b, c, ?_⟩
      intro hex hclock halive
      apply d
      · obtain ⟨item, hm⟩ := hex
        cases op with
        | put addr now =>
            have hne : addr ≠ X := by
              intro h
              exact hX now (by rw [h]; exact List.mem_cons_self _ _)
            exact ⟨item, (putServer_other r addr now (X, item) (fun h => hne h.symm)).2 hm⟩
        | alive now =>
            refine ⟨item, ?_⟩
            show (X, item) ∈ (aliveServers r now).1.servers
            rw [aliveServers_eq r now hn]
            refine List.mem_filter.2 ⟨hm, ?_⟩
            have hle : now ≤ t1 := hclock now (List.mem_cons_self _ _)
            have hst := hs item hm
            simp only [decide_eq_true_eq]
            unfold Alive at halive ⊢
            rcases halive with h0 | hlt
            · exact Or.inl h0
            · right
              rw [hst]
              simp only at hlt
              omega
      · intro t hmem
        exact hclock t (List.mem_cons_of_mem _ hmem)
      · rw [ht]; exact halive

/-- C14.  For every registry (a map), every address `X`, and any requests
between that are no heartbeat of `X` and are served no later than `t1`: after
`putServer(X)` at `t0`, `aliveServers` at `t1` lists `X` if the timeout `T` is
positive and `t1 < t0 + T`, does not list `X` if `T` is positive and
`t1 >= t0 + T`, and lists `X` if `T = 0`.  `putServer(X)` on an address that is
present leaves the keys of the map as they are (no second entry), gives the
entry of `X` the current instant as its timestamp, keeping its address, and
leaves every other entry as it is. -/
theorem C14_heartbeat_window (r : GrpcRegistry) (X : String) (t0 t1 : Int) (ops : List RegOp)
    (hn : (r.servers.map Prod.fst).Nodup)
    (hX : ∀ t, RegOp.put X t ∉ ops)
    (hclock : ∀ t, RegOp.alive t ∈ ops → t ≤ t1) :
    (0 < r.timeout → t1 < t0 + r.timeout →
        X ∈ (aliveServers (runOps (putServer r X t0) ops) t1).2) ∧
    (0 < r.timeout → t0 + r.timeout ≤ t1 →
        X ∉ (aliveServers (runOps (putServer r X t0) ops) t1).2) ∧
    (r.timeout = 0 → X ∈ (aliveServers (runOps (putServer r X t0) ops) t1).2) ∧
    (∀ item t, (X, item) ∈ r.servers →
        (putServer r X t).servers.map Prod.fst = r.servers.map Prod.fst ∧
        (X, { item with start := t }) ∈ (putServer r X t).servers ∧
        (∀ item2, (X, item2) ∈ (putServer r X t).servers → item2 = { item with start := t }) ∧
        (∀ e, e.1 ≠ X → (e ∈ (putServer r X t).servers ↔ e ∈ r.servers)) ∧
        (putServer r X t).timeout = r.timeout) := by
  have hn1 := putServer_nodup r X t0 hn
  have hs1 : ∀ item, (X, item) ∈ (putServer r X t0).servers → item.start = t0 :=
    putServer_self_start r X t0
  obtain ⟨ht, hn2, hs2, hkeep⟩ := runOps_inv X t0 t1 ops (putServer r X t0) hn1 hX hs1
  have htime : (runOps (putServer r X t0) ops).timeout = r.timeout := by
    rw [ht, putServer_timeout]
  have hex : ∃ item, (X, item) ∈ (putServer r X t0).servers := by
    obtain ⟨item, hm, _⟩ := putServer_self r X t0
    exact ⟨item, hm⟩
  have hlisted : Alive r.timeout t1 ⟨X, t0⟩ →
      X ∈ (aliveServers (runOps (putServer r X t0) ops) t1).2 := by
    intro ha
    rw [mem_aliveServers_iff _ _ hn2]
    obtain ⟨item, hm⟩ := hkeep hex hclock (by rw [putServer_timeout]; exact ha)
    refine ⟨item, hm, ?_⟩
    have hst := hs2 item hm
    rw [htime]
    unfold Alive at ha ⊢
    rw [hst]
    exact ha
  refine ⟨?_, ?_, ?_, ?_⟩
  · intro _ hlt
    exact hlisted (Or.inr hlt)
  · intro hpos hge hmem
    rw [mem_aliveServers_iff _ _ hn2] at hmem
    obtain ⟨item, hm, ha⟩ := hmem
    have hst := hs2 item hm
    rw [htime] at ha
    unfold Alive at ha
    rw [hst] at ha
    rcases ha with h0 | hlt
    · omega
    · omega
  · intro h0
    exact hlisted (Or.inl h0)
  · intro item t hm
    have hkeys : (putServer r X t).servers.map Prod.fst = r.servers.map Prod.fst := by
      rcases putServer_keys r X t with ⟨hk, _⟩ | ⟨_, hl⟩
      · exact hk
      · exact absurd hl (lookup_ne_none_of_mem hm)
    have hin : (X, { item with start := t }) ∈ (putServer r X t).servers := by
      rw [putServer_present r X t item hm]
      exact List.mem_map.2 ⟨(X, item), hm, by simp⟩
    refine ⟨hkeys, hin, ?_, fun e hne => putServer_other r X t e hne, putServer_timeout r X t⟩
    intro item2 hm2
    have hnod : ((putServer r X t).servers.map Prod.fst).Nodup := putServer_nodup r X t hn
    have inj := List.inj_on_of_nodup_map hnod
    have := inj hm2 hin rfl
    exact (Prod.mk.inj this).2

/-- An instance of C14: a heartbeat of "tcp@a" at the instant 20 on a registry
with timeout 5, a heartbeat of "tcp@b" at 22, and listings at 24 and at 25. -/
theorem C14_heartbeat_window_witness :
    (0 : Int) < threeServers.timeout ∧
    "tcp@a" ∈ (aliveServers (runOps (putServer threeServers "tcp@a" 20)
        [RegOp.put "tcp@b" 22]) 24).2 ∧
    "tcp@a" ∉ (aliveServers (runOps (putServer threeServers "tcp@a" 20)
        [RegOp.put "tcp@b" 22]) 25).2 :=
  ⟨by decide,
    (C14_heartbeat_window threeServers "tcp@a" 20 24 [RegOp.put "tcp@b" 22]
      (by decide) (by simp) (by simp)).1 (by decide) (by decide),
    (C14_heartbeat_window threeServers "tcp@a" 20 25 [RegOp.put "tcp@b" 22]
      (by decide) (by simp) (by simp)).2.1 (by decide) (by decide)⟩

/-! ## The HTTP interface of the registry (C15) -/

/-- C15.  `ServeHTTP` on a response nothing has been written to: a POST whose
header "X-Geerpc-Server" is missing or empty gets status 500 and the registry
stays as it is; a method other than GET and POST gets status 405 and the
registry stays as it is; a POST with a non-empty server header gets status
200 and the registry is the result of `putServer` of exactly that address; a
GET gets status 200, the registry is the result of `aliveServers`, and the
header "X-Geerpc-Servers" has the single value made of the addresses
`aliveServers` returned, joined by ",". -/
theorem C15_ServeHTTP (r : GrpcRegistry) (w : Http.ResponseWriter) (req : Http.Request)
    (now : Int) (hw : w.status = none) :
    (req.Method = "POST" → req.Header.Get "X-Geerpc-Server" = "" →
        (ServeHTTP r w req now).2.statusCode = 500 ∧ (ServeHTTP r w req now).1 = r ∧
        (ServeHTTP r w req now).2.header = w.header) ∧
    (req.Method ≠ "GET" → req.Method ≠ "POST" →
        (ServeHTTP r w req now).2.statusCode = 405 ∧ (ServeHTTP r w req now).1 = r ∧
        (ServeHTTP r w req now).2.header = w.header) ∧
    (req.Method = "POST" → req.Header.Get "X-Geerpc-Server" ≠ "" →
        (ServeHTTP r w req now).2.statusCode = 200 ∧
        (ServeHTTP r w req now).1 = putServer r (req.Header.Get "X-Geerpc-Server") now ∧
        (ServeHTTP r w req now).2.header = w.header ∧
        (∃ item, (req.Header.Get "X-Geerpc-Server", item) ∈ (ServeHTTP r w req now).1.servers ∧
          item.start = now) ∧
        ∀ e, e.1 ≠ req.Header.Get "X-Geerpc-Server" →
          (e ∈ (ServeHTTP r w req now).1.servers ↔ e ∈ r.servers)) ∧
    (req.Method = "GET" →
        (ServeHTTP r w req now).2.statusCode = 200 ∧
        (ServeHTTP r w req now).1 = (aliveServers r now).1 ∧
        (ServeHTTP r w req now).2.header.entries.lookup "X-Geerpc-Servers"
          = some [Strings.Join (aliveServers r now).2 ","] ∧
        (ServeHTTP r w req now).2.header.Get "X-Geerpc-Servers"
          = Strings.Join (aliveServers r now).2 ",") := by
  refine ⟨?_, ?_, ?_, ?_⟩
  · intro hm hempty
    have hg : req.Method ≠ "GET" := by rw [hm]; decide
    simp [ServeHTTP, hg, hm, hempty, Http.ResponseWriter.WriteHeader, hw,
      Http.ResponseWriter.statusCode, Http.StatusInternalServerError]
  · intro hg hp
    simp [ServeHTTP, hg, hp, Http.ResponseWriter.WriteHeader, hw,
      Http.ResponseWriter.statusCode, Http.StatusMethodNotAllowed]
  · intro hm hne
    have hg : req.Method ≠ "GET" := by rw [hm]; decide
    have heq : ServeHTTP r w req now
        = (putServer r (req.Header.Get "X-Geerpc-Server") now, w) := by
      simp [ServeHTTP, hg, hm, hne]
    rw [heq]
    refine ⟨by simp [Http.ResponseWriter.statusCode, hw], rfl, rfl, putServer_self r _ now, ?_⟩
    intro e he
    exact putServer_other r _ now e he
  · intro hg
    have heq : ServeHTTP r w req now
        = ((aliveServers r now).1,
            { w with header :=
                w.header.Set "X-Geerpc-Servers" (Strings.Join (aliveServers r now).2 ",") }) := by
      simp [ServeHTTP, hg]
    rw [heq]
    refine ⟨by simp [Http.ResponseWriter.statusCode, hw], rfl, ?_, ?_⟩
    · simp [Http.Header.Set]
    · simp [Http.Header.Set, Http.Header.Get]

/-- An instance of C15: a GET at the instant 11 on the registry with three
servers, and a POST without the server header. -/
theorem C15_ServeHTTP_witness :
    freshWriter.status = none ∧
    (ServeHTTP threeServers freshWriter ⟨"GET", ⟨[]⟩⟩ 11).2.header.Get "X-Geerpc-Servers"
      = "tcp@b,tcp@c" ∧
    (ServeHTTP threeServers freshWriter ⟨"POST", ⟨[]⟩⟩ 11).2.statusCode = 500 :=
  ⟨rfl,
    ((C15_ServeHTTP threeServers freshWriter ⟨"GET", ⟨[]⟩⟩ 11 rfl).2.2.2 rfl).2.2.2.trans
      (by decide),
    ((C15_ServeHTTP threeServers freshWriter ⟨"POST", ⟨[]⟩⟩ 11 rfl).1 rfl (by decide)).1⟩

end Registry

namespace Xclient

/-! ## Registry-backed discovery (C16) -/

theorem foldl_refreshStep (space : Char → Bool) (l : List String) :
    ∀ acc : List String,
      l.foldl (refreshStep space) acc =
        acc ++ (l.map (Strings.TrimSpace space)).filter (fun s => decide (s ≠ "")) := by
  induction l with
  | nil => intro acc; simp
  | cons a rest ih =>
      intro acc
      rw [List.foldl_cons, ih]
      unfold refreshStep
      by_cases h : Strings.TrimSpace space a ≠ ""
      · rw [if_pos h]
        simp [h]
      · rw [if_neg h]
        simp [h]

/-- C16.  For every discovery state: when `lastUpdate + timeout` is after
`now`, `Refresh` returns nil and the state as it was, whatever a request would
have returned; otherwise, when the GET succeeds, the server list becomes the
segments of the value of the header "X-Geerpc-Servers" between its commas,
each trimmed of white space at both ends, in their order, without the
segments that are blank, `lastUpdate` becomes the instant after the request
and the rest stays; when the GET fails the error is returned and the state
stays. -/
theorem C16_Refresh (space : Char → Bool) (d : GrpcRegistryDiscovery) (now later : Int)
    (resp : Except Grpc.GoError Http.Header) :
    (now < d.lastUpdate + d.timeout → Refresh space d now later resp = (d, none)) ∧
    (¬ now < d.lastUpdate + d.timeout → ∀ header, resp = .ok header →
        Refresh space d now later resp =
          ({ d with
              servers :=
                ((Strings.Split (header.Get "X-Geerpc-Servers") ',').map
                  (Strings.TrimSpace space)).filter (fun s => decide (s ≠ "")),
              lastUpdate := later }, none)) ∧
    (¬ now < d.lastUpdate + d.timeout → ∀ err, resp = .error err →
        Refresh space d now later resp = (d, some err)) := by
  refine ⟨?_, ?_, ?_⟩
  · intro h
    unfold Refresh
    rw [if_pos h]
  · intro h header hr
    unfold Refresh
    rw [if_neg h, hr]
    simp only [foldl_refreshStep, List.nil_append]
  · intro h err hr
    unfold Refresh
    rw [if_neg h, hr]

/-- An instance of C16: at the instant 109 the list is kept, at 110 it is
replaced by what the registry returned. -/
theorem C16_Refresh_witness :
    ((109 : Int) < staleDiscovery.lastUpdate + staleDiscovery.timeout) ∧
    Refresh Strings.asciiSpace staleDiscovery 109 111
        (.ok ⟨[("X-Geerpc-Servers", [" tcp@a, ,tcp@b ,"])]⟩) = (staleDiscovery, none) ∧
    ¬ ((110 : Int) < staleDiscovery.lastUpdate + staleDiscovery.timeout) ∧
    (Refresh Strings.asciiSpace staleDiscovery 110 111
        (.ok ⟨[("X-Geerpc-Servers", [" tcp@a, ,tcp@b ,"])]⟩)).1
      = { staleDiscovery with servers := ["tcp@a", "tcp@b"], lastUpdate := 111 } :=
  ⟨by decide,
    (C16_Refresh Strings.asciiSpace staleDiscovery 109 111
      (.ok ⟨[("X-Geerpc-Servers", [" tcp@a, ,tcp@b ,"])]⟩)).1 (by decide),
    by decide,
    (congrArg Prod.fst
      ((C16_Refresh Strings.asciiSpace staleDiscovery 110 111
        (.ok ⟨[("X-Geerpc-Servers", [" tcp@a, ,tcp@b ,"])]⟩)).2.1 (by decide) _ rfl)).trans
      (by decide)⟩

/-! ## The listing of the registry read back by the discovery (C29) -/

theorem splitChars_cons (sep c : Char) (rest : List Char) :
    Strings.splitChars sep (c :: rest) =
      if c = sep then [] :: Strings.splitChars sep rest
      else
        match Strings.splitChars sep rest with
        | [] => [[c]]
        | seg :: segs => (c :: seg) :: segs := by
  rw [Strings.splitChars]

theorem splitChars_of_not_mem (sep : Char) (l : List Char) (h : sep ∉ l) :
    Strings.splitChars sep l = [l] := by
  induction l with
  | nil => rfl
  | cons c rest ih =>
      have hc : c ≠ sep := fun e => h (by rw [e]; exact List.mem_cons_self _ _)
      have hr : sep ∉ rest := fun e => h (List.mem_cons_of_mem _ e)
      rw [splitChars_cons, if_neg hc, ih hr]

theorem splitChars_append_sep (sep : Char) (a rest : List Char) (h : sep ∉ a) :
    Strings.splitChars sep (a ++ sep :: rest) = a :: Strings.splitChars sep rest := by
  induction a with
  | nil =>
      show Strings.splitChars sep (sep :: rest) = _
      rw [splitChars_cons, if_pos rfl]
  | cons c a ih =>
      have hc : c ≠ sep := fun e => h (by rw [e]; exact List.mem_cons_self _ _)
      have hr : sep ∉ a := fun e => h (List.mem_cons_of_mem _ e)
      show Strings.splitChars sep (c :: (a ++ sep :: rest)) = _
      rw [splitChars_cons, if_neg hc, ih hr]

theorem Split_Join (L : List String) (hne : L ≠ []) (h : ∀ a ∈ L, ',' ∉ a.data) :
    Strings.Split (Strings.Join L ",") ',' = L := by
  induction L with
  | nil => exact absurd rfl hne
  | cons a L ih =>
      cases L with
      | nil =>
          show (Strings.splitChars ',' a.data).map String.mk = [a]
          rw [splitChars_of_not_mem _ _ (h a (List.mem_cons_self _ _))]
          rfl
      | cons b rest =>
          have hrest := ih (by simp) (fun x hx => h x (List.mem_cons_of_mem _ hx))
          show (Strings.splitChars ','
            (a ++ "," ++ Strings.Join (b :: rest) ",").data).map String.mk = _
          have hd : (a ++ "," ++ Strings.Join (b :: rest) ",").data
              = a.data ++ ',' :: (Strings.Join (b :: rest) ",").data := by
            simp [String.data_append]
          rw [hd, splitChars_append_sep _ _ _ (h a (List.mem_cons_self _ _))]
          rw [List.map_cons]
          unfold Strings.Split at hrest
          rw [hrest]

theorem dropWhile_of_head (p : Char → Bool) (l : List Char)
    (h : ∀ c, l.head? = some c → p c = false) : l.dropWhile p = l := by
  cases l with
  | nil => rfl
  | cons c rest =>
      rw [List.dropWhile_cons, h c rfl]
      simp

theorem TrimSpace_plain (space : Char → Bool) (a : String) (h : PlainAddr space a) :
    Strings.TrimSpace space a = a := by
  obtain ⟨_, _, hhead, hlast⟩ := h
  unfold Strings.TrimSpace
  rw [dropWhile_of_head space a.data hhead]
  rw [dropWhile_of_head space a.data.reverse (by
    intro c hc
    rw [List.head?_reverse] at hc
    exact hlast c hc)]
  rw [List.reverse_reverse]

theorem parse_plain (space : Char → Bool) (L : List String)
    (h : ∀ a ∈ L, PlainAddr space a) :
    (L.map (Strings.TrimSpace space)).filter (fun s => decide (s ≠ "")) = L := by
  induction L with
  | nil => rfl
  | cons a L ih =>
      have ha := h a (List.mem_cons_self _ _)
      rw [List.map_cons, TrimSpace_plain space a ha,
        List.filter_cons_of_pos (by simpa using ha.1),
        ih (fun x hx => h x (List.mem_cons_of_mem _ hx))]

theorem parse_Join (space : Char → Bool) (L : List String)
    (h : ∀ a ∈ L, PlainAddr space a) :
    (Strings.Split (Strings.Join L ",") ',').foldl (refreshStep space) [] = L := by
  rw [foldl_refreshStep, List.nil_append]
  cases L with
  | nil =>
      show ([Strings.TrimSpace space ""].filter (fun s => decide (s ≠ ""))) = []
      have : Strings.TrimSpace space "" = "" := rfl
      rw [this]
      rfl
  | cons a L =>
      rw [Split_Join _ (by simp) (fun x hx => (h x hx).2.1)]
      exact parse_plain space _ h

/-- C29.  For every list `L` of addresses that are not empty, hold no comma
and have no white space at either end: what `Refresh` makes of a header value
`strings.Join(L, ",")` (the segments between the commas, trimmed, without the
blank ones) is `L`, so the server list after a `Refresh` that is due is `L`;
this holds for the header the registry writes on a GET, whose value is the
join of the slice `aliveServers` returned.  For the empty list the header
value is "", its one segment is the empty string, and the list read back is
empty. -/
theorem C29_listing_read_back (space : Char → Bool) (L : List String)
    (h : ∀ a ∈ L, PlainAddr space a) :
    (Strings.Split (Strings.Join L ",") ',').foldl (refreshStep space) [] = L ∧
    (∀ (d : GrpcRegistryDiscovery) (now later : Int) (header : Http.Header),
        ¬ now < d.lastUpdate + d.timeout →
        header.Get "X-Geerpc-Servers" = Strings.Join L "," →
        (Refresh space d now later (.ok header)).1.servers = L) ∧
    (∀ (r : Registry.GrpcRegistry) (w : Http.ResponseWriter) (hdr : Http.Header) (t : Int)
        (d : GrpcRegistryDiscovery) (now later : Int),
        (Registry.aliveServers r t).2 = L →
        ¬ now < d.lastUpdate + d.timeout →
        (Refresh space d now later
          (.ok (Registry.ServeHTTP r w ⟨"GET", hdr⟩ t).2.header)).1.servers = L) ∧
    Strings.Join [] "," = "" ∧
    Strings.Split "" ',' = [""] ∧
    (Strings.Split (Strings.Join [] ",") ',').foldl (refreshStep space) [] = [] := by
  have hget : ∀ (d : GrpcRegistryDiscovery) (now later : Int) (header : Http.Header),
      ¬ now < d.lastUpdate + d.timeout →
      header.Get "X-Geerpc-Servers" = Strings.Join L "," →
      (Refresh space d now later (.ok header)).1.servers = L := by
    intro d now later header hdue hv
    unfold Refresh
    rw [if_neg hdue]
    show (Strings.Split (header.Get "X-Geerpc-Servers") ',').foldl (refreshStep space) [] = L
    rw [hv]
    exact parse_Join space L h
  refine ⟨parse_Join space L h, hget, ?_, rfl, rfl, ?_⟩
  · intro r w hdr t d now later hL hdue
    apply hget d now later _ hdue
    unfold Registry.ServeHTTP
    rw [if_pos rfl]
    simp [Http.Header.Set, Http.Header.Get, hL]
  · exact parse_Join space [] (by simp)

/-- An instance of C29: two addresses. -/
theorem C29_listing_read_back_witness :
    (∀ a ∈ ["tcp@a", "tcp@b"], PlainAddr Strings.asciiSpace a) ∧
    (Strings.Split (Strings.Join ["tcp@a", "tcp@b"] ",") ',').foldl
      (refreshStep Strings.asciiSpace) [] = ["tcp@a", "tcp@b"] :=
  ⟨by
      intro a ha
      simp only [List.mem_cons, List.mem_singleton, List.not_mem_nil, or_false] at ha
      rcases ha with rfl | rfl <;>
        exact ⟨by decide, by decide, by intro c hc; cases hc; decide,
          by intro c hc; cases hc; decide⟩,
    (C29_listing_read_back Strings.asciiSpace ["tcp@a", "tcp@b"] (by
      intro a ha
      simp only [List.mem_cons, List.mem_singleton, List.not_mem_nil, or_false] at ha
      rcases ha with rfl | rfl <;>
        exact ⟨by decide, by decide, by intro c hc; cases hc; decide,
          by intro c hc; cases hc; decide⟩)).1⟩

end Xclient

namespace Consistenthash

/-! ## Binary search on the ring -/

theorem searchLoop_spec (f : Nat → Bool) (n : Nat)
    (hmono : ∀ a b, a ≤ b → b < n → f a = true → f b = true) :
    ∀ fuel i j, i ≤ j → j ≤ n → j - i ≤ fuel →
      (∀ k, k < i → f k = false) → (∀ k, j ≤ k → k < n → f k = true) →
      i ≤ searchLoop f fuel i j ∧ searchLoop f fuel i j ≤ j ∧
      (∀ k, k < searchLoop f fuel i j → f k = false) ∧
      (∀ k, searchLoop f fuel i j ≤ k → k < n → f k = true) := by
  intro fuel
  induction fuel with
  | zero =>
      intro i j hij _ hfuel hlo hhi
      have : i = j := by omega
      subst this
      exact ⟨Nat.le_refl _, Nat.le_refl _, hlo, hhi⟩
  | succ fuel ih =>
      intro i j hij hjn hfuel hlo hhi
      unfold searchLoop
      by_cases hlt : i < j
      · rw [if_pos hlt]
        have hmid1 : i ≤ (i + j) / 2 := by omega
        have hmid2 : (i + j) / 2 < j := by omega
        by_cases hf : f ((i + j) / 2) = true
        · have hc : (!f ((i + j) / 2)) = false := by simp [hf]
          rw [hc]
          simp only [Bool.false_eq_true, if_false]
          have hhi2 : ∀ k, (i + j) / 2 ≤ k → k < n → f k = true :=
            fun k hk hkn => hmono _ k hk hkn hf
          obtain ⟨a, b, c, d⟩ := ih i ((i + j) / 2) hmid1 (by omega) (by omega) hlo hhi2
          exact ⟨a, by omega, c, d⟩
        · have hff : f ((i + j) / 2) = false := by simpa using hf
          have hc : (!f ((i + j) / 2)) = true := by simp [hff]
          rw [hc]
          simp only [if_true]
          have hlo2 : ∀ k, k < (i + j) / 2 + 1 → f k = false := by
            intro k hk
            by_contra hk2
            have hk3 : f k = true := by simpa using hk2
            have := hmono k ((i + j) / 2) (by omega) (by omega) hk3
            rw [hff] at this
            exact Bool.false_ne_true this
          obtain ⟨a, b, c, d⟩ := ih ((i + j) / 2 + 1) j (by omega) hjn (by omega) hlo2 hhi
          exact ⟨by omega, b, c, d⟩
      · rw [if_neg hlt]
        have : i = j := by omega
        subst this
        exact ⟨Nat.le_refl _, Nat.le_refl _, hlo, hhi⟩

theorem Search_spec (f : Nat → Bool) (n : Nat)
    (hmono : ∀ a b, a ≤ b → b < n → f a = true → f b = true) :
    Search n f ≤ n ∧ (∀ k, k < Search n f → f k = false) ∧
      (∀ k, Search n f ≤ k → k < n → f k = true) := by
  obtain ⟨_, b, c, d⟩ := searchLoop_spec f n hmono n 0 n (Nat.zero_le _) (Nat.le_refl _)
    (by omega) (fun k hk => absurd hk (Nat.not_lt_zero k)) (fun k hk hkn => by omega)
  exact ⟨b, c, d⟩

theorem sorted_getD_mono {keys : List Nat} (hs : keys.Sorted (fun a b => a ≤ b)) {a b : Nat}
    (hab : a ≤ b) (hb : b < keys.length) : keys.getD a 0 ≤ keys.getD b 0 := by
  rcases Nat.eq_or_lt_of_le hab with h | h
  · rw [h]
  · have ha : a < keys.length := by omega
    rw [List.getD_eq_getElem _ _ ha, List.getD_eq_getElem _ _ hb]
    exact (List.pairwise_iff_getElem.1 hs) a b ha hb h

theorem getD_mem {keys : List Nat} {i : Nat} (hi : i < keys.length) : keys.getD i 0 ∈ keys := by
  rw [List.getD_eq_getElem _ _ hi]
  exact List.getElem_mem hi

theorem ring_key_isSucc (keys : List Nat) (h : Nat)
    (hs : keys.Sorted (fun a b => a ≤ b)) (hne : keys.length ≠ 0) :
    IsSucc keys h
      (keys.getD (Search keys.length (fun i => decide (keys.getD i 0 ≥ h)) % keys.length) 0) := by
  have hmono : ∀ a b, a ≤ b → b < keys.length →
      (fun i => decide (keys.getD i 0 ≥ h)) a = true →
      (fun i => decide (keys.getD i 0 ≥ h)) b = true := by
    intro a b hab hb ha
    simp only [ge_iff_le, decide_eq_true_eq] at ha ⊢
    exact Nat.le_trans ha (sorted_getD_mono hs hab hb)
  obtain ⟨hle, hlo, hhi⟩ := Search_spec _ keys.length hmono
  have hpos : 0 < keys.length := Nat.pos_of_ne_zero hne
  rcases Nat.eq_or_lt_of_le hle with heq | hlt
  · -- every key is below `h`: wrap around to the first key
    rw [heq, Nat.mod_self]
    have hall : ∀ k2 ∈ keys, k2 < h := by
      intro k2 hk2
      obtain ⟨m, hm, rfl⟩ := List.mem_iff_getElem.1 hk2
      have := hlo m (by rw [heq]; exact hm)
      simp only [ge_iff_le, decide_eq_false_iff_not, Nat.not_le] at this
      rw [List.getD_eq_getElem _ _ hm] at this
      exact this
    refine ⟨getD_mem hpos, Or.inr ⟨hall, ?_⟩⟩
    intro k2 hk2
    obtain ⟨m, hm, rfl⟩ := List.mem_iff_getElem.1 hk2
    have := sorted_getD_mono hs (Nat.zero_le m) hm
    rw [List.getD_eq_getElem _ _ hm] at this
    exact this
  · rw [Nat.mod_eq_of_lt hlt]
    have hge := hhi _ (Nat.le_refl _) hlt
    simp only [ge_iff_le, decide_eq_true_eq] at hge
    refine ⟨getD_mem hlt, Or.inl ⟨hge, ?_⟩⟩
    intro k2 hk2 hk2h
    obtain ⟨m, hm, rfl⟩ := List.mem_iff_getElem.1 hk2
    by_cases hmr : m < Search keys.length (fun i => decide (keys.getD i 0 ≥ h))
    · have := hlo m hmr
      simp only [ge_iff_le, decide_eq_false_iff_not, Nat.not_le] at this
      rw [List.getD_eq_getElem _ _ hm] at this
      omega
    · have := sorted_getD_mono hs (Nat.le_of_not_lt hmr) hm
      rw [List.getD_eq_getElem _ _ hm] at this
      exact this

theorem IsSucc_unique {keys : List Nat} {h k1 k2 : Nat}
    (h1 : IsSucc keys h k1) (h2 : IsSucc keys h k2) : k1 = k2 := by
  obtain ⟨m1, c1⟩ := h1
  obtain ⟨m2, c2⟩ := h2
  rcases c1 with ⟨a1, b1⟩ | ⟨a1, b1⟩ <;> rcases c2 with ⟨a2, b2⟩ | ⟨a2, b2⟩
  · exact Nat.le_antisymm (b1 k2 m2 a2) (b2 k1 m1 a1)
  · have := a2 k1 m1; omega
  · have := a1 k2 m2; omega
  · exact Nat.le_antisymm (b1 k2 m2) (b2 k1 m1)

theorem Get_eq (m : Map) (key : String) (hs : m.keys.Sorted (fun a b => a ≤ b))
    (hne : m.keys.length ≠ 0) :
    ∃ k, IsSucc m.keys (hashInt m.hash key) k ∧ Get m key = (m.hashMap.lookup k).getD "" := by
  refine ⟨_, ring_key_isSucc m.keys (hashInt m.hash key) hs hne, ?_⟩
  unfold Get
  rw [if_neg hne]

/-! ## What `Add` does to the ring -/

theorem lookup_filter_ne (l : List (Nat × String)) (k k0 : Nat) (h : k ≠ k0) :
    (l.filter (fun e => decide (e.1 ≠ k0))).lookup k = l.lookup k := by
  induction l with
  | nil => rfl
  | cons e rest ih =>
      obtain ⟨a, b⟩ := e
      by_cases ha : a = k0
      · have hk : (k == a) = false := by
          rw [ha]; simpa using h
        have hf : ((a, b) :: rest).filter (fun e => decide (e.1 ≠ k0))
            = rest.filter (fun e => decide (e.1 ≠ k0)) :=
          List.filter_cons_of_neg (by simpa using ha)
        rw [hf, ih, List.lookup_cons, hk]
      · have hf : ((a, b) :: rest).filter (fun e => decide (e.1 ≠ k0))
            = (a, b) :: rest.filter (fun e => decide (e.1 ≠ k0)) :=
          List.filter_cons_of_pos (by simpa using ha)
        rw [hf, List.lookup_cons, List.lookup_cons, ih]

theorem addVirtual_lookup (node : String) (m : Map) (i k : Nat) :
    (addVirtual node m i).hashMap.lookup k =
      if k = hashInt m.hash (Itoa i ++ node) then some node else m.hashMap.lookup k := by
  unfold addVirtual
  by_cases h : k = hashInt m.hash (Itoa i ++ node)
  · rw [if_pos h, h]
    simp
  · rw [if_neg h]
    have hk : (k == hashInt m.hash (Itoa i ++ node)) = false := by simpa using h
    simp only [List.lookup_cons, hk]
    exact lookup_filter_ne _ _ _ h

theorem foldl_addVirtual (node : String) (is : List Nat) :
    ∀ m : Map,
      (is.foldl (addVirtual node) m).hash = m.hash ∧
      (is.foldl (addVirtual node) m).replicas = m.replicas ∧
      (is.foldl (addVirtual node) m).keys
        = m.keys ++ is.map (fun i => hashInt m.hash (Itoa i ++ node)) ∧
      ∀ k, (is.foldl (addVirtual node) m).hashMap.lookup k =
        if k ∈ is.map (fun i => hashInt m.hash (Itoa i ++ node)) then some node
        else m.hashMap.lookup k := by
  induction is with
  | nil => intro m; simp
  | cons i rest ih =>
      intro m
      obtain ⟨a, b, c, d⟩ := ih (addVirtual node m i)
      have hh : (addVirtual node m i).hash = m.hash := rfl
      rw [List.foldl_cons]
      refine ⟨a.trans hh, b, ?_, ?_⟩
      · rw [c, hh]
        simp [addVirtual]
      · intro k
        rw [d k, hh, addVirtual_lookup]
        by_cases h1 : k ∈ rest.map (fun i => hashInt m.hash (Itoa i ++ node))
        · have h2 : k ∈ (i :: rest).map (fun i => hashInt m.hash (Itoa i ++ node)) := by
            simp only [List.map_cons, List.mem_cons]
            exact Or.inr h1
          rw [if_pos h1, if_pos h2]
        · rw [if_neg h1]
          by_cases h3 : k = hashInt m.hash (Itoa i ++ node)
          · have h2 : k ∈ (i :: rest).map (fun i => hashInt m.hash (Itoa i ++ node)) := by
              simp only [List.map_cons, List.mem_cons]
              exact Or.inl h3
            rw [if_pos h3, if_pos h2]
          · have h2 : ¬ k ∈ (i :: rest).map (fun i => hashInt m.hash (Itoa i ++ node)) := by
              simp only [List.map_cons, List.mem_cons, not_or]
              exact ⟨h3, h1⟩
            rw [if_neg h3, if_neg h2]

theorem addNode_spec (m : Map) (node : String) :
    (addNode m node).hash = m.hash ∧
    (addNode m node).replicas = m.replicas ∧
    (addNode m node).keys
      = m.keys ++ (List.range m.replicas.toNat).map (fun i => hashInt m.hash (Itoa i ++ node)) ∧
    ∀ k, (addNode m node).hashMap.lookup k =
      if k ∈ (List.range m.replicas.toNat).map (fun i => hashInt m.hash (Itoa i ++ node))
      then some node else m.hashMap.lookup k :=
  foldl_addVirtual node (List.range m.replicas.toNat) m

theorem sortInts_perm (l : List Nat) : (sortInts l).Perm l :=
  List.perm_insertionSort _ l

theorem sortInts_sorted (l : List Nat) : (sortInts l).Sorted (fun a b => a ≤ b) :=
  List.sorted_insertionSort _ l

theorem Add_sorted (m : Map) (realNode : List String) :
    (Add m realNode).keys.Sorted (fun a b => a ≤ b) :=
  sortInts_sorted _

theorem addNode_ringOK (m : Map) (added : List String) (node : String) (h : RingOK m added) :
    RingOK (addNode m node) (added ++ [node]) := by
  obtain ⟨hh, hr, hk, hl⟩ := addNode_spec m node
  obtain ⟨h1, h2, h3⟩ := h
  have hvs : ∀ k, k ∈ (List.range m.replicas.toNat).map
      (fun i => hashInt m.hash (Itoa i ++ node)) ↔
      ∃ i, i < m.replicas.toNat ∧ k = virtualHash m i node := by
    intro k
    simp only [List.mem_map, List.mem_range, virtualHash]
    constructor
    · rintro ⟨i, hi, rfl⟩; exact ⟨i, hi, rfl⟩
    · rintro ⟨i, hi, rfl⟩; exact ⟨i, hi, rfl⟩
  have hv : ∀ i n, virtualHash (addNode m node) i n = virtualHash m i n := by
    intro i n; unfold virtualHash; rw [hh]
  refine ⟨?_, ?_, ?_⟩
  · rw [hk, hr, List.length_append, h1, List.length_map, List.length_range, List.length_append,
      List.length_singleton, Nat.mul_add, Nat.mul_one]
  · intro k
    rw [hk, hr, List.mem_append, h2 k, hvs k]
    constructor
    · rintro (⟨n, i, hn, hi, rfl⟩ | ⟨i, hi, rfl⟩)
      · exact ⟨n, i, List.mem_append_left _ hn, hi, (hv i n).symm⟩
      · exact ⟨node, i, List.mem_append_right _ (List.mem_singleton_self _), hi, (hv i node).symm⟩
    · rintro ⟨n, i, hn, hi, rfl⟩
      rcases List.mem_append.1 hn with hn1 | hn1
      · exact Or.inl ⟨n, i, hn1, hi, hv i n⟩
      · rw [List.mem_singleton.1 hn1]
        exact Or.inr ⟨i, hi, hv i node⟩
  · intro k hmem
    rw [hk, List.mem_append] at hmem
    rw [hl k, hr]
    by_cases hin : k ∈ (List.range m.replicas.toNat).map
        (fun i => hashInt m.hash (Itoa i ++ node))
    · rw [if_pos hin]
      obtain ⟨i, hi, hki⟩ := (hvs k).1 hin
      exact ⟨node, i, rfl, List.mem_append_right _ (List.mem_singleton_self _), hi,
        by rw [hki, hv]⟩
    · rw [if_neg hin]
      rcases hmem with hm1 | hm1
      · obtain ⟨n, i, hlk, hn, hi, hki⟩ := h3 k hm1
        exact ⟨n, i, hlk, List.mem_append_left _ hn, hi, by rw [hki, hv]⟩
      · exact absurd hm1 hin

theorem foldl_addNode_ringOK (nodes : List String) :
    ∀ (m : Map) (added : List String), RingOK m added →
      RingOK (nodes.foldl addNode m) (added ++ nodes) ∧
      (nodes.foldl addNode m).hash = m.hash ∧
      (nodes.foldl addNode m).replicas = m.replicas := by
  induction nodes with
  | nil => intro m added h; simpa using h
  | cons n rest ih =>
      intro m added h
      obtain ⟨a, b, c⟩ := ih (addNode m n) (added ++ [n]) (addNode_ringOK m added n h)
      rw [List.foldl_cons]
      refine ⟨?_, b.trans (addNode_spec m n).1, c.trans (addNode_spec m n).2.1⟩
      simpa using a

theorem Add_ringOK (m : Map) (added nodes : List String) (h : RingOK m added) :
    RingOK (Add m nodes) (added ++ nodes) ∧ (Add m nodes).hash = m.hash ∧
      (Add m nodes).replicas = m.replicas := by
  obtain ⟨⟨h1, h2, h3⟩, hh, hr⟩ := foldl_addNode_ringOK nodes m added h
  have hp := sortInts_perm (nodes.foldl addNode m).keys
  refine ⟨⟨?_, ?_, ?_⟩, hh, hr⟩
  · show (sortInts (nodes.foldl addNode m).keys).length = _
    rw [hp.length_eq]
    exact h1
  · intro k
    show k ∈ sortInts (nodes.foldl addNode m).keys ↔ _
    rw [hp.mem_iff]
    exact h2 k
  · intro k hk
    have hk2 : k ∈ sortInts (nodes.foldl addNode m).keys := hk
    rw [hp.mem_iff] at hk2
    exact h3 k hk2

theorem build_ringOK (ChecksumIEEE : Hash) (replicas : Int) (fn : Option Hash)
    (adds : List (List String)) :
    RingOK (build ChecksumIEEE replicas fn adds) adds.flatten ∧
    (build ChecksumIEEE replicas fn adds).keys.Sorted (fun a b => a ≤ b) ∧
    (build ChecksumIEEE replicas fn adds).hash = fn.getD ChecksumIEEE ∧
    (build ChecksumIEEE replicas fn adds).replicas = replicas := by
  have key : ∀ (adds : List (List String)) (m : Map) (added : List String),
      RingOK m added → m.keys.Sorted (fun a b => a ≤ b) →
      RingOK (adds.foldl Add m) (added ++ adds.flatten) ∧
      (adds.foldl Add m).keys.Sorted (fun a b => a ≤ b) ∧
      (adds.foldl Add m).hash = m.hash ∧ (adds.foldl Add m).replicas = m.replicas := by
    intro adds
    induction adds with
    | nil => intro m added h hs; simpa using ⟨h, hs⟩
    | cons nodes rest ih =>
        intro m added h hs
        obtain ⟨a, b, c⟩ := Add_ringOK m added nodes h
        obtain ⟨p, q, r, s⟩ := ih (Add m nodes) (added ++ nodes) a (Add_sorted m nodes)
        rw [List.foldl_cons]
        refine ⟨?_, q, r.trans b, s.trans c⟩
        simpa using p
  have h0 : RingOK (New ChecksumIEEE replicas fn) [] := by
    refine ⟨by simp [New], ?_, ?_⟩
    · intro k; simp [New]
    · intro k hk; simp [New] at hk
  have := key adds (New ChecksumIEEE replicas fn) [] h0 (by simp [New])
  simpa [build, New] using this

/-- C17.  For every hash function, number of replicas and sequence of `Add`
calls, the ring is sorted and its keys are exactly the hashes of the virtual
nodes of the nodes added.  If no node was added, `Get` returns "".  If
`replicas >= 1` and a node was added, `Get(key)` returns the node the map
holds for the key `k` of the ring where `hash(key)` lands: the smallest key
that is at least `hash(key)` or, when every key is below `hash(key)`, the
smallest key of the ring; that node is one of the nodes added and `k` is the
hash of one of its virtual nodes.  In the ring of the test (3 replicas, nodes
6, 4, 2) the keys 2, 11, 23, 27 get the nodes 2, 2, 4, 2. -/
theorem C17_Get (ChecksumIEEE : Hash) (replicas : Int) (fn : Option Hash)
    (adds : List (List String)) (key : String) :
    (build ChecksumIEEE replicas fn adds).keys.Sorted (fun a b => a ≤ b) ∧
    (∀ k, k ∈ (build ChecksumIEEE replicas fn adds).keys ↔
        ∃ (node : String) (i : Nat), node ∈ adds.flatten ∧ (i : Int) < replicas ∧
          k = hashInt (fn.getD ChecksumIEEE) (Itoa i ++ node)) ∧
    (adds.flatten = [] → Get (build ChecksumIEEE replicas fn adds) key = "") ∧
    (1 ≤ replicas → adds.flatten ≠ [] →
        ∃ (k : Nat) (node : String) (i : Nat),
          IsSucc (build ChecksumIEEE replicas fn adds).keys
            (hashInt (fn.getD ChecksumIEEE) key) k ∧
          (build ChecksumIEEE replicas fn adds).hashMap.lookup k = some node ∧
          Get (build ChecksumIEEE replicas fn adds) key = node ∧
          node ∈ adds.flatten ∧ (i : Int) < replicas ∧
          k = hashInt (fn.getD ChecksumIEEE) (Itoa i ++ node)) ∧
    ["2", "11", "23", "27"].map (Get testRing) = ["2", "2", "4", "2"] := by
  obtain ⟨⟨hlen, hkeys, hmap⟩, hs, hh, hr⟩ := build_ringOK ChecksumIEEE replicas fn adds
  have hlt : ∀ i : Nat, i < replicas.toNat ↔ (i : Int) < replicas := by
    intro i; omega
  refine ⟨hs, ?_, ?_, ?_, by decide⟩
  · intro k
    rw [hkeys k, hr]
    unfold virtualHash
    rw [hh]
    constructor
    · rintro ⟨n, i, hn, hi, hk⟩; exact ⟨n, i, hn, (hlt i).1 hi, hk⟩
    · rintro ⟨n, i, hn, hi, hk⟩; exact ⟨n, i, hn, (hlt i).2 hi, hk⟩
  · intro hnone
    have : (build ChecksumIEEE replicas fn adds).keys.length = 0 := by
      rw [hlen, hnone]; simp
    unfold Get
    rw [if_pos this]
  · intro hrep hsome
    have hne : (build ChecksumIEEE replicas fn adds).keys.length ≠ 0 := by
      rw [hlen, hr]
      have h1 : 0 < replicas.toNat := by omega
      have h2 : 0 < adds.flatten.length := List.length_pos.2 hsome
      exact Nat.ne_of_gt (Nat.mul_pos h1 h2)
    obtain ⟨k, hsucc, hget⟩ := Get_eq (build ChecksumIEEE replicas fn adds) key hs hne
    obtain ⟨node, i, hl, hn, hi, hk⟩ := hmap k hsucc.1
    rw [hh] at hsucc
    refine ⟨k, node, i, hsucc, hl, ?_, hn, ?_, ?_⟩
    · rw [hget, hl]; rfl
    · rw [hr] at hi; exact (hlt i).1 hi
    · exact hk.trans (by unfold virtualHash; rw [hh])

/-- An instance of C17: in the ring of the test the key "27" is above every
virtual node and wraps around to the node "2". -/
theorem C17_Get_witness :
    (1 : Int) ≤ 3 ∧ [["6", "4", "2"]].flatten ≠ [] ∧
    ∃ (k : Nat) (node : String) (i : Nat),
      IsSucc (build testHash 3 (some testHash) [["6", "4", "2"]]).keys
        (hashInt ((some testHash).getD testHash) "27") k ∧
      (build testHash 3 (some testHash) [["6", "4", "2"]]).hashMap.lookup k = some node ∧
      Get (build testHash 3 (some testHash) [["6", "4", "2"]]) "27" = node ∧
      node ∈ [["6", "4", "2"]].flatten ∧ (i : Int) < 3 ∧
      k = hashInt ((some testHash).getD testHash) (Itoa i ++ node) :=
  ⟨by decide, by decide,
    (C17_Get testHash 3 (some testHash) [["6", "4", "2"]] "27").2.2.2.1 (by decide) (by decide)⟩

/-! ## Adding a node (C18) -/

theorem Add_single (m : Map) (node : String) :
    (Add m [node]).keys = sortInts (addNode m node).keys ∧
    (Add m [node]).hashMap = (addNode m node).hashMap ∧
    (Add m [node]).hash = m.hash :=
  ⟨rfl, rfl, (addNode_spec m node).1⟩

theorem Add_moves_only_to_new (m : Map) (hs : m.keys.Sorted (fun a b => a ≤ b))
    (node key : String) :
    Get (Add m [node]) key = node ∨ Get (Add m [node]) key = Get m key := by
  obtain ⟨hkeys, hmap, hhash⟩ := Add_single m node
  obtain ⟨_, _, hk, hl⟩ := addNode_spec m node
  have hmem : ∀ k, k ∈ (Add m [node]).keys ↔
      k ∈ m.keys ∨ k ∈ (List.range m.replicas.toNat).map
        (fun i => hashInt m.hash (Itoa i ++ node)) := by
    intro k
    rw [hkeys, (sortInts_perm _).mem_iff, hk, List.mem_append]
  by_cases hlen : (Add m [node]).keys.length = 0
  · -- the ring is still empty
    right
    have hnil : (Add m [node]).keys = [] := List.length_eq_zero.1 hlen
    have hm : m.keys.length = 0 := by
      rw [List.length_eq_zero]
      apply List.eq_nil_iff_forall_not_mem.2
      intro k hk2
      have := (hmem k).2 (Or.inl hk2)
      rw [hnil] at this
      exact List.not_mem_nil _ this
    unfold Get
    rw [if_pos hlen, if_pos hm]
  · obtain ⟨k, hsucc, hget⟩ := Get_eq (Add m [node]) key (Add_sorted m [node]) hlen
    rw [hhash] at hsucc
    rw [hget, hmap, hl k]
    by_cases hnew : k ∈ (List.range m.replicas.toNat).map
        (fun i => hashInt m.hash (Itoa i ++ node))
    · left
      rw [if_pos hnew]
      rfl
    · right
      rw [if_neg hnew]
      have hkold : k ∈ m.keys := by
        rcases (hmem k).1 hsucc.1 with h | h
        · exact h
        · exact absurd h hnew
      have hne : m.keys.length ≠ 0 := by
        intro h0
        rw [List.length_eq_zero.1 h0] at hkold
        exact List.not_mem_nil _ hkold
      have hsucc_old : IsSucc m.keys (hashInt m.hash key) k := by
        refine ⟨hkold, ?_⟩
        rcases hsucc.2 with ⟨a, b⟩ | ⟨a, b⟩
        · exact Or.inl ⟨a, fun k2 hk2 h2 => b k2 ((hmem k2).2 (Or.inl hk2)) h2⟩
        · exact Or.inr ⟨fun k2 hk2 => a k2 ((hmem k2).2 (Or.inl hk2)),
            fun k2 hk2 => b k2 ((hmem k2).2 (Or.inl hk2))⟩
      obtain ⟨k0, hsucc0, hget0⟩ := Get_eq m key hs hne
      rw [hget0, IsSucc_unique hsucc0 hsucc_old]

/-- C18.  For every ring built by `Add` calls, every node `n` and every key:
after `Add(n)`, `Get(key)` is `n` or what `Get(key)` was before, so no key
moves from one node that was there to another.  In the test, after
`Add("8")` the key 27 has moved to the node 8 and the keys 2, 11 and 23 have
kept their nodes. -/
theorem C18_Add_keeps_or_takes (ChecksumIEEE : Hash) (replicas : Int) (fn : Option Hash)
    (adds : List (List String)) (n key : String) :
    (Get (Add (build ChecksumIEEE replicas fn adds) [n]) key = n ∨
      Get (Add (build ChecksumIEEE replicas fn adds) [n]) key
        = Get (build ChecksumIEEE replicas fn adds) key) ∧
    ["2", "11", "23", "27"].map (Get testRing) = ["2", "2", "4", "2"] ∧
    ["2", "11", "23", "27"].map (Get (Add testRing ["8"])) = ["2", "2", "4", "8"] :=
  ⟨Add_moves_only_to_new _ (build_ringOK ChecksumIEEE replicas fn adds).2.1 n key,
    by decide, by decide⟩

end Consistenthash

namespace Gin

/-! ## A static route stored under a wildcard (C19) -/

/-- C19 in the router of the test, where "/hello/b/c" is added after
"/hello/:name": `insert` takes the wildcard child `:name` for the static part
`b`, so the route is stored under `hello`, `:name`, `c`, and `getRoute`
returns the node with the pattern "/hello/b/c" for the path "/hello/x/c",
whose second segment `x` is not the static segment `b`. -/
theorem C19_static_route_under_wildcard :
    routeView newTestRouter "GET" "/hello/x/c" = some (some ("/hello/b/c", [])) ∧
    parsePattern "/hello/b/c" = ["hello", "b", "c"] ∧
    parsePattern "/hello/x/c" = ["hello", "x", "c"] ∧
    routeView newTestRouter "GET" "/hello/b/c" = some (some ("/hello/b/c", [])) := by
  decide

/-! ## The parameters of a route (C20) -/

theorem lookup_setParam (params : List (String × String)) (key value name : String) :
    (setParam params key value).lookup name =
      if name = key then some value else params.lookup name := by
  unfold setParam
  by_cases h : name = key
  · rw [if_pos h, h]
    simp
  · rw [if_neg h]
    have hk : (name == key) = false := by simpa using h
    rw [List.lookup_cons, hk]
    induction params with
    | nil => rfl
    | cons e rest ih =>
        obtain ⟨a, b⟩ := e
        by_cases ha : a = key
        · have hf : ((a, b) :: rest).filter (fun e => decide (e.1 ≠ key))
              = rest.filter (fun e => decide (e.1 ≠ key)) :=
            List.filter_cons_of_neg (by simpa using ha)
          have hna : (name == a) = false := by rw [ha]; exact hk
          rw [hf, List.lookup_cons, hna]
          exact ih
        · have hf : ((a, b) :: rest).filter (fun e => decide (e.1 ≠ key))
              = (a, b) :: rest.filter (fun e => decide (e.1 ≠ key)) :=
            List.filter_cons_of_pos (by simpa using ha)
          rw [hf, List.lookup_cons, List.lookup_cons]
          cases name == a with
          | true => rfl
          | false => exact ih

theorem parseItems_starLast (items : List String) : StarLast (parseItems items) := by
  induction items with
  | nil => exact trivial
  | cons item rest ih =>
      unfold parseItems
      by_cases h : item ≠ ""
      · rw [if_pos h]
        by_cases hs : byte0 item = some '*'
        · rw [if_pos hs]
          exact ⟨fun _ => rfl, trivial⟩
        · rw [if_neg hs]
          exact ⟨fun hstar => absurd hstar hs, ih⟩
      · rw [if_neg h]
        exact ih

theorem colon_part {part : String} (h : byte0 part = some ':') :
    part = ":" ++ tail1 part := by
  obtain ⟨cs⟩ := part
  cases cs with
  | nil => simp [byte0] at h
  | cons c rest =>
      simp only [byte0, List.head?_cons, Option.some.injEq] at h
      subst h
      rfl

theorem star_part {part : String} (h : byte0 part = some '*') :
    part = "*" ++ tail1 part := by
  obtain ⟨cs⟩ := part
  cases cs with
  | nil => simp [byte0] at h
  | cons c rest =>
      simp only [byte0, List.head?_cons, Option.some.injEq] at h
      subst h
      rfl

theorem byte0_append (c : Char) (name : String) :
    byte0 (String.mk [c] ++ name) = some c ∧ tail1 (String.mk [c] ++ name) = name ∧
      (String.mk [c] ++ name).length = name.length + 1 := by
  obtain ⟨cs⟩ := name
  refine ⟨rfl, rfl, ?_⟩
  show (c :: cs).length = cs.length + 1
  rfl

theorem tail1_ne_empty {part : String} (h : part.length > 1) : tail1 part ≠ "" := by
  obtain ⟨cs⟩ := part
  cases cs with
  | nil => simp [String.length] at h
  | cons c rest =>
      cases rest with
      | nil => simp [String.length] at h
      | cons d r =>
          intro he
          have := congrArg String.data he
          simp [tail1] at this

theorem binds_paramName {sp : List String} {part : String} {i : Nat} {name v : String}
    (h : Binds sp part i name v) : paramName part = some name := by
  rcases h with ⟨hp, _⟩ | ⟨hp, hne, _⟩
  · obtain ⟨h1, h2, _⟩ := byte0_append ':' name
    have hb : byte0 part = some ':' := by rw [hp]; exact h1
    have ht : tail1 part = name := by rw [hp]; exact h2
    unfold paramName
    rw [hb]
    simp [ht]
  · obtain ⟨h1, h2, h3⟩ := byte0_append '*' name
    have hb : byte0 part = some '*' := by rw [hp]; exact h1
    have ht : tail1 part = name := by rw [hp]; exact h2
    have hl : part.length > 1 := by
      rw [hp]
      have : (String.mk ['*'] ++ name).length = name.length + 1 := h3
      have hpos : 0 < name.length := by
        obtain ⟨cs⟩ := name
        cases cs with
        | nil => exact absurd rfl hne
        | cons c r => simp [String.length]
      show (String.mk ['*'] ++ name).length > 1
      omega
    unfold paramName
    rw [hb]
    simp [ht, hl]

theorem paramsLoop_lookup (sp : List String) :
    ∀ (parts : List String) (index : Nat) (params result : List (String × String)),
      StarLast parts → (parts.filterMap paramName).Nodup →
      paramsLoop sp parts index params = some result →
      ∀ name v, result.lookup name = some v ↔
        (∃ j part, parts[j]? = some part ∧ Binds sp part (index + j) name v) ∨
        (name ∉ parts.filterMap paramName ∧ params.lookup name = some v) := by
  intro parts
  induction parts with
  | nil =>
      intro index params result _ _ hloop name v
      simp only [paramsLoop, Option.some.injEq] at hloop
      subst hloop
      simp
  | cons part rest ih =>
      intro index params result hstar hnodup hloop name v
      unfold paramsLoop at hloop
      cases hb : byte0 part with
      | none => rw [hb] at hloop; simp at hloop
      | some b =>
          rw [hb] at hloop
          simp only at hloop
          -- how the existential over `part :: rest` splits
          have hsplit : (∃ j p, (part :: rest)[j]? = some p ∧ Binds sp p (index + j) name v) ↔
              (Binds sp part index name v ∨
                ∃ j p, rest[j]? = some p ∧ Binds sp p (index + 1 + j) name v) := by
            constructor
            · rintro ⟨j, p, hj, hbind⟩
              cases j with
              | zero =>
                  simp only [List.getElem?_cons_zero, Option.some.injEq] at hj
                  subst hj
                  exact Or.inl hbind
              | succ j =>
                  simp only [List.getElem?_cons_succ] at hj
                  refine Or.inr ⟨j, p, hj, ?_⟩
                  have : index + 1 + j = index + (j + 1) := by omega
                  rw [this]; exact hbind
            · rintro (hbind | ⟨j, p, hj, hbind⟩)
              · exact ⟨0, part, List.getElem?_cons_zero, hbind⟩
              · refine ⟨j + 1, p, by simpa using hj, ?_⟩
                have : index + (j + 1) = index + 1 + j := by omega
                rw [this]; exact hbind
          rw [hsplit]
          by_cases hc : b = ':'
          · -- a part `:name`
            subst hc
            have hpn : paramName part = some (tail1 part) := by
              unfold paramName; rw [hb]; simp
            have hnames : (part :: rest).filterMap paramName
                = tail1 part :: rest.filterMap paramName :=
              List.filterMap_cons_some hpn
            rw [hnames] at hnodup ⊢
            obtain ⟨hfresh, hnodup2⟩ := List.nodup_cons.1 hnodup
            cases hv : sp[index]? with
            | none => rw [hv] at hloop; simp at hloop
            | some v0 =>
                rw [hv] at hloop
                have hnot : ¬ ((':' : Char) = '*' ∧ part.length > 1) := by
                  rintro ⟨h, _⟩; exact absurd h (by decide)
                simp only [if_true, Option.map_some', hnot, if_false] at hloop
                rw [ih (index + 1) _ result hstar.2 hnodup2 hloop name v, lookup_setParam]
                have hbind0 : Binds sp part index name v ↔ (name = tail1 part ∧ v = v0) := by
                  constructor
                  · intro hbd
                    have h1 := binds_paramName hbd
                    rw [hpn] at h1
                    have hn : name = tail1 part := (Option.some.inj h1).symm
                    rcases hbd with ⟨_, hval⟩ | ⟨hp, _, _⟩
                    · rw [hv] at hval
                      exact ⟨hn, (Option.some.inj hval).symm⟩
                    · have := (byte0_append '*' name).1
                      rw [← hp, hb] at this
                      exact absurd (Option.some.inj this) (by decide)
                  · rintro ⟨hn, hval⟩
                    left
                    rw [hn, hval]
                    exact ⟨colon_part hb, hv⟩
                rw [hbind0]
                simp only [List.mem_cons, not_or]
                by_cases hn : name = tail1 part
                · rw [if_pos hn]
                  constructor
                  · rintro (⟨j, p, hj, hbd⟩ | ⟨_, hval⟩)
                    · exfalso
                      have h1 := binds_paramName hbd
                      apply hfresh
                      rw [← hn]
                      exact List.mem_filterMap.2 ⟨p, List.getElem?_mem hj, h1⟩
                    · exact Or.inl (Or.inl ⟨hn, (Option.some.inj hval).symm⟩)
                  · rintro ((⟨_, hval⟩ | h) | ⟨⟨hne, _⟩, _⟩)
                    · refine Or.inr ⟨?_, by rw [hval]⟩
                      rw [hn]; exact hfresh
                    · exact Or.inl h
                    · exact absurd hn hne
                · rw [if_neg hn]
                  constructor
                  · rintro (h | ⟨hmem, hval⟩)
                    · exact Or.inl (Or.inr h)
                    · exact Or.inr ⟨⟨hn, hmem⟩, hval⟩
                  · rintro ((⟨h, _⟩ | h) | ⟨⟨_, hmem⟩, hval⟩)
                    · exact absurd h hn
                    · exact Or.inl h
                    · exact Or.inr ⟨hmem, hval⟩
          · simp only [hc, if_false] at hloop
            have hnocolon : ∀ n2 v2 i2, Binds sp part i2 n2 v2 →
                part = "*" ++ n2 ∧ n2 ≠ "" ∧ v2 = Strings.Join (sp.drop i2) "/" := by
              intro n2 v2 i2 hbd
              rcases hbd with ⟨hp, _⟩ | h
              · have := (byte0_append ':' n2).1
                rw [← hp, hb] at this
                exact absurd (Option.some.inj this) hc
              · exact h
            by_cases hs : b = '*' ∧ part.length > 1
            · -- a part `*name` with a name
              rw [if_pos hs] at hloop
              obtain ⟨hbs, hlen⟩ := hs
              subst hbs
              have hrest : rest = [] := hstar.1 hb
              subst hrest
              have hpn : paramName part = some (tail1 part) := by
                unfold paramName; rw [hb]; simp [hlen]
              have hnames : [part].filterMap paramName = [tail1 part] := by
                rw [List.filterMap_cons_some hpn]; rfl
              rw [hnames]
              by_cases hidx : index ≤ sp.length
              · rw [if_pos hidx] at hloop
                have hres := Option.some.inj hloop
                rw [← hres, lookup_setParam]
                have hbind0 : Binds sp part index name v ↔
                    (name = tail1 part ∧ v = Strings.Join (sp.drop index) "/") := by
                  constructor
                  · intro hbd
                    have h1 := binds_paramName hbd
                    rw [hpn] at h1
                    exact ⟨(Option.some.inj h1).symm, (hnocolon _ _ _ hbd).2.2⟩
                  · rintro ⟨hn, hval⟩
                    right
                    rw [hn, hval]
                    exact ⟨star_part hb, tail1_ne_empty hlen, rfl⟩
                rw [hbind0]
                simp only [List.mem_singleton]
                by_cases hn : name = tail1 part
                · rw [if_pos hn]
                  constructor
                  · intro hval
                    exact Or.inl (Or.inl ⟨hn, (Option.some.inj hval).symm⟩)
                  · rintro ((⟨_, hval⟩ | ⟨j, p, hj, _⟩) | ⟨hne, _⟩)
                    · rw [hval]
                    · simp at hj
                    · exact absurd hn hne
                · rw [if_neg hn]
                  constructor
                  · intro hval
                    exact Or.inr ⟨hn, hval⟩
                  · rintro ((⟨h, _⟩ | ⟨j, p, hj, _⟩) | ⟨_, hval⟩)
                    · exact absurd h hn
                    · simp at hj
                    · exact hval
              · rw [if_neg hidx] at hloop
                simp at hloop
            · -- a static part, or `*` without a name
              rw [if_neg hs] at hloop
              have hpn : paramName part = none := by
                unfold paramName; rw [hb]; simp [hc, hs]
              have hnames : (part :: rest).filterMap paramName = rest.filterMap paramName :=
                List.filterMap_cons_none hpn
              rw [hnames] at hnodup ⊢
              rw [ih (index + 1) params result hstar.2 hnodup hloop name v]
              constructor
              · rintro (h | h)
                · exact Or.inl (Or.inr h)
                · exact Or.inr h
              · rintro ((hbd | h) | h)
                · have := binds_paramName hbd
                  rw [hpn] at this
                  exact absurd this (by simp)
                · exact Or.inl h
                · exact Or.inr h

theorem getRoute_params (r : router) (method path : String) :
    ∀ n params, r.getRoute method path = some (some (n, params)) →
      ((parsePattern n.pattern).filterMap paramName).Nodup →
      ∀ name v, params.lookup name = some v ↔
        ∃ i part, (parsePattern n.pattern)[i]? = some part ∧
          Binds (parsePattern path) part i name v := by
  intro n params hget hnodup name v
  unfold router.getRoute at hget
  cases hroot : r.roots.lookup method with
  | none => rw [hroot] at hget; simp at hget
  | some root =>
      rw [hroot] at hget
      simp only at hget
      cases hsearch : node.search (parsePattern path) root with
      | none => rw [hsearch] at hget; simp at hget
      | some n2 =>
          rw [hsearch] at hget
          simp only at hget
          cases hloop : paramsLoop (parsePattern path) (parsePattern n2.pattern) 0 [] with
          | none => rw [hloop] at hget; simp at hget
          | some ps =>
              rw [hloop] at hget
              simp only [Option.map_some', Option.some.injEq, Prod.mk.injEq] at hget
              obtain ⟨hn, hp⟩ := hget
              subst hn
              subst hp
              have := paramsLoop_lookup (parsePattern path) (parsePattern n2.pattern) 0 []
                ps (parseItems_starLast _) hnodup hloop name v
              rw [this]
              simp only [Nat.zero_add]
              constructor
              · rintro (h | ⟨_, h⟩)
                · exact h
                · simp at h
              · intro h
                exact Or.inl h

/-! ## The segments `parsePattern` returns (C21) -/

theorem parseItems_eq (l : List String) :
    parseItems l =
      (l.filter (fun s => s ≠ "")).takeWhile (fun s => !isStar s) ++
        ((l.filter (fun s => s ≠ "")).dropWhile (fun s => !isStar s)).take 1 := by
  induction l with
  | nil => rfl
  | cons item rest ih =>
      unfold parseItems
      by_cases h : item ≠ ""
      · rw [if_pos h, List.filter_cons_of_pos (by simpa using h)]
        by_cases hs : byte0 item = some '*'
        · rw [if_pos hs]
          have : isStar item = true := by simp [isStar, hs]
          simp [List.takeWhile_cons, List.dropWhile_cons, this]
        · rw [if_neg hs]
          have : isStar item = false := by simp [isStar, hs]
          rw [ih]
          simp [List.takeWhile_cons, List.dropWhile_cons, this]
      · rw [if_neg h, List.filter_cons_of_neg (by simpa using h)]
        exact ih

theorem parseItems_ne_empty (l : List String) : ∀ s ∈ parseItems l, s ≠ "" := by
  intro s hs
  rw [parseItems_eq] at hs
  rcases List.mem_append.1 hs with h | h
  · have := (List.takeWhile_sublist _).subset h
    simpa using (List.mem_filter.1 this).2
  · have := (List.dropWhile_sublist _).subset ((List.take_sublist _ _).subset h)
    simpa using (List.mem_filter.1 this).2

/-- C21.  For every pattern, `parsePattern` returns the non-empty segments of
the pattern between its slashes, in their order, cut right after the first
one that begins with `*`: the segments before the first that begins with `*`,
followed by that one if there is one.  The result holds no empty string, at
most one segment that begins with `*`, and such a segment is the last one.
"/p/:name" gives [p, :name], "/p/*" gives [p, *] and "/p/*name/*" gives
[p, *name]. -/
theorem C21_parsePattern (pattern : String) :
    parsePattern pattern =
      (segments pattern).takeWhile (fun s => !isStar s) ++
        ((segments pattern).dropWhile (fun s => !isStar s)).take 1 ∧
    "" ∉ parsePattern pattern ∧
    ((parsePattern pattern).filter isStar).length ≤ 1 ∧
    (∀ (i : Nat) (s : String), (parsePattern pattern)[i]? = some s → isStar s = true →
        i + 1 = (parsePattern pattern).length) ∧
    parsePattern "/p/:name" = ["p", ":name"] ∧
    parsePattern "/p/*" = ["p", "*"] ∧
    parsePattern "/p/*name/*" = ["p", "*name"] := by
  have heq : parsePattern pattern =
      (segments pattern).takeWhile (fun s => !isStar s) ++
        ((segments pattern).dropWhile (fun s => !isStar s)).take 1 := by
    unfold parsePattern segments
    exact parseItems_eq _
  have htw : ∀ s ∈ (segments pattern).takeWhile (fun s => !isStar s), isStar s = false := by
    intro s hs
    have := List.mem_takeWhile_imp hs
    simpa using this
  have hlen : (((segments pattern).dropWhile (fun s => !isStar s)).take 1).length ≤ 1 := by
    rw [List.length_take]
    exact Nat.min_le_left _ _
  refine ⟨heq, ?_, ?_, ?_, by decide, by decide, by decide⟩
  · intro h
    exact parseItems_ne_empty _ _ h rfl
  · rw [heq, List.filter_append]
    have h1 : ((segments pattern).takeWhile (fun s => !isStar s)).filter isStar = [] := by
      rw [List.filter_eq_nil_iff]
      intro s hs
      rw [htw s hs]
      simp
    rw [h1, List.nil_append]
    exact le_trans (List.length_filter_le _ _) hlen
  · intro i s hi hs
    rw [heq] at hi ⊢
    rw [List.length_append]
    by_cases hlt : i < ((segments pattern).takeWhile (fun s => !isStar s)).length
    · rw [List.getElem?_append_left hlt] at hi
      have := htw s (List.getElem?_mem hi)
      rw [hs] at this
      cases this
    · have hlt2 := (List.getElem?_eq_some_iff.1 hi).1
      rw [List.length_append] at hlt2
      omega

/-! ## The middlewares of a request (C24) -/

theorem foldl_middlewares (path : String) (l : List RouteGroup) :
    ∀ acc : List Nat,
      l.foldl (fun acc group =>
        if Strings.HasPrefix path group.prefix_ then acc ++ group.middlewares else acc) acc
      = acc ++ ((l.filter (fun g => Strings.HasPrefix path g.prefix_)).map
          (fun g => g.middlewares)).flatten := by
  induction l with
  | nil => intro acc; simp
  | cons g rest ih =>
      intro acc
      rw [List.foldl_cons, ih]
      by_cases h : Strings.HasPrefix path g.prefix_ = true
      · rw [if_pos h]
        simp [List.filter_cons, h]
      · rw [if_neg h]
        simp [List.filter_cons, h]

theorem split_two {α : Type} (l : List α) (i j : Nat) (a b : α) (hij : i < j)
    (hi : l[i]? = some a) (hj : l[j]? = some b) :
    ∃ l1 l2 l3, l = l1 ++ a :: (l2 ++ b :: l3) := by
  induction l generalizing i j with
  | nil => simp at hi
  | cons x rest ih =>
      cases j with
      | zero => omega
      | succ j1 =>
          rw [List.getElem?_cons_succ] at hj
          cases i with
          | zero =>
              rw [List.getElem?_cons_zero] at hi
              cases hi
              have hlt := (List.getElem?_eq_some_iff.1 hj).1
              refine ⟨[], rest.take j1, rest.drop (j1 + 1), ?_⟩
              rw [List.nil_append]
              congr 1
              have hb : rest[j1] = b := (List.getElem?_eq_some_iff.1 hj).2
              rw [← hb, ← List.drop_eq_getElem_cons hlt, List.take_append_drop]
          | succ i1 =>
              rw [List.getElem?_cons_succ] at hi
              obtain ⟨l1, l2, l3, h⟩ := ih i1 j1 (by omega) hi hj
              exact ⟨x :: l1, l2, l3, by rw [h]; rfl⟩

theorem HasPrefix_trans (path a b s : String) (hb : b = a ++ s)
    (h : Strings.HasPrefix path b = true) : Strings.HasPrefix path a = true := by
  unfold Strings.HasPrefix at h ⊢
  rw [List.isPrefixOf_iff_prefix] at h ⊢
  rw [hb, String.data_append] at h
  exact (List.prefix_append _ _).trans h

/-- C24.  For every engine and every request path, the handlers `ServeHTTP`
puts into the context are the middlewares of the groups whose path is a
string that the request path begins with, group after group in the order of
`engine.groups`, which is the order of creation: `Group` appends the new
group, whose path is the path of its parent followed by its own, and neither
`Use` nor `Group` moves a group or changes its path.  So for a group and a
group under it, made by `Group` on it or on a group under it, every request
under the second is under the first, and the handlers hold the middlewares
of the first ahead of those of the second.  In the engine of `main.go` a
request for "/v2/hello/x" gets the middlewares 1 and 2, a request for "/"
the middleware 1. -/
theorem C24_middlewares (e : Engine) (method path : String) :
    (e.ServeHTTP method path).handlers =
      ((e.groups.filter (fun g => Strings.HasPrefix path g.prefix_)).map
        (fun g => g.middlewares)).flatten ∧
    (∀ (i : Nat) (pre : String) (gi : RouteGroup), e.groups[i]? = some gi →
      (RouteGroup.Group e i pre).2 = e.groups.length ∧
      (RouteGroup.Group e i pre).1.groups
        = e.groups ++ [{ prefix_ := gi.prefix_ ++ pre, middlewares := [] }] ∧
      Under (RouteGroup.Group e i pre).1 i e.groups.length) ∧
    (∀ i j : Nat, Under e i j →
      (∀ (g : Nat) (mws : List Nat), Under (RouteGroup.Use e g mws) i j) ∧
      (∀ (g : Nat) (pre : String), Under (RouteGroup.Group e g pre).1 i j)) ∧
    (∀ i j k : Nat, Under e i j → Under e j k → Under e i k) ∧
    (∀ (i j : Nat) (gi gj : RouteGroup), Under e i j →
      e.groups[i]? = some gi → e.groups[j]? = some gj →
      Strings.HasPrefix path gj.prefix_ = true →
      Strings.HasPrefix path gi.prefix_ = true ∧
      ∃ a b c, (e.ServeHTTP method path).handlers
        = a ++ gi.middlewares ++ b ++ gj.middlewares ++ c) ∧
    (mainEngine.ServeHTTP "GET" "/v2/hello/x").handlers = [1, 2] ∧
    (mainEngine.ServeHTTP "GET" "/").handlers = [1] := by
  have hmw : (e.ServeHTTP method path).handlers =
      ((e.groups.filter (fun g => Strings.HasPrefix path g.prefix_)).map
        (fun g => g.middlewares)).flatten := by
    show e.groups.foldl _ [] = _
    rw [foldl_middlewares, List.nil_append]
  refine ⟨hmw, ?_, ?_, ?_, ?_, by decide, by decide⟩
  · intro i pre gi hi
    have hlt := (List.getElem?_eq_some_iff.1 hi).1
    unfold RouteGroup.Group
    rw [hi]
    refine ⟨rfl, rfl, hlt, gi, ⟨gi.prefix_ ++ pre, []⟩, pre, ?_, ?_, rfl⟩
    · show (e.groups ++ _)[i]? = some gi
      rw [List.getElem?_append_left hlt]
      exact hi
    · show (e.groups ++ _)[e.groups.length]? = _
      rw [List.getElem?_append_right (le_refl _)]
      simp
  · intro i j hu
    obtain ⟨hij, gi, gj, s, hi, hj, hs⟩ := hu
    constructor
    · intro g mws
      unfold RouteGroup.Use
      cases hg : e.groups[g]? with
      | none => exact ⟨hij, gi, gj, s, hi, hj, hs⟩
      | some x =>
          simp only
          refine ⟨hij, ?_⟩
          by_cases h1 : g = i
          · by_cases h2 : g = j
            · omega
            · subst h1
              rw [hi] at hg
              cases hg
              refine ⟨{ gi with middlewares := gi.middlewares ++ mws }, gj, s, ?_, ?_, hs⟩
              · show (e.groups.set g _)[g]? = _
                rw [List.getElem?_set_self (List.getElem?_eq_some_iff.1 hi).1]
              · show (e.groups.set g _)[j]? = _
                rw [List.getElem?_set_ne h2]
                exact hj
          · by_cases h2 : g = j
            · subst h2
              rw [hj] at hg
              cases hg
              refine ⟨gi, { gj with middlewares := gj.middlewares ++ mws }, s, ?_, ?_, hs⟩
              · show (e.groups.set g _)[i]? = _
                rw [List.getElem?_set_ne h1]
                exact hi
              · show (e.groups.set g _)[g]? = _
                rw [List.getElem?_set_self (List.getElem?_eq_some_iff.1 hj).1]
            · refine ⟨gi, gj, s, ?_, ?_, hs⟩
              · show (e.groups.set g _)[i]? = _
                rw [List.getElem?_set_ne h1]
                exact hi
              · show (e.groups.set g _)[j]? = _
                rw [List.getElem?_set_ne h2]
                exact hj
    · intro g pre
      unfold RouteGroup.Group
      cases hg : e.groups[g]? with
      | none => exact ⟨hij, gi, gj, s, hi, hj, hs⟩
      | some x =>
          simp only
          refine ⟨hij, gi, gj, s, ?_, ?_, hs⟩
          · show (e.groups ++ _)[i]? = _
            rw [List.getElem?_append_left (List.getElem?_eq_some_iff.1 hi).1]
            exact hi
          · show (e.groups ++ _)[j]? = _
            rw [List.getElem?_append_left (List.getElem?_eq_some_iff.1 hj).1]
            exact hj
  · intro i j k h1 h2
    obtain ⟨hij, gi, gj, s, hi, hj, hs⟩ := h1
    obtain ⟨hjk, gj2, gk, s2, hj2, hk, hs2⟩ := h2
    rw [hj] at hj2
    cases hj2
    refine ⟨by omega, gi, gk, s ++ s2, hi, hk, ?_⟩
    rw [hs2, hs, String.append_assoc]
  · intro i j gi gj hu hi hj hp
    obtain ⟨hij, gi2, gj2, s, hi2, hj2, hs⟩ := hu
    rw [hi] at hi2
    rw [hj] at hj2
    cases hi2
    cases hj2
    have hpi := HasPrefix_trans path gi.prefix_ gj.prefix_ s hs hp
    refine ⟨hpi, ?_⟩
    obtain ⟨l1, l2, l3, hl⟩ := split_two e.groups i j gi gj hij hi hj
    rw [hmw, hl]
    refine ⟨((l1.filter (fun g => Strings.HasPrefix path g.prefix_)).map
        (fun g => g.middlewares)).flatten,
      ((l2.filter (fun g => Strings.HasPrefix path g.prefix_)).map
        (fun g => g.middlewares)).flatten,
      ((l3.filter (fun g => Strings.HasPrefix path g.prefix_)).map
        (fun g => g.middlewares)).flatten, ?_⟩
    simp [List.filter_append, List.filter_cons, hpi, hp]

/-! ## Indices in `insert` and `getRoute` (C28) -/

theorem DepthOK_pattern (d : Nat) (n : node) (h : DepthOK d n) :
    n.pattern ≠ "" → (parsePattern n.pattern).length = d := by
  cases h with
  | mk _ pattern part children isWild h1 h2 => exact h1

theorem DepthOK_children (d : Nat) (n : node) (h : DepthOK d n) :
    ∀ c, c ∈ n.children → DepthOK (d + 1) c := by
  cases h with
  | mk _ pattern part children isWild h1 h2 => exact h2

theorem byte0_of_ne (s : String) (h : s ≠ "") : ∃ b, byte0 s = some b := by
  unfold byte0
  cases hd : s.data with
  | nil =>
      exfalso
      apply h
      cases s
      simp only at hd
      rw [hd]
  | cons c rest => exact ⟨c, rfl⟩

theorem insert_ok (pattern : String) :
    ∀ (parts : List String) (n : node) (d : Nat), (∀ p ∈ parts, p ≠ "") →
      d + parts.length = (parsePattern pattern).length → DepthOK d n →
      ∃ n1, node.insert pattern parts n = some n1 ∧ DepthOK d n1 := by
  intro parts
  induction parts with
  | nil =>
      intro n d _ hlen hn
      refine ⟨_, rfl, ?_⟩
      exact DepthOK.mk d pattern n.part n.children n.isWild
        (fun _ => by rw [← hlen]; rfl) (DepthOK_children d n hn)
  | cons part rest ih =>
      intro n d hne hlen hn
      have hrest : ∀ p ∈ rest, p ≠ "" := fun p hp => hne p (List.mem_cons_of_mem _ hp)
      have hlen1 : d + 1 + rest.length = (parsePattern pattern).length := by
        rw [← hlen, List.length_cons]
        omega
      unfold node.insert
      cases hf : n.children.findIdx? (fun c => c.matches part) with
      | some idx =>
          simp only
          obtain ⟨hlt, _, _⟩ := List.findIdx?_eq_some_iff_getElem.1 hf
          have hget : n.children[idx]? = some n.children[idx] := List.getElem?_eq_getElem hlt
          rw [hget]
          simp only
          obtain ⟨c1, hc1, hok⟩ := ih n.children[idx] (d + 1) hrest hlen1
            (DepthOK_children d n hn _ (List.getElem_mem hlt))
          rw [hc1]
          refine ⟨_, rfl, ?_⟩
          refine DepthOK.mk d n.pattern n.part _ n.isWild (DepthOK_pattern d n hn) ?_
          intro c hc
          rcases List.mem_or_eq_of_mem_set hc with h1 | h1
          · exact DepthOK_children d n hn c h1
          · rw [h1]
            exact hok
      | none =>
          simp only
          obtain ⟨b, hb⟩ := byte0_of_ne part (hne part (List.mem_cons_self _ _))
          rw [hb]
          simp only
          obtain ⟨c1, hc1, hok⟩ := ih (.mk "" part [] (b == ':' || b == '*')) (d + 1) hrest hlen1
            (DepthOK.mk (d + 1) "" part [] _ (fun h => absurd rfl h)
              (fun c hc => by cases hc))
          rw [hc1]
          refine ⟨_, rfl, ?_⟩
          refine DepthOK.mk d n.pattern n.part _ n.isWild (DepthOK_pattern d n hn) ?_
          intro c hc
          rcases List.mem_append.1 hc with h1 | h1
          · exact DepthOK_children d n hn c h1
          · rw [List.mem_singleton] at h1
            rw [h1]
            exact hok

theorem search_depth :
    ∀ (parts : List String) (n n1 : node) (d : Nat), DepthOK d n →
      node.search parts n = some n1 →
      (parsePattern n1.pattern).length ≤ d + parts.length := by
  intro parts
  induction parts with
  | nil =>
      intro n n1 d hn h
      unfold node.search at h
      by_cases hp : n.pattern = ""
      · rw [if_pos hp] at h
        cases h
      · rw [if_neg hp] at h
        cases h
        rw [DepthOK_pattern d n hn hp]
        exact Nat.le_add_right _ _
  | cons part rest ih =>
      intro n n1 d hn h
      unfold node.search at h
      by_cases hs : byte0 n.part = some '*'
      · rw [if_pos hs] at h
        by_cases hp : n.pattern = ""
        · rw [if_pos hp] at h
          cases h
        · rw [if_neg hp] at h
          cases h
          rw [DepthOK_pattern d n hn hp]
          exact Nat.le_add_right _ _
      · rw [if_neg hs] at h
        obtain ⟨c, hc, hsearch⟩ := List.exists_of_findSome?_eq_some h
        have hcm : c ∈ n.children := (List.mem_filter.1 hc).1
        have := ih c n1 (d + 1) (DepthOK_children d n hn c hcm) hsearch
        rw [List.length_cons]
        omega

theorem paramsLoop_returns (sp : List String) :
    ∀ (parts : List String) (index : Nat) (params : List (String × String)),
      (∀ p ∈ parts, p ≠ "") → index + parts.length ≤ sp.length →
      ∃ r, paramsLoop sp parts index params = some r := by
  intro parts
  induction parts with
  | nil => intro index params _ _; exact ⟨params, rfl⟩
  | cons part rest ih =>
      intro index params hne hlen
      rw [List.length_cons] at hlen
      unfold paramsLoop
      obtain ⟨b, hb⟩ := byte0_of_ne part (hne part (List.mem_cons_self _ _))
      rw [hb]
      simp only
      have hidx : index < sp.length := by omega
      have hget : sp[index]? = some sp[index] := List.getElem?_eq_getElem hidx
      have hstep : ∃ params1,
          (if b = ':' then (sp[index]?).map (fun v => setParam params (tail1 part) v)
            else some params) = some params1 := by
        by_cases hc : b = ':'
        · rw [if_pos hc, hget]
          exact ⟨_, rfl⟩
        · rw [if_neg hc]
          exact ⟨_, rfl⟩
      obtain ⟨params1, hp1⟩ := hstep
      rw [hp1]
      simp only
      by_cases hst : b = '*' ∧ part.length > 1
      · rw [if_pos hst, if_pos (by omega)]
        exact ⟨_, rfl⟩
      · rw [if_neg hst]
        exact ih (index + 1) params1 (fun p hp => hne p (List.mem_cons_of_mem _ hp))
          (by omega)

theorem parsePattern_ne (pattern : String) : ∀ p ∈ parsePattern pattern, p ≠ "" := by
  unfold parsePattern
  exact parseItems_ne_empty _

theorem roots_lookup_mem (roots : List (String × node)) (method : String) (root : node)
    (h : roots.lookup method = some root) : (method, root) ∈ roots := by
  induction roots with
  | nil => simp at h
  | cons a rest ih =>
      obtain ⟨k1, v1⟩ := a
      by_cases hk : method = k1
      · subst hk
        simp [List.lookup] at h
        subst h
        exact List.mem_cons_self _ _
      · have : (method == k1) = false := by simpa using hk
        simp [List.lookup, this] at h
        exact List.mem_cons_of_mem _ (ih h)

theorem addRouter_ok (r : router) (method pattern : String) (handler : Nat)
    (hr : RouterOK r) : ∃ r1, r.addRouter method pattern handler = some r1 ∧ RouterOK r1 := by
  unfold router.addRouter
  have hroot : DepthOK 0 ((r.roots.lookup method).getD (.mk "" "" [] false)) := by
    cases hl : r.roots.lookup method with
    | none =>
        exact DepthOK.mk 0 "" "" [] false (fun h => absurd rfl h) (fun c hc => by cases hc)
    | some root => exact hr _ (roots_lookup_mem _ _ _ hl)
  obtain ⟨n1, hn1, hok⟩ := insert_ok pattern (parsePattern pattern) _ 0
    (parsePattern_ne pattern) (Nat.zero_add _) hroot
  simp only
  rw [hn1]
  refine ⟨_, rfl, ?_⟩
  intro e he
  rcases List.mem_cons.1 he with h | h
  · rw [h]
    exact hok
  · exact hr e (List.mem_filter.1 h).1

theorem addRoutes_ok :
    ∀ (routes : List (String × String)) (r : router), RouterOK r →
      ∃ r1, addRoutes r routes = some r1 ∧ RouterOK r1 := by
  intro routes
  induction routes with
  | nil => intro r hr; exact ⟨r, rfl, hr⟩
  | cons a rest ih =>
      intro r hr
      obtain ⟨method, pattern⟩ := a
      obtain ⟨r1, h1, hok⟩ := addRouter_ok r method pattern 0 hr
      unfold addRoutes
      rw [h1]
      exact ih r1 hok

/-- C28.  For every list of routes, `addRouter` adds them one after the other
without a panic: `insert` takes `part[0]` of parts of `parsePattern` only,
none of which is empty.  In the router built, for every method and path:
whenever `search` returns a node, its pattern has at most as many parts as
the parsed path, and `getRoute` returns without a panic, so `part[0]`,
`searchParts[index]` and `searchParts[index:]` are in range. -/
theorem C28_getRoute_in_range (routes : List (String × String)) (method path : String) :
    ∃ r, addRoutes newRouter routes = some r ∧
      (∀ root n, r.roots.lookup method = some root →
        node.search (parsePattern path) root = some n →
        (parsePattern n.pattern).length ≤ (parsePattern path).length ∧
        (∀ part ∈ parsePattern n.pattern, part ≠ "") ∧
        ∃ params, paramsLoop (parsePattern path) (parsePattern n.pattern) 0 []
          = some params) ∧
      ∃ res, r.getRoute method path = some res := by
  obtain ⟨r, hr, hok⟩ := addRoutes_ok routes newRouter (fun e he => by cases he)
  have hmain : ∀ root n, r.roots.lookup method = some root →
      node.search (parsePattern path) root = some n →
      (parsePattern n.pattern).length ≤ (parsePattern path).length ∧
      (∀ part ∈ parsePattern n.pattern, part ≠ "") ∧
      ∃ params, paramsLoop (parsePattern path) (parsePattern n.pattern) 0 []
        = some params := by
    intro root n hl hs
    have hd := search_depth (parsePattern path) root n 0
      (hok _ (roots_lookup_mem _ _ _ hl)) hs
    rw [Nat.zero_add] at hd
    exact ⟨hd, parsePattern_ne _,
      paramsLoop_returns (parsePattern path) (parsePattern n.pattern) 0 []
        (parsePattern_ne _) (by omega)⟩
  refine ⟨r, hr, hmain, ?_⟩
  unfold router.getRoute
  cases hl : r.roots.lookup method with
  | none => exact ⟨_, rfl⟩
  | some root =>
      simp only
      cases hs : node.search (parsePattern path) root with
      | none => exact ⟨_, rfl⟩
      | some n =>
          simp only
          obtain ⟨params, hp⟩ := (hmain root n hl hs).2.2
          rw [hp]
          exact ⟨_, rfl⟩

/-! ## The parameters of a route over the segments of the path (C20) -/

theorem starLast_keep (l : List String) (h : StarLast l) :
    l.takeWhile (fun s => !isStar s) ++ (l.dropWhile (fun s => !isStar s)).take 1 = l := by
  induction l with
  | nil => rfl
  | cons a rest ih =>
      obtain ⟨h1, h2⟩ := h
      by_cases hs : byte0 a = some '*'
      · have : isStar a = true := by simp [isStar, hs]
        rw [h1 hs]
        simp [List.takeWhile_cons, List.dropWhile_cons, this]
      · have : isStar a = false := by simp [isStar, hs]
        have hrest := ih h2
        simp only [List.takeWhile_cons, List.dropWhile_cons, this, Bool.not_false, if_true,
          List.cons_append]
        rw [hrest]

theorem parsePattern_eq_segments (path : String) (h : StarLast (segments path)) :
    parsePattern path = segments path := by
  have : parsePattern path =
      (segments path).takeWhile (fun s => !isStar s) ++
        ((segments path).dropWhile (fun s => !isStar s)).take 1 := by
    unfold parsePattern segments
    exact parseItems_eq _
  rw [this]
  exact starLast_keep _ h

/-- The request path is cut where the registered path would be.  `getRoute`
splits the request path with `parsePattern`, which stops after a segment that
begins with `*`: with the route "/assets/*filepath" the path "/assets/a/*b/c"
gets `filepath = "a/*b"`, while the rest of the path is "a/*b/c". -/
theorem getRoute_cuts_path_at_star :
    routeView newTestRouter "GET" "/assets/a/*b/c"
      = some (some ("/assets/*filepath", [("filepath", "a/*b")])) ∧
    parsePattern "/assets/a/*b/c" = ["assets", "a", "*b"] ∧
    segments "/assets/a/*b/c" = ["assets", "a", "*b", "c"] ∧
    Strings.Join ((segments "/assets/a/*b/c").drop 1) "/" = "a/*b/c" := by
  decide

/-- C20, as stated, fails for a pattern that binds a name twice.  With the
route "/:a/:a" and the path "/x/y" the node with that pattern is returned and
`params["a"]` is "y": `params` is a map and the second part `:a` overwrites
what the first one set, although the part `:a` at index 0 stands at the path
segment "x". -/
theorem C20_counterexample :
    routeView (addRoutes newRouter [("GET", "/:a/:a")]) "GET" "/x/y"
      = some (some ("/:a/:a", [("a", "y")])) ∧
    parsePattern "/:a/:a" = [":a", ":a"] ∧
    segments "/x/y" = ["x", "y"] := by
  decide

/-- C20 (amended).  For every router: `getRoute` for a method without a root
returns no node.  Whenever `getRoute(method, path)` returns a node whose
pattern binds no parameter name twice, for a path in which no segment but the
last begins with `*`, the map `params` holds exactly this: for each part
`:name` at index `i` of the node's pattern, `name` with the `i`-th segment of
the path, and for a part `*name` with a non-empty name at index `i`, `name`
with the segments of the path from `i` on joined by "/"; the segments of the
path being the non-empty strings between its slashes.  In the router of the
test "/hello/testName" gets the node "/hello/:name" with
`params["name"] = "testName"`, "/assets/css/file.js" gets "/assets/*filepath"
with `filepath = "css/file.js"`, and a POST gets no node. -/
theorem C20_params (r : router) (method path : String) :
    (r.roots.lookup method = none → r.getRoute method path = some none) ∧
    (∀ n params, r.getRoute method path = some (some (n, params)) →
        ((parsePattern n.pattern).filterMap paramName).Nodup →
        StarLast (segments path) →
        ∀ name v, params.lookup name = some v ↔
          ∃ i part, (parsePattern n.pattern)[i]? = some part ∧
            Binds (segments path) part i name v) ∧
    routeView newTestRouter "GET" "/hello/testName"
      = some (some ("/hello/:name", [("name", "testName")])) ∧
    routeView newTestRouter "GET" "/assets/css/file.js"
      = some (some ("/assets/*filepath", [("filepath", "css/file.js")])) ∧
    routeView newTestRouter "POST" "/hello/testName" = some none := by
  refine ⟨?_, ?_, by decide, by decide, by decide⟩
  · intro h
    unfold router.getRoute
    rw [h]
  · intro n params hget hnodup hstar name v
    rw [← parsePattern_eq_segments path hstar]
    exact getRoute_params r method path n params hget hnodup name v

/-- An instance of C20: the route "/hello/:name" on the path
"/hello/testName". -/
theorem C20_params_witness :
    nameRouter.getRoute "GET" "/hello/testName"
      = some (some (node.mk "/hello/:name" ":name" [] true, [("name", "testName")])) ∧
    ((parsePattern (node.mk "/hello/:name" ":name" [] true).pattern).filterMap
      paramName).Nodup ∧
    segments "/hello/testName" = ["hello", "testName"] ∧
    StarLast (segments "/hello/testName") ∧
    (([("name", "testName")] : List (String × String)).lookup "name" = some "testName" ↔
      ∃ i part, (parsePattern (node.mk "/hello/:name" ":name" [] true).pattern)[i]?
          = some part ∧
        Binds (segments "/hello/testName") part i "name" "testName") :=
  ⟨rfl, by decide, by decide,
    ⟨fun h => absurd h (by decide), fun h => absurd h (by decide), trivial⟩,
    (C20_params nameRouter "GET" "/hello/testName").2.1
      (node.mk "/hello/:name" ":name" [] true) [("name", "testName")] rfl (by decide)
      ⟨fun h => absurd h (by decide), fun h => absurd h (by decide), trivial⟩
      "name" "testName"⟩

end Gin

namespace Lru

/-! ## Arithmetic of `int64` -/

theorem wrapInt_wrap_add (a b : Int) :
    Grpc.wrapInt (Grpc.wrapInt a + Grpc.wrapInt b) = Grpc.wrapInt (a + b) := by
  unfold Grpc.wrapInt
  norm_num
  omega

theorem wrapInt_wrap_sub (a b : Int) :
    Grpc.wrapInt (Grpc.wrapInt a - Grpc.wrapInt b) = Grpc.wrapInt (a - b) := by
  unfold Grpc.wrapInt
  norm_num
  omega

theorem wrapInt_zero : Grpc.wrapInt 0 = 0 := by
  unfold Grpc.wrapInt
  norm_num

theorem wrapInt_range (i : Int) (h1 : 0 ≤ i) (h2 : i < 2 ^ 63) : Grpc.wrapInt i = i := by
  unfold Grpc.wrapInt
  norm_num at h2 ⊢
  omega

/-! ## Maps as association lists -/

theorem lookup_mem {β : Type} (l : List (String × β)) (k : String) (v : β)
    (h : l.lookup k = some v) : (k, v) ∈ l := by
  induction l with
  | nil => simp at h
  | cons a rest ih =>
      obtain ⟨k1, v1⟩ := a
      by_cases hk : k = k1
      · subst hk
        simp [List.lookup] at h
        subst h
        exact List.mem_cons_self _ _
      · have : (k == k1) = false := by simpa using hk
        simp [List.lookup, this] at h
        exact List.mem_cons_of_mem _ (ih h)

theorem lookup_of_mem {β : Type} (l : List (String × β)) (k : String) (v : β)
    (hn : (l.map Prod.fst).Nodup) (h : (k, v) ∈ l) : l.lookup k = some v := by
  induction l with
  | nil => simp at h
  | cons a rest ih =>
      obtain ⟨k1, v1⟩ := a
      rw [List.map_cons, List.nodup_cons] at hn
      rcases List.mem_cons.1 h with h1 | h1
      · cases h1
        simp [List.lookup]
      · have hk : k ≠ k1 := by
          intro e
          subst e
          exact hn.1 (List.mem_map.2 ⟨(k, v), h1, rfl⟩)
        have : (k == k1) = false := by simpa using hk
        simp [List.lookup, this]
        exact ih hn.2 h1

theorem lookup_none_iff {β : Type} (l : List (String × β)) (k : String) :
    l.lookup k = none ↔ k ∉ l.map Prod.fst := by
  induction l with
  | nil => simp
  | cons a rest ih =>
      obtain ⟨k1, v1⟩ := a
      by_cases hk : k = k1
      · subst hk
        simp [List.lookup]
      · have : (k == k1) = false := by simpa using hk
        simp only [List.lookup, this, List.map_cons, List.mem_cons, hk, false_or]
        exact ih
/-! ## The list of elements -/

theorem total_nil {V : Type} (vlen : V → Int) : total vlen ([] : List (Element V)) = 0 := rfl

theorem total_cons {V : Type} (vlen : V → Int) (e : Element V) (l : List (Element V)) :
    total vlen (e :: l) = (len e.kv.key : Int) + vlen e.kv.value + total vlen l := by
  simp [total]

theorem total_append {V : Type} (vlen : V → Int) (a b : List (Element V)) :
    total vlen (a ++ b) = total vlen a + total vlen b := by
  simp [total]

theorem find_split {V : Type} (l : List (Element V)) (p : Nat) (e : Element V)
    (hn : (l.map (fun e => e.ptr)).Nodup) (h : l.find? (fun e => e.ptr = p) = some e) :
    e.ptr = p ∧ ∃ a b, l = a ++ e :: b ∧ l.filter (fun x => x.ptr ≠ p) = a ++ b := by
  induction l with
  | nil => simp at h
  | cons x rest ih =>
      rw [List.map_cons, List.nodup_cons] at hn
      by_cases hx : x.ptr = p
      · rw [List.find?_cons_of_pos _ (by simpa using hx)] at h
        cases h
        refine ⟨hx, [], rest, rfl, ?_⟩
        rw [List.filter_cons_of_neg (by simpa using hx), List.nil_append]
        rw [List.filter_eq_self]
        intro y hy
        have : y.ptr ≠ p := by
          intro e1
          exact hn.1 (by rw [hx, ← e1]; exact List.mem_map.2 ⟨y, hy, rfl⟩)
        simpa using this
      · rw [List.find?_cons_of_neg _ (by simpa using hx)] at h
        obtain ⟨hp, a, b, hl, hf⟩ := ih hn.2 h
        refine ⟨hp, x :: a, b, by rw [hl]; rfl, ?_⟩
        rw [List.filter_cons_of_pos (by simpa using hx), hf]
        rfl

theorem find_of_mem {V : Type} (l : List (Element V)) (e : Element V)
    (hn : (l.map (fun e => e.ptr)).Nodup) (h : e ∈ l) :
    l.find? (fun x => x.ptr = e.ptr) = some e := by
  induction l with
  | nil => simp at h
  | cons x rest ih =>
      rw [List.map_cons, List.nodup_cons] at hn
      rcases List.mem_cons.1 h with h1 | h1
      · subst h1
        rw [List.find?_cons_of_pos _ (by simp)]
      · have : x.ptr ≠ e.ptr := by
          intro e1
          exact hn.1 (by rw [e1]; exact List.mem_map.2 ⟨e, h1, rfl⟩)
        rw [List.find?_cons_of_neg _ (by simpa using this)]
        exact ih hn.2 h1

theorem Remove_last {V : Type} (front : List (Element V)) (e : Element V)
    (hn : ((front ++ [e]).map (fun e => e.ptr)).Nodup) :
    Remove (front ++ [e]) e.ptr = front := by
  unfold Remove
  rw [List.filter_append]
  have h1 : front.filter (fun x => x.ptr ≠ e.ptr) = front := by
    rw [List.filter_eq_self]
    intro y hy
    rw [List.map_append, List.nodup_append] at hn
    have : y.ptr ≠ e.ptr := by
      intro e1
      exact hn.2.2 (List.mem_map.2 ⟨y, hy, rfl⟩) (by rw [e1]; simp)
    simpa using this
  rw [h1]
  simp

/-! ## The invariant -/

theorem Inv_New {V : Type} (vlen : V → Int) (maxBytes : Int) (onEvicted : Bool) :
    Inv vlen (New maxBytes onEvicted : Cache V) := by
  unfold Inv New
  simp [total, Grpc.wrapInt]

theorem RemoveOldest_nil {V : Type} (vlen : V → Int) (c : Cache V) (h : c.ll = []) :
    RemoveOldest vlen c = c := by
  unfold RemoveOldest
  rw [h]
  rfl

theorem RemoveOldest_last {V : Type} (vlen : V → Int) (c : Cache V)
    (front : List (Element V)) (e : Element V) (hi : Inv vlen c) (h : c.ll = front ++ [e]) :
    RemoveOldest vlen c =
      { c with
        ll := front,
        cache := c.cache.filter (fun x => x.1 ≠ e.kv.key),
        nbytes := Grpc.wrapInt (total vlen front),
        evicted :=
          if c.OnEvicted then c.evicted ++ [(e.kv.key, e.kv.value)] else c.evicted } := by
  obtain ⟨hp, _, _, _, _, hb⟩ := hi
  unfold RemoveOldest
  have hl : c.ll.getLast? = some e := by rw [h]; simp
  rw [hl]
  simp only
  have h1 : Remove c.ll e.ptr = front := by
    rw [h]
    rw [h] at hp
    exact Remove_last front e hp
  have h2 : Grpc.wrapInt (c.nbytes - Grpc.wrapInt ((len e.kv.key : Int) + vlen e.kv.value))
      = Grpc.wrapInt (total vlen front) := by
    rw [hb, wrapInt_wrap_sub, h, total_append, total_cons, total_nil]
    congr 1
    ring
  rw [h1, h2]

theorem Inv_RemoveOldest {V : Type} (vlen : V → Int) (c : Cache V) (hi : Inv vlen c) :
    Inv vlen (RemoveOldest vlen c) := by
  rcases List.eq_nil_or_concat c.ll with h | ⟨front, e, h⟩
  · rw [RemoveOldest_nil vlen c h]
    exact hi
  · rw [List.concat_eq_append] at h
    rw [RemoveOldest_last vlen c front e hi h]
    obtain ⟨hp, hk, hm, hmem, hf, _⟩ := hi
    rw [h] at hp hk hmem hf
    refine ⟨?_, ?_, ?_, ?_, ?_, rfl⟩
    · exact hp.sublist ((List.sublist_append_left front [e]).map _)
    · exact hk.sublist ((List.sublist_append_left front [e]).map _)
    · exact hm.sublist ((List.filter_sublist _).map _)
    · intro k p
      show (k, p) ∈ c.cache.filter (fun x => x.1 ≠ e.kv.key) ↔ ∃ x ∈ front, x.ptr = p ∧ x.kv.key = k
      rw [List.mem_filter, hmem k p]
      rw [List.map_append, List.nodup_append] at hk
      constructor
      · rintro ⟨⟨x, hx, hxp, hxk⟩, hne⟩
        rcases List.mem_append.1 hx with h1 | h1
        · exact ⟨x, h1, hxp, hxk⟩
        · simp only [List.mem_singleton] at h1
          subst h1
          simp [hxk] at hne
      · rintro ⟨x, hx, hxp, hxk⟩
        refine ⟨⟨x, List.mem_append_left _ hx, hxp, hxk⟩, ?_⟩
        have : k ≠ e.kv.key := by
          intro e1
          exact hk.2.2 (List.mem_map.2 ⟨x, hx, hxk⟩) (by rw [e1]; simp)
        simpa using this
    · intro x hx
      exact hf x (List.mem_append_left _ hx)
theorem Inv_perm {V : Type} (vlen : V → Int) (c : Cache V) (l : List (Element V))
    (hp : l.Perm c.ll) (hi : Inv vlen c) : Inv vlen { c with ll := l } := by
  obtain ⟨h1, h2, h3, h4, h5, h6⟩ := hi
  refine ⟨?_, ?_, h3, ?_, ?_, ?_⟩
  · exact ((hp.map _).nodup_iff).2 h1
  · exact ((hp.map _).nodup_iff).2 h2
  · intro k p
    rw [h4 k p]
    constructor
    · rintro ⟨e, he, h⟩; exact ⟨e, hp.mem_iff.2 he, h⟩
    · rintro ⟨e, he, h⟩; exact ⟨e, hp.mem_iff.1 he, h⟩
  · intro e he
    exact h5 e (hp.mem_iff.1 he)
  · show c.nbytes = Grpc.wrapInt (total vlen l)
    rw [h6]
    unfold total
    rw [(hp.map _).sum_eq]

theorem MoveToFront_split {V : Type} (l a b : List (Element V)) (e : Element V)
    (hn : (l.map (fun e => e.ptr)).Nodup) (h : l = a ++ e :: b) :
    l.find? (fun x => x.ptr = e.ptr) = some e ∧ MoveToFront l e.ptr = e :: (a ++ b) := by
  have hf := find_of_mem l e hn (by rw [h]; simp)
  refine ⟨hf, ?_⟩
  obtain ⟨_, a2, b2, hl, hfl⟩ := find_split l e.ptr e hn hf
  unfold MoveToFront
  rw [hf]
  simp only
  have : l.filter (fun x => x.ptr ≠ e.ptr) = a ++ b := by
    rw [h, List.filter_append, List.filter_cons_of_neg (by simp)]
    rw [h, List.map_append, List.map_cons, List.nodup_append, List.nodup_cons] at hn
    congr 1
    · rw [List.filter_eq_self]
      intro y hy
      have : y.ptr ≠ e.ptr := by
        intro e1
        exact hn.2.2 (List.mem_map.2 ⟨y, hy, rfl⟩) (by rw [e1]; simp)
      simpa using this
    · rw [List.filter_eq_self]
      intro y hy
      have : y.ptr ≠ e.ptr := by
        intro e1
        exact hn.2.1.1 (by rw [← e1]; exact List.mem_map.2 ⟨y, hy, rfl⟩)
      simpa using this
  rw [this]

theorem element_of_lookup {V : Type} (vlen : V → Int) (c : Cache V) (key : String) (p : Nat)
    (hi : Inv vlen c) (h : c.cache.lookup key = some p) :
    ∃ e a b, c.ll = a ++ e :: b ∧ e.ptr = p ∧ e.kv.key = key ∧
      c.ll.find? (fun x => x.ptr = p) = some e ∧ MoveToFront c.ll p = e :: (a ++ b) := by
  obtain ⟨e, he, hp, hk⟩ := (hi.2.2.2.1 key p).1 (lookup_mem _ _ _ h)
  obtain ⟨a, b, hl⟩ := List.append_of_mem he
  have := MoveToFront_split c.ll a b e hi.1 hl
  rw [hp] at this
  exact ⟨e, a, b, hl, hp, hk, this.1, this.2⟩

theorem Get_miss {V : Type} (c : Cache V) (key : String) (h : c.cache.lookup key = none) :
    Get c key = some (c, none) := by
  unfold Get
  rw [h]

theorem Get_hit {V : Type} (vlen : V → Int) (c : Cache V) (key : String) (p : Nat)
    (hi : Inv vlen c) (h : c.cache.lookup key = some p) :
    ∃ e a b, c.ll = a ++ e :: b ∧ e.ptr = p ∧ e.kv.key = key ∧
      Get c key = some ({ c with ll := e :: (a ++ b) }, some e.kv.value) := by
  obtain ⟨e, a, b, hl, hp, hk, hf, hm⟩ := element_of_lookup vlen c key p hi h
  refine ⟨e, a, b, hl, hp, hk, ?_⟩
  unfold Get
  rw [h]
  simp only
  rw [hf]
  simp only
  rw [hm]

theorem perm_front {V : Type} (a b : List (Element V)) (e : Element V) :
    (e :: (a ++ b)).Perm (a ++ e :: b) :=
  (List.perm_middle).symm

theorem Inv_Get {V : Type} (vlen : V → Int) (c c1 : Cache V) (key : String) (r : Option V)
    (hi : Inv vlen c) (h : Get c key = some (c1, r)) : Inv vlen c1 := by
  cases hl : c.cache.lookup key with
  | none =>
      rw [Get_miss c key hl] at h
      cases h
      exact hi
  | some p =>
      obtain ⟨e, a, b, hll, _, _, hg⟩ := Get_hit vlen c key p hi hl
      rw [hg] at h
      cases h
      exact Inv_perm vlen c _ (by rw [hll]; exact perm_front a b e) hi

theorem Get_returns {V : Type} (vlen : V → Int) (c : Cache V) (key : String)
    (hi : Inv vlen c) : ∃ x, Get c key = some x := by
  cases hl : c.cache.lookup key with
  | none => exact ⟨_, Get_miss c key hl⟩
  | some p =>
      obtain ⟨e, a, b, _, _, _, hg⟩ := Get_hit vlen c key p hi hl
      exact ⟨_, hg⟩

theorem store_new {V : Type} (vlen : V → Int) (c : Cache V) (key : String) (value : V)
    (h : c.cache.lookup key = none) :
    store vlen c key value =
      some { c with
        ll := ⟨c.fresh, ⟨key, value⟩⟩ :: c.ll,
        cache := (key, c.fresh) :: c.cache,
        nbytes := Grpc.wrapInt (c.nbytes + Grpc.wrapInt ((len key : Int) + vlen value)),
        fresh := c.fresh + 1 } := by
  unfold store
  rw [h]
  simp only
  have : c.cache.filter (fun x => x.1 ≠ key) = c.cache := by
    rw [List.filter_eq_self]
    intro x hx
    have hk := (lookup_none_iff c.cache key).1 h
    have : x.1 ≠ key := by
      intro e1
      exact hk (by rw [← e1]; exact List.mem_map.2 ⟨x, hx, rfl⟩)
    simpa using this
  rw [this]

theorem store_hit {V : Type} (vlen : V → Int) (c : Cache V) (key : String) (value : V)
    (p : Nat) (hi : Inv vlen c) (h : c.cache.lookup key = some p) :
    ∃ e a b, c.ll = a ++ e :: b ∧ e.ptr = p ∧ e.kv.key = key ∧
      store vlen c key value =
        some { c with
          ll := ⟨p, ⟨key, value⟩⟩ :: (a ++ b),
          nbytes := Grpc.wrapInt (total vlen (⟨p, ⟨key, value⟩⟩ :: (a ++ b))) } := by
  obtain ⟨e, a, b, hl, hp, hk, hf, hm⟩ := element_of_lookup vlen c key p hi h
  refine ⟨e, a, b, hl, hp, hk, ?_⟩
  unfold store
  rw [h]
  simp only
  rw [hf]
  simp only
  rw [hm]
  have hn := hi.1
  rw [hl, List.map_append, List.map_cons, List.nodup_append, List.nodup_cons] at hn
  have hmap : (e :: (a ++ b)).map (fun x =>
      if x.ptr = p then { x with kv := { x.kv with value := value } } else x)
      = ⟨p, ⟨key, value⟩⟩ :: (a ++ b) := by
    rw [List.map_cons, if_pos hp]
    congr 1
    · cases e with
      | mk ptr kv =>
          cases kv with
          | mk k v =>
              simp only at hp hk
              subst hp
              subst hk
              rfl
    · have : ∀ y ∈ a ++ b, y.ptr ≠ p := by
        intro y hy e1
        rcases List.mem_append.1 hy with h1 | h1
        · exact hn.2.2 (List.mem_map.2 ⟨y, h1, rfl⟩) (by rw [e1, ← hp]; simp)
        · exact hn.2.1.1 (by rw [hp, ← e1]; exact List.mem_map.2 ⟨y, h1, rfl⟩)
      calc (a ++ b).map (fun x =>
              if x.ptr = p then { x with kv := { x.kv with value := value } } else x)
          = (a ++ b).map id := by
            apply List.map_congr_left
            intro y hy
            rw [if_neg (this y hy)]
            rfl
        _ = a ++ b := List.map_id _
  rw [hmap]
  have hb : Grpc.wrapInt (c.nbytes + Grpc.wrapInt (vlen value - vlen e.kv.value))
      = Grpc.wrapInt (total vlen (⟨p, ⟨key, value⟩⟩ :: (a ++ b))) := by
    rw [hi.2.2.2.2.2, wrapInt_wrap_add, hl, total_append, total_cons, total_cons,
      total_append, hk]
    congr 1
    simp only
    ring
  rw [hb]

theorem Inv_store {V : Type} (vlen : V → Int) (c c1 : Cache V) (key : String) (value : V)
    (hi : Inv vlen c) (h : store vlen c key value = some c1) : Inv vlen c1 := by
  cases hl : c.cache.lookup key with
  | none =>
      rw [store_new vlen c key value hl] at h
      cases h
      obtain ⟨h1, h2, h3, h4, h5, h6⟩ := hi
      have hk := (lookup_none_iff c.cache key).1 hl
      refine ⟨?_, ?_, ?_, ?_, ?_, ?_⟩
      · show ((⟨c.fresh, ⟨key, value⟩⟩ :: c.ll).map (fun e => e.ptr)).Nodup
        rw [List.map_cons, List.nodup_cons]
        refine ⟨?_, h1⟩
        intro hm
        obtain ⟨y, hy, hyp⟩ := List.mem_map.1 hm
        have := h5 y hy
        simp only at hyp
        omega
      · show ((⟨c.fresh, ⟨key, value⟩⟩ :: c.ll).map (fun e => e.kv.key)).Nodup
        rw [List.map_cons, List.nodup_cons]
        refine ⟨?_, h2⟩
        intro hm
        obtain ⟨y, hy, hyk⟩ := List.mem_map.1 hm
        have := (h4 key y.ptr).2 ⟨y, hy, rfl, hyk⟩
        exact hk (List.mem_map.2 ⟨_, this, rfl⟩)
      · show (((key, c.fresh) :: c.cache).map Prod.fst).Nodup
        rw [List.map_cons, List.nodup_cons]
        exact ⟨hk, h3⟩
      · intro k p
        show (k, p) ∈ (key, c.fresh) :: c.cache ↔
          ∃ e ∈ (⟨c.fresh, ⟨key, value⟩⟩ : Element V) :: c.ll, e.ptr = p ∧ e.kv.key = k
        rw [List.mem_cons, h4 k p]
        constructor
        · rintro (h | ⟨e, he, h⟩)
          · cases h
            exact ⟨_, List.mem_cons_self _ _, rfl, rfl⟩
          · exact ⟨e, List.mem_cons_of_mem _ he, h⟩
        · rintro ⟨e, he, hp, hk2⟩
          rcases List.mem_cons.1 he with h | h
          · subst h
            simp only at hp hk2
            left
            rw [← hp, ← hk2]
          · exact Or.inr ⟨e, h, hp, hk2⟩
      · intro e he
        show e.ptr < c.fresh + 1
        rcases List.mem_cons.1 he with h | h
        · subst h
          exact Nat.lt_succ_self _
        · exact Nat.lt_succ_of_lt (h5 e h)
      · show Grpc.wrapInt (c.nbytes + Grpc.wrapInt ((len key : Int) + vlen value))
          = Grpc.wrapInt (total vlen (⟨c.fresh, ⟨key, value⟩⟩ :: c.ll))
        rw [h6, wrapInt_wrap_add, total_cons]
        congr 1
        simp only
        ring
  | some p =>
      obtain ⟨e, a, b, hll, hp, hk, hs⟩ := store_hit vlen c key value p hi hl
      rw [hs] at h
      cases h
      obtain ⟨h1, h2, h3, h4, h5, h6⟩ := hi
      rw [hll] at h1 h2 h4 h5
      have hperm := perm_front a b e
      refine ⟨?_, ?_, h3, ?_, ?_, rfl⟩
      · show ((⟨p, ⟨key, value⟩⟩ :: (a ++ b)).map (fun e => e.ptr)).Nodup
        have := ((hperm.map (fun e => e.ptr)).nodup_iff).2 h1
        rw [List.map_cons] at this ⊢
        rw [hp] at this
        exact this
      · show ((⟨p, ⟨key, value⟩⟩ :: (a ++ b)).map (fun e => e.kv.key)).Nodup
        have := ((hperm.map (fun e => e.kv.key)).nodup_iff).2 h2
        rw [List.map_cons] at this ⊢
        rw [hk] at this
        exact this
      · intro k q
        show (k, q) ∈ c.cache ↔
          ∃ x ∈ (⟨p, ⟨key, value⟩⟩ : Element V) :: (a ++ b), x.ptr = q ∧ x.kv.key = k
        rw [h4 k q]
        constructor
        · rintro ⟨x, hx, hxp, hxk⟩
          rcases List.mem_cons.1 (hperm.mem_iff.2 hx) with h | h
          · subst h
            exact ⟨_, List.mem_cons_self _ _, by rw [← hxp, hp], by rw [← hxk, hk]⟩
          · exact ⟨x, List.mem_cons_of_mem _ h, hxp, hxk⟩
        · rintro ⟨x, hx, hxp, hxk⟩
          rcases List.mem_cons.1 hx with h | h
          · subst h
            exact ⟨e, by simp, by rw [hp]; exact hxp, by rw [hk]; exact hxk⟩
          · exact ⟨x, hperm.mem_iff.1 (List.mem_cons_of_mem _ h), hxp, hxk⟩
      · intro x hx
        rcases List.mem_cons.1 hx with h | h
        · subst h
          show p < c.fresh
          rw [← hp]
          exact h5 e (by simp)
        · exact h5 x (hperm.mem_iff.1 (List.mem_cons_of_mem _ h))

theorem store_returns {V : Type} (vlen : V → Int) (c : Cache V) (key : String) (value : V)
    (hi : Inv vlen c) : ∃ c1, store vlen c key value = some c1 := by
  cases hl : c.cache.lookup key with
  | none => exact ⟨_, store_new vlen c key value hl⟩
  | some p =>
      obtain ⟨e, a, b, _, _, _, hs⟩ := store_hit vlen c key value p hi hl
      exact ⟨_, hs⟩
/-! ## The loop of `Add` -/

theorem RemoveOldest_maxBytes {V : Type} (vlen : V → Int) (c : Cache V) :
    (RemoveOldest vlen c).maxBytes = c.maxBytes := by
  unfold RemoveOldest
  cases c.ll.getLast? <;> rfl

theorem RemoveOldest_length {V : Type} (vlen : V → Int) (c : Cache V) (h : c.ll ≠ []) :
    (RemoveOldest vlen c).ll.length < c.ll.length := by
  rcases List.eq_nil_or_concat c.ll with h1 | ⟨front, e, h1⟩
  · exact absurd h1 h
  · rw [List.concat_eq_append] at h1
    unfold RemoveOldest
    have hl : c.ll.getLast? = some e := by rw [h1]; simp
    rw [hl]
    show (Remove c.ll e.ptr).length < c.ll.length
    unfold Remove
    rw [h1, List.filter_append, List.length_append, List.length_append]
    have h2 : ([e].filter (fun x => decide (x.ptr ≠ e.ptr))).length = 0 := by simp
    have h3 := List.length_filter_le (fun x : Element V => decide (x.ptr ≠ e.ptr)) front
    rw [h2]
    simp only [List.length_singleton]
    omega

theorem evictLoop_succ {V : Type} (vlen : V → Int) (fuel : Nat) (c : Cache V) :
    evictLoop vlen (fuel + 1) c =
      if over c then evictLoop vlen fuel (RemoveOldest vlen c) else some c := rfl

theorem evictLoop_spin {V : Type} (vlen : V → Int) (c : Cache V) (hl : c.ll = [])
    (ho : over c) : ∀ fuel, evictLoop vlen fuel c = none := by
  intro fuel
  induction fuel with
  | zero => rfl
  | succ n ih => rw [evictLoop_succ, if_pos ho, RemoveOldest_nil vlen c hl, ih]

theorem evictLoop_none {V : Type} (vlen : V → Int) :
    ∀ (fuel : Nat) (c : Cache V), evictLoop vlen fuel c = none → c.ll.length < fuel →
      ∀ n, evictLoop vlen n c = none := by
  intro fuel
  induction fuel with
  | zero => intro c _ hlt; omega
  | succ f ih =>
      intro c h hlt n
      rw [evictLoop_succ] at h
      by_cases ho : over c
      · rw [if_pos ho] at h
        by_cases hl : c.ll = []
        · exact evictLoop_spin vlen c hl ho n
        · have := RemoveOldest_length vlen c hl
          have hr := ih (RemoveOldest vlen c) h (by omega)
          cases n with
          | zero => rfl
          | succ m => rw [evictLoop_succ, if_pos ho, hr m]
      · rw [if_neg ho] at h
        cases h

theorem evictLoop_inv {V : Type} (vlen : V → Int) :
    ∀ (fuel : Nat) (c c1 : Cache V), evictLoop vlen fuel c = some c1 → Inv vlen c →
      Inv vlen c1 := by
  intro fuel
  induction fuel with
  | zero => intro c c1 h; cases h
  | succ f ih =>
      intro c c1 h hi
      rw [evictLoop_succ] at h
      by_cases ho : over c
      · rw [if_pos ho] at h
        exact ih _ _ h (Inv_RemoveOldest vlen c hi)
      · rw [if_neg ho] at h
        cases h
        exact hi

theorem evictLoop_spec {V : Type} (vlen : V → Int) :
    ∀ (fuel : Nat) (c c1 : Cache V), evictLoop vlen fuel c = some c1 →
      ¬ over c1 ∧ ∃ n, c1 = (RemoveOldest vlen)^[n] c ∧
        ∀ m, m < n → over ((RemoveOldest vlen)^[m] c) := by
  intro fuel
  induction fuel with
  | zero => intro c c1 h; cases h
  | succ f ih =>
      intro c c1 h
      rw [evictLoop_succ] at h
      by_cases ho : over c
      · rw [if_pos ho] at h
        obtain ⟨h1, n, h2, h3⟩ := ih _ _ h
        refine ⟨h1, n + 1, ?_, ?_⟩
        · rw [Function.iterate_succ_apply]
          exact h2
        · intro m hm
          cases m with
          | zero => exact ho
          | succ k =>
              rw [Function.iterate_succ_apply]
              exact h3 k (by omega)
      · rw [if_neg ho] at h
        cases h
        exact ⟨ho, 0, rfl, fun m hm => by omega⟩

theorem evictLoop_returns {V : Type} (vlen : V → Int) :
    ∀ (fuel : Nat) (c : Cache V), Inv vlen c → 0 ≤ c.maxBytes → c.ll.length < fuel →
      ∃ c1, evictLoop vlen fuel c = some c1 := by
  intro fuel
  induction fuel with
  | zero => intro c _ _ hlt; omega
  | succ f ih =>
      intro c hi hm hlt
      rw [evictLoop_succ]
      by_cases ho : over c
      · rw [if_pos ho]
        have hl : c.ll ≠ [] := by
          intro hl
          have hb := hi.2.2.2.2.2
          rw [hl, total_nil, wrapInt_zero] at hb
          unfold over at ho
          rw [hb] at ho
          omega
        have := RemoveOldest_length vlen c hl
        exact ih _ (Inv_RemoveOldest vlen c hi)
          (by rw [RemoveOldest_maxBytes]; exact hm) (by omega)
      · rw [if_neg ho]
        exact ⟨c, rfl⟩

theorem iterate_RemoveOldest {V : Type} (vlen : V → Int) :
    ∀ (n : Nat) (c : Cache V), Inv vlen c →
      Inv vlen ((RemoveOldest vlen)^[n] c) ∧
      ((RemoveOldest vlen)^[n] c).ll = c.ll.take (c.ll.length - n) ∧
      ((RemoveOldest vlen)^[n] c).maxBytes = c.maxBytes ∧
      ((RemoveOldest vlen)^[n] c).OnEvicted = c.OnEvicted := by
  intro n
  induction n with
  | zero =>
      intro c hi
      exact ⟨hi, by simp, rfl, rfl⟩
  | succ k ih =>
      intro c hi
      rw [Function.iterate_succ_apply]
      obtain ⟨h1, h2, h3, h4⟩ := ih (RemoveOldest vlen c) (Inv_RemoveOldest vlen c hi)
      refine ⟨h1, ?_, ?_, ?_⟩
      · rw [h2]
        rcases List.eq_nil_or_concat c.ll with h | ⟨front, e, h⟩
        · rw [RemoveOldest_nil vlen c h, h]
          simp
        · rw [List.concat_eq_append] at h
          rw [RemoveOldest_last vlen c front e hi h, h]
          simp only [List.length_append, List.length_singleton]
          rw [List.take_append_of_le_length (by omega)]
          congr 1
          omega
      · rw [h3, RemoveOldest_maxBytes]
      · rw [h4]
        unfold RemoveOldest
        cases c.ll.getLast? <;> rfl

theorem Inv_Add {V : Type} (vlen : V → Int) (c c1 : Cache V) (key : String) (value : V)
    (hi : Inv vlen c) (h : Add vlen c key value = some c1) : Inv vlen c1 := by
  unfold Add at h
  cases hs : store vlen c key value with
  | none => rw [hs] at h; cases h
  | some c0 =>
      rw [hs] at h
      exact evictLoop_inv vlen _ _ _ h (Inv_store vlen c c0 key value hi hs)

theorem store_maxBytes {V : Type} (vlen : V → Int) (c c1 : Cache V) (key : String)
    (value : V) (h : store vlen c key value = some c1) : c1.maxBytes = c.maxBytes := by
  unfold store at h
  cases hl : c.cache.lookup key with
  | none =>
      rw [hl] at h
      cases h
      rfl
  | some p =>
      rw [hl] at h
      simp only at h
      cases hf : c.ll.find? (fun e => e.ptr = p) with
      | none => rw [hf] at h; cases h
      | some e =>
          rw [hf] at h
          cases h
          rfl

theorem Add_returns {V : Type} (vlen : V → Int) (c : Cache V) (key : String) (value : V)
    (hi : Inv vlen c) (hm : 0 ≤ c.maxBytes) : ∃ c1, Add vlen c key value = some c1 := by
  obtain ⟨c0, hs⟩ := store_returns vlen c key value hi
  unfold Add
  rw [hs]
  exact evictLoop_returns vlen _ c0 (Inv_store vlen c c0 key value hi hs)
    (by rw [store_maxBytes vlen c c0 key value hs]; exact hm) (Nat.lt_succ_self _)

/-! ## States reached from `New` -/

theorem run_inv {V : Type} (vlen : V → Int) :
    ∀ (ops : List (Op V)) (c c1 : Cache V), run vlen ops c = some c1 → Inv vlen c →
      Inv vlen c1 := by
  intro ops
  induction ops with
  | nil =>
      intro c c1 h hi
      cases h
      exact hi
  | cons op rest ih =>
      intro c c1 h hi
      unfold run at h
      cases ho : op.run vlen c with
      | none => rw [ho] at h; cases h
      | some c0 =>
          rw [ho] at h
          refine ih c0 c1 h ?_
          cases op with
          | add key value => exact Inv_Add vlen c c0 key value hi ho
          | get key =>
              change (Get c key).map Prod.fst = some c0 at ho
              cases hg : Get c key with
              | none => rw [hg] at ho; cases ho
              | some x =>
                  rw [hg] at ho
                  cases ho
                  exact Inv_Get vlen c x.1 key x.2 hi hg
          | removeOldest =>
              cases ho
              exact Inv_RemoveOldest vlen c hi

theorem run_append {V : Type} (vlen : V → Int) (ops1 ops2 : List (Op V)) (c : Cache V) :
    run vlen (ops1 ++ ops2) c = (run vlen ops1 c).bind (run vlen ops2) := by
  induction ops1 generalizing c with
  | nil => rfl
  | cons op rest ih =>
      show (op.run vlen c).bind (run vlen (rest ++ ops2)) = _
      cases ho : op.run vlen c with
      | none => simp [run, ho]
      | some c0 => simp [run, ho, ih]
theorem run_snoc {V : Type} (vlen : V → Int) (ops : List (Op V)) (op : Op V) (c c1 : Cache V)
    (h : run vlen (ops ++ [op]) c = some c1) :
    ∃ c0, run vlen ops c = some c0 ∧ op.run vlen c0 = some c1 := by
  rw [run_append] at h
  cases h0 : run vlen ops c with
  | none => rw [h0] at h; cases h
  | some c0 =>
      rw [h0] at h
      refine ⟨c0, rfl, ?_⟩
      change (op.run vlen c0).bind (run vlen []) = some c1 at h
      cases h1 : op.run vlen c0 with
      | none => rw [h1] at h; cases h
      | some c2 =>
          rw [h1] at h
          exact h

theorem run_maxBytes {V : Type} (vlen : V → Int) :
    ∀ (ops : List (Op V)) (c c1 : Cache V), run vlen ops c = some c1 →
      c1.maxBytes = c.maxBytes ∧ c1.OnEvicted = c.OnEvicted := by
  intro ops
  induction ops with
  | nil =>
      intro c c1 h
      cases h
      exact ⟨rfl, rfl⟩
  | cons op rest ih =>
      intro c c1 h
      unfold run at h
      cases ho : op.run vlen c with
      | none => rw [ho] at h; cases h
      | some c0 =>
          rw [ho] at h
          obtain ⟨h1, h2⟩ := ih c0 c1 h
          rw [h1, h2]
          cases op with
          | add key value =>
              change Add vlen c key value = some c0 at ho
              unfold Add at ho
              cases hs : store vlen c key value with
              | none => rw [hs] at ho; cases ho
              | some cs =>
                  rw [hs] at ho
                  obtain ⟨_, n, hn, _⟩ := evictLoop_spec vlen _ _ _ ho
                  have hfix : ∀ (m : Nat) (x : Cache V),
                      ((RemoveOldest vlen)^[m] x).maxBytes = x.maxBytes ∧
                      ((RemoveOldest vlen)^[m] x).OnEvicted = x.OnEvicted := by
                    intro m
                    induction m with
                    | zero => intro x; exact ⟨rfl, rfl⟩
                    | succ k ihk =>
                        intro x
                        rw [Function.iterate_succ_apply]
                        obtain ⟨a1, a2⟩ := ihk (RemoveOldest vlen x)
                        rw [a1, a2]
                        unfold RemoveOldest
                        cases x.ll.getLast? <;> exact ⟨rfl, rfl⟩
                  rw [hn, (hfix n cs).1, (hfix n cs).2]
                  unfold store at hs
                  cases hl : c.cache.lookup key with
                  | none =>
                      rw [hl] at hs
                      cases hs
                      exact ⟨rfl, rfl⟩
                  | some p =>
                      rw [hl] at hs
                      simp only at hs
                      cases hf : c.ll.find? (fun e => e.ptr = p) with
                      | none => rw [hf] at hs; cases hs
                      | some e =>
                          rw [hf] at hs
                          cases hs
                          exact ⟨rfl, rfl⟩
          | get key =>
              change (Get c key).map Prod.fst = some c0 at ho
              unfold Get at ho
              cases hl : c.cache.lookup key with
              | none =>
                  rw [hl] at ho
                  cases ho
                  exact ⟨rfl, rfl⟩
              | some p =>
                  rw [hl] at ho
                  simp only at ho
                  cases hf : c.ll.find? (fun e => e.ptr = p) with
                  | none => rw [hf] at ho; cases ho
                  | some e =>
                      rw [hf] at ho
                      cases ho
                      exact ⟨rfl, rfl⟩
          | removeOldest =>
              cases ho
              unfold RemoveOldest
              cases c.ll.getLast? <;> exact ⟨rfl, rfl⟩

theorem reached_inv {V : Type} (vlen : V → Int) (maxBytes : Int) (onEvicted : Bool)
    (ops : List (Op V)) (c : Cache V) (h : run vlen ops (New maxBytes onEvicted) = some c) :
    Inv vlen c ∧ c.maxBytes = maxBytes ∧ c.OnEvicted = onEvicted :=
  ⟨run_inv vlen ops _ c h (Inv_New vlen maxBytes onEvicted),
    (run_maxBytes vlen ops _ c h).1, (run_maxBytes vlen ops _ c h).2⟩

theorem run_returns {V : Type} (vlen : V → Int) :
    ∀ (ops : List (Op V)) (c : Cache V), Inv vlen c → 0 ≤ c.maxBytes →
      ∃ c1, run vlen ops c = some c1 := by
  intro ops
  induction ops with
  | nil => intro c _ _; exact ⟨c, rfl⟩
  | cons op rest ih =>
      intro c hi hm
      have step : ∃ c0, op.run vlen c = some c0 := by
        cases op with
        | add key value => exact Add_returns vlen c key value hi hm
        | get key =>
            obtain ⟨x, hx⟩ := Get_returns vlen c key hi
            exact ⟨x.1, by change (Get c key).map Prod.fst = _; rw [hx]; rfl⟩
        | removeOldest => exact ⟨_, rfl⟩
      obtain ⟨c0, h0⟩ := step
      have h1 : run vlen [op] c = some c0 := by
        change (op.run vlen c).bind (run vlen []) = some c0
        rw [h0]
        rfl
      obtain ⟨c1, hc1⟩ := ih c0 (run_inv vlen [op] c c0 h1 hi)
        (by rw [(run_maxBytes vlen [op] c c0 h1).1]; exact hm)
      refine ⟨c1, ?_⟩
      unfold run
      rw [h0]
      exact hc1
/-! ## The invariants of the cache (C27) -/

/-- C27.  In every state reached from `New` by calls of `Add`, `Get` and
`RemoveOldest`: the keys of the map are exactly the keys of the entries of
the list, and the map gives a key the element that holds it; no key is twice
in the list; `Len()` is the number of keys of the map and the number of
distinct keys of the list; `nbytes` is the sum over the entries of
`len(key) + value.Len()` in `int64` arithmetic, which is that sum itself, and
not negative, when no `Len()` is negative and the sum is below `2^63`; it is
0 when the cache is empty, as it is after `New`. -/
theorem C27_invariants {V : Type} (vlen : V → Int) (maxBytes : Int) (onEvicted : Bool)
    (ops : List (Op V)) (c : Cache V)
    (h : run vlen ops (New maxBytes onEvicted) = some c) :
    (∀ k, k ∈ c.cache.map Prod.fst ↔ k ∈ c.ll.map (fun e => e.kv.key)) ∧
    (∀ k p, c.cache.lookup k = some p ↔ ∃ e ∈ c.ll, e.ptr = p ∧ e.kv.key = k) ∧
    (c.ll.map (fun e => e.kv.key)).Nodup ∧
    c.Len = (c.cache.map Prod.fst).length ∧
    c.Len = (c.ll.map (fun e => e.kv.key)).dedup.length ∧
    c.nbytes = Grpc.wrapInt (total vlen c.ll) ∧
    ((∀ e ∈ c.ll, 0 ≤ vlen e.kv.value) → total vlen c.ll < 2 ^ 63 →
      c.nbytes = total vlen c.ll ∧ 0 ≤ c.nbytes) ∧
    (c.ll = [] → c.nbytes = 0) ∧
    (New maxBytes onEvicted : Cache V).nbytes = 0 := by
  obtain ⟨h1, h2, h3, h4, h5, h6⟩ :=
    run_inv vlen ops _ c h (Inv_New vlen maxBytes onEvicted)
  have hkeys : ∀ k, k ∈ c.cache.map Prod.fst ↔ k ∈ c.ll.map (fun e => e.kv.key) := by
    intro k
    constructor
    · intro hk
      obtain ⟨x, hx, hxk⟩ := List.mem_map.1 hk
      obtain ⟨e, he, _, hek⟩ := (h4 x.1 x.2).1 hx
      exact List.mem_map.2 ⟨e, he, by rw [← hxk]; exact hek⟩
    · intro hk
      obtain ⟨e, he, hek⟩ := List.mem_map.1 hk
      have := (h4 k e.ptr).2 ⟨e, he, rfl, hek⟩
      exact List.mem_map.2 ⟨_, this, rfl⟩
  have hnonneg : ∀ l : List (Element V), (∀ e ∈ l, 0 ≤ vlen e.kv.value) → 0 ≤ total vlen l := by
    intro l
    induction l with
    | nil => intro _; exact le_refl _
    | cons e rest ih =>
        intro hl
        rw [total_cons]
        have := hl e (List.mem_cons_self _ _)
        have := ih (fun x hx => hl x (List.mem_cons_of_mem _ hx))
        have : (0 : Int) ≤ (len e.kv.key : Int) := Int.natCast_nonneg _
        omega
  refine ⟨hkeys, ?_, h2, ?_, ?_, h6, ?_, ?_, rfl⟩
  · intro k p
    rw [← h4 k p]
    exact ⟨lookup_mem _ _ _, lookup_of_mem _ _ _ h3⟩
  · have hp : (c.cache.map Prod.fst).Perm (c.ll.map (fun e => e.kv.key)) :=
      (List.perm_ext_iff_of_nodup h3 h2).2 hkeys
    have := hp.length_eq
    rw [List.length_map, List.length_map] at this
    show c.ll.length = (c.cache.map Prod.fst).length
    rw [List.length_map]
    exact this.symm
  · show c.ll.length = _
    rw [h2.dedup, List.length_map]
  · intro hv hr
    have h0 := hnonneg c.ll hv
    rw [h6, wrapInt_range _ h0 hr]
    exact ⟨rfl, h0⟩
  · intro hl
    rw [h6, hl, total_nil, wrapInt_zero]

/-- An instance of C27: two entries, the first one read and then written
again. -/
theorem C27_invariants_witness :
    run strLen [Op.add "a" "1", Op.add "b" "22", Op.get "a", Op.add "a" "333"] (New 0 false)
      = some twoEntries ∧
    twoEntries.nbytes = Grpc.wrapInt (total strLen twoEntries.ll) :=
  ⟨by decide,
    (C27_invariants strLen 0 false
      [Op.add "a" "1", Op.add "b" "22", Op.get "a", Op.add "a" "333"] twoEntries
      (by decide)).2.2.2.2.2.1⟩
/-! ## The bound on `nbytes` after `Add` (C25) -/

theorem store_shape {V : Type} (vlen : V → Int) (c c0 : Cache V) (key : String) (value : V)
    (hi : Inv vlen c) (h : store vlen c key value = some c0) :
    c0.evicted = c.evicted ∧ c0.OnEvicted = c.OnEvicted ∧
    ∃ p rest, c0.ll = ⟨p, ⟨key, value⟩⟩ :: rest ∧ rest.Sublist c.ll ∧
      ∀ x, x ∈ rest ↔ x ∈ c.ll ∧ x.kv.key ≠ key := by
  cases hl : c.cache.lookup key with
  | none =>
      rw [store_new vlen c key value hl] at h
      cases h
      refine ⟨rfl, rfl, c.fresh, c.ll, rfl, List.Sublist.refl _, ?_⟩
      intro x
      constructor
      · intro hx
        refine ⟨hx, ?_⟩
        intro hk
        have := (hi.2.2.2.1 key x.ptr).2 ⟨x, hx, rfl, hk⟩
        exact (lookup_none_iff c.cache key).1 hl (List.mem_map.2 ⟨_, this, rfl⟩)
      · intro hx
        exact hx.1
  | some p =>
      obtain ⟨e, a, b, hll, hp, hk, hs⟩ := store_hit vlen c key value p hi hl
      rw [hs] at h
      cases h
      refine ⟨rfl, rfl, p, a ++ b, rfl, ?_, ?_⟩
      · rw [hll]
        exact List.Sublist.append (List.Sublist.refl _) (List.sublist_cons_self _ _)
      · intro x
        have hn := hi.2.1
        rw [hll, List.map_append, List.map_cons, List.nodup_append, List.nodup_cons] at hn
        rw [hll]
        constructor
        · intro hx
          rcases List.mem_append.1 hx with h1 | h1
          · refine ⟨List.mem_append_left _ h1, ?_⟩
            intro e1
            exact hn.2.2 (List.mem_map.2 ⟨x, h1, rfl⟩) (by rw [e1, ← hk]; simp)
          · refine ⟨List.mem_append_right _ (List.mem_cons_of_mem _ h1), ?_⟩
            intro e1
            exact hn.2.1.1 (by rw [hk, ← e1]; exact List.mem_map.2 ⟨x, h1, rfl⟩)
        · rintro ⟨hx, hne⟩
          rcases List.mem_append.1 hx with h1 | h1
          · exact List.mem_append_left _ h1
          · rcases List.mem_cons.1 h1 with h2 | h2
            · subst h2
              exact absurd hk hne
            · exact List.mem_append_right _ h2

/-- C25.  In every state reached from `New`, for every key and value: when
`maxBytes > 0`, `Add` returns and then `nbytes <= maxBytes`; the list
afterwards is what the first statement of `Add` left without its last `n`
elements, for the number `n` of calls of `RemoveOldest`, before each of which
`nbytes` was still above `maxBytes`.  When `maxBytes = 0`, `Add` returns what
its first statement left: no call of the callback, and every key of the cache
is still there.  With `maxBytes = 2`, `Add("key", "value")` on the new cache
evicts the entry it has just added. -/
theorem C25_Add_bound {V : Type} (vlen : V → Int) (maxBytes : Int) (onEvicted : Bool)
    (ops : List (Op V)) (c : Cache V) (key : String) (value : V)
    (h : run vlen ops (New maxBytes onEvicted) = some c) :
    (0 < maxBytes →
      ∃ c0 c1 n, store vlen c key value = some c0 ∧ Add vlen c key value = some c1 ∧
        c1.nbytes ≤ maxBytes ∧ c1.maxBytes = maxBytes ∧
        c1 = (RemoveOldest vlen)^[n] c0 ∧
        c1.ll = c0.ll.take (c0.ll.length - n) ∧
        ∀ m, m < n → maxBytes < ((RemoveOldest vlen)^[m] c0).nbytes) ∧
    (maxBytes = 0 →
      ∃ c0, store vlen c key value = some c0 ∧ Add vlen c key value = some c0 ∧
        c0.evicted = c.evicted ∧
        key ∈ c0.ll.map (fun e => e.kv.key) ∧
        ∀ k, k ∈ c.ll.map (fun e => e.kv.key) → k ∈ c0.ll.map (fun e => e.kv.key)) ∧
    Add strLen (New 2 true) "key" "value" = some evictedAll := by
  obtain ⟨hi, hmax, _⟩ := reached_inv vlen maxBytes onEvicted ops c h
  obtain ⟨c0, hs⟩ := store_returns vlen c key value hi
  have hi0 := Inv_store vlen c c0 key value hi hs
  have hm0 : c0.maxBytes = maxBytes := by rw [store_maxBytes vlen c c0 key value hs, hmax]
  refine ⟨?_, ?_, by decide⟩
  · intro hpos
    obtain ⟨c1, ha⟩ := Add_returns vlen c key value hi (by rw [hmax]; omega)
    have he : evictLoop vlen (c0.ll.length + 1) c0 = some c1 := by
      unfold Add at ha
      rw [hs] at ha
      exact ha
    obtain ⟨hno, n, hn, hbefore⟩ := evictLoop_spec vlen _ _ _ he
    have hit := iterate_RemoveOldest vlen n c0 hi0
    rw [← hn] at hit
    have hm1 : c1.maxBytes = maxBytes := by rw [hit.2.2.1, hm0]
    refine ⟨c0, c1, n, hs, ha, ?_, hm1, hn, hit.2.1, ?_⟩
    · unfold over at hno
      rw [hm1] at hno
      by_contra hc
      exact hno ⟨by omega, by omega⟩
    · intro m hm
      have := (hbefore m hm).2
      rw [(iterate_RemoveOldest vlen m c0 hi0).2.2.1, hm0] at this
      exact this
  · intro hz
    have hno : ¬ over c0 := by
      unfold over
      rw [hm0, hz]
      simp
    have ha : Add vlen c key value = some c0 := by
      unfold Add
      rw [hs]
      show evictLoop vlen (c0.ll.length + 1) c0 = some c0
      rw [evictLoop_succ, if_neg hno]
    obtain ⟨hev, _, p, rest, hll, _, hrest⟩ := store_shape vlen c c0 key value hi hs
    refine ⟨c0, hs, ha, hev, ?_, ?_⟩
    · rw [hll]
      simp
    · intro k hk
      obtain ⟨x, hx, hxk⟩ := List.mem_map.1 hk
      rw [hll, List.map_cons, List.mem_cons]
      by_cases hkk : x.kv.key = key
      · left
        rw [← hxk, hkk]
      · right
        exact List.mem_map.2 ⟨x, (hrest x).2 ⟨hx, hkk⟩, hxk⟩

/-- An instance of C25: with room for 10 bytes the third entry evicts the
first. -/
theorem C25_Add_bound_witness :
    run strLen [Op.add "a" "1111", Op.add "b" "2222"] (New 10 false) = some fullCache ∧
    (0 : Int) < 10 ∧
    (∃ c0 c1 n,
        store strLen fullCache "c" "3333" = some c0 ∧
        Add strLen fullCache "c" "3333" = some c1 ∧
        c1.nbytes ≤ 10 ∧ c1.maxBytes = 10 ∧
        c1 = (RemoveOldest strLen)^[n] c0 ∧
        c1.ll = c0.ll.take (c0.ll.length - n) ∧
        ∀ m, m < n → 10 < ((RemoveOldest strLen)^[m] c0).nbytes) :=
  ⟨by decide, by decide,
    (C25_Add_bound strLen 10 false [Op.add "a" "1111", Op.add "b" "2222"] fullCache
      "c" "3333" (by decide)).1 (by decide)⟩
/-! ## The loop of `Add` with a negative `maxBytes` (C30) -/

theorem total_nonneg {V : Type} (vlen : V → Int) (l : List (Element V))
    (h : ∀ e ∈ l, 0 ≤ vlen e.kv.value) : 0 ≤ total vlen l := by
  induction l with
  | nil => exact le_refl _
  | cons e rest ih =>
      rw [total_cons]
      have := h e (List.mem_cons_self _ _)
      have := ih (fun x hx => h x (List.mem_cons_of_mem _ hx))
      have : (0 : Int) ≤ (len e.kv.key : Int) := Int.natCast_nonneg _
      omega

theorem evictLoop_negative {V : Type} (vlen : V → Int) :
    ∀ (n : Nat) (c : Cache V), c.ll.length = n → Inv vlen c → c.maxBytes < 0 →
      (∀ e ∈ c.ll, 0 ≤ vlen e.kv.value) → total vlen c.ll < 2 ^ 63 →
      ∀ fuel, evictLoop vlen fuel c = none := by
  intro n
  induction n with
  | zero =>
      intro c hlen hi hm _ _
      have hl : c.ll = [] := List.length_eq_zero.1 hlen
      apply evictLoop_spin vlen c hl
      have hb := hi.2.2.2.2.2
      rw [hl, total_nil, wrapInt_zero] at hb
      unfold over
      rw [hb]
      omega
  | succ k ih =>
      intro c hlen hi hm hv hr fuel
      have h0 := total_nonneg vlen c.ll hv
      have ho : over c := by
        unfold over
        rw [hi.2.2.2.2.2, wrapInt_range _ h0 hr]
        omega
      cases fuel with
      | zero => rfl
      | succ f =>
          rw [evictLoop_succ, if_pos ho]
          rcases List.eq_nil_or_concat c.ll with h | ⟨front, e, h⟩
          · rw [h] at hlen
            simp at hlen
          · rw [List.concat_eq_append] at h
            have hlast := RemoveOldest_last vlen c front e hi h
            have hi1 := Inv_RemoveOldest vlen c hi
            rw [hlast] at hi1 ⊢
            apply ih _ _ hi1 hm
            · intro x hx
              exact hv x (by rw [h]; exact List.mem_append_left _ hx)
            · show total vlen front < 2 ^ 63
              rw [h, total_append, total_cons, total_nil] at hr
              have := hv e (by rw [h]; simp)
              have : (0 : Int) ≤ (len e.kv.key : Int) := Int.natCast_nonneg _
              omega
            · show front.length = k
              rw [h, List.length_append] at hlen
              simp at hlen
              exact hlen

theorem total_sublist_le {V : Type} (vlen : V → Int) (l1 l2 : List (Element V))
    (hs : l1.Sublist l2) (h : ∀ e ∈ l2, 0 ≤ vlen e.kv.value) :
    total vlen l1 ≤ total vlen l2 := by
  induction hs with
  | slnil => exact le_refl _
  | cons a _ ih =>
      rw [total_cons]
      have := ih (fun e he => h e (List.mem_cons_of_mem _ he))
      have := h a (List.mem_cons_self _ _)
      have : (0 : Int) ≤ (len a.kv.key : Int) := Int.natCast_nonneg _
      omega
  | cons₂ a _ ih =>
      rw [total_cons, total_cons]
      have := ih (fun e he => h e (List.mem_cons_of_mem _ he))
      omega

/-- C30, as stated, fails for a negative `maxBytes`.  On `New(-1, nil)` the
first statement of `Add("k", "v")` stores the entry, `nbytes` is 2, and the
loop never ends: whatever number of tests of its condition it is given, the
condition still holds at the last of them. -/
theorem C30_counterexample :
    store strLen (New (-1) false) "k" "v" = some spinning ∧
    (∀ fuel, evictLoop strLen fuel spinning = none) ∧
    Add strLen (New (-1) false) "k" "v" = none :=
  ⟨by decide,
    evictLoop_none strLen 2 spinning (by decide) (by decide),
    by decide⟩

/-- C30 (amended).  In every state reached from `New`, for every key and
value: when `maxBytes >= 0`, `Add` returns, after at most as many calls of
`RemoveOldest` as the list has elements once the entry is stored.  When
`maxBytes < 0`, no `Len()` is negative and the sizes add up to less than
`2^63`, the loop of `Add` never ends: when the list has become empty `nbytes`
is 0, which is above `maxBytes`, and `RemoveOldest` changes nothing. -/
theorem C30_Add_terminates {V : Type} (vlen : V → Int) (maxBytes : Int) (onEvicted : Bool)
    (ops : List (Op V)) (c : Cache V) (key : String) (value : V)
    (h : run vlen ops (New maxBytes onEvicted) = some c) :
    (0 ≤ maxBytes →
      ∃ c0 c1 n, store vlen c key value = some c0 ∧ Add vlen c key value = some c1 ∧
        c1 = (RemoveOldest vlen)^[n] c0 ∧ n ≤ c0.ll.length) ∧
    (maxBytes < 0 → (∀ e ∈ c.ll, 0 ≤ vlen e.kv.value) → 0 ≤ vlen value →
      total vlen c.ll + (len key : Int) + vlen value < 2 ^ 63 →
      ∃ c0, store vlen c key value = some c0 ∧ (∀ fuel, evictLoop vlen fuel c0 = none) ∧
        Add vlen c key value = none) := by
  obtain ⟨hi, hmax, _⟩ := reached_inv vlen maxBytes onEvicted ops c h
  obtain ⟨c0, hs⟩ := store_returns vlen c key value hi
  have hi0 := Inv_store vlen c c0 key value hi hs
  have hm0 : c0.maxBytes = maxBytes := by rw [store_maxBytes vlen c c0 key value hs, hmax]
  constructor
  · intro hpos
    obtain ⟨c1, ha⟩ := Add_returns vlen c key value hi (by rw [hmax]; exact hpos)
    have he : evictLoop vlen (c0.ll.length + 1) c0 = some c1 := by
      unfold Add at ha
      rw [hs] at ha
      exact ha
    obtain ⟨_, n, hn, hbefore⟩ := evictLoop_spec vlen _ _ _ he
    refine ⟨c0, c1, n, hs, ha, hn, ?_⟩
    by_contra hgt
    have hover := hbefore c0.ll.length (by omega)
    obtain ⟨hiM, hllM, hmM, _⟩ := iterate_RemoveOldest vlen c0.ll.length c0 hi0
    have hb := hiM.2.2.2.2.2
    rw [hllM, Nat.sub_self, List.take_zero, total_nil, wrapInt_zero] at hb
    unfold over at hover
    rw [hmM, hm0, hb] at hover
    omega
  · intro hneg hv hval hr
    obtain ⟨_, _, p, rest, hll, hsub, _⟩ := store_shape vlen c c0 key value hi hs
    have hv0 : ∀ e ∈ c0.ll, 0 ≤ vlen e.kv.value := by
      intro e he
      rw [hll] at he
      rcases List.mem_cons.1 he with h1 | h1
      · rw [h1]
        exact hval
      · exact hv e (hsub.subset h1)
    have hr0 : total vlen c0.ll < 2 ^ 63 := by
      rw [hll, total_cons]
      have := total_sublist_le vlen rest c.ll hsub hv
      simp only
      omega
    have hspin := evictLoop_negative vlen c0.ll.length c0 rfl hi0 (by rw [hm0]; exact hneg)
      hv0 hr0
    refine ⟨c0, hs, hspin, ?_⟩
    unfold Add
    rw [hs]
    exact hspin _

/-- An instance of C30: with room for 10 bytes, `Add("c", "3333")` on the full
cache returns. -/
theorem C30_Add_terminates_witness :
    run strLen [Op.add "a" "1111", Op.add "b" "2222"] (New 10 false) = some fullCache ∧
    (0 : Int) ≤ 10 ∧
    ∃ c0 c1 n, store strLen fullCache "c" "3333" = some c0 ∧
      Add strLen fullCache "c" "3333" = some c1 ∧
      c1 = (RemoveOldest strLen)^[n] c0 ∧ n ≤ c0.ll.length :=
  ⟨by decide, by decide,
    (C30_Add_terminates strLen 10 false [Op.add "a" "1111", Op.add "b" "2222"] fullCache
      "c" "3333" (by decide)).1 (by decide)⟩

/-! ## The order of eviction (C23) -/

theorem lastTouch_snoc {V : Type} (ops : List (Op V)) (op : Op V) (k : String) :
    lastTouch (ops ++ [op]) k = if op.touches k then ops.length + 1 else lastTouch ops k := by
  unfold lastTouch
  rw [List.reverse_append, List.reverse_singleton, List.singleton_append, List.dropWhile_cons]
  by_cases h : op.touches k = true
  · simp [h]
  · simp [h]

theorem lastTouch_le {V : Type} (ops : List (Op V)) (k : String) :
    lastTouch ops k ≤ ops.length := by
  unfold lastTouch
  have := (List.dropWhile_sublist (fun o : Op V => !o.touches k) (l := ops.reverse)).length_le
  rw [List.length_reverse] at this
  exact this

theorem order_same {V : Type} (ops : List (Op V)) (op : Op V) (l : List (Element V))
    (ht : ∀ x ∈ l, op.touches x.kv.key = false)
    (h : l.Pairwise (fun a b => lastTouch ops b.kv.key < lastTouch ops a.kv.key)) :
    l.Pairwise (fun a b =>
      lastTouch (ops ++ [op]) b.kv.key < lastTouch (ops ++ [op]) a.kv.key) := by
  refine h.imp_of_mem ?_
  intro a b ha hb hab
  rw [lastTouch_snoc, lastTouch_snoc, ht a ha, ht b hb]
  simpa using hab

theorem order_front {V : Type} (ops : List (Op V)) (op : Op V) (k : String)
    (y : Element V) (l : List (Element V)) (hy : y.kv.key = k)
    (hk : op.touches k = true) (ht : ∀ x ∈ l, op.touches x.kv.key = false)
    (h : l.Pairwise (fun a b => lastTouch ops b.kv.key < lastTouch ops a.kv.key)) :
    (y :: l).Pairwise (fun a b =>
      lastTouch (ops ++ [op]) b.kv.key < lastTouch (ops ++ [op]) a.kv.key) := by
  rw [List.pairwise_cons]
  refine ⟨?_, order_same ops op l ht h⟩
  intro x hx
  rw [lastTouch_snoc, lastTouch_snoc, ht x hx, hy, hk]
  have := lastTouch_le ops x.kv.key
  simp only [Bool.false_eq_true, if_false, if_true]
  omega

theorem RemoveOldest_sublist {V : Type} (vlen : V → Int) (c : Cache V) :
    (RemoveOldest vlen c).ll.Sublist c.ll := by
  unfold RemoveOldest
  cases c.ll.getLast? with
  | none => exact List.Sublist.refl _
  | some e => exact List.filter_sublist _

theorem iterate_sublist {V : Type} (vlen : V → Int) (n : Nat) (c : Cache V) :
    ((RemoveOldest vlen)^[n] c).ll.Sublist c.ll := by
  induction n generalizing c with
  | zero => exact List.Sublist.refl _
  | succ k ih =>
      rw [Function.iterate_succ_apply]
      exact (ih (RemoveOldest vlen c)).trans (RemoveOldest_sublist vlen c)

theorem touches_ne {V : Type} (k k1 : String) (h : k1 ≠ k) :
    (∀ v : V, (Op.add k v).touches k1 = false) ∧ (Op.get k : Op V).touches k1 = false := by
  have : (k == k1) = false := by
    simp only [beq_eq_false_iff_ne, ne_eq]
    exact fun e => h e.symm
  exact ⟨fun v => this, this⟩

theorem reached_order {V : Type} (vlen : V → Int) (maxBytes : Int) (onEvicted : Bool)
    (ops : List (Op V)) :
    ∀ c : Cache V, run vlen ops (New maxBytes onEvicted) = some c →
      c.ll.Pairwise (fun a b => lastTouch ops b.kv.key < lastTouch ops a.kv.key) := by
  induction ops using List.reverseRecOn with
  | nil =>
      intro c h
      cases h
      exact List.Pairwise.nil
  | append_singleton ops op ih =>
      intro c h
      obtain ⟨c0, h0, hstep⟩ := run_snoc vlen ops op _ c h
      have hp := ih c0 h0
      have hi := (reached_inv vlen maxBytes onEvicted ops c0 h0).1
      cases op with
      | removeOldest =>
          cases hstep
          exact (order_same ops Op.removeOldest c0.ll (fun x _ => rfl) hp).sublist
            (RemoveOldest_sublist vlen c0)
      | get k =>
          change (Get c0 k).map Prod.fst = some c at hstep
          cases hl : c0.cache.lookup k with
          | none =>
              rw [Get_miss c0 k hl] at hstep
              cases hstep
              refine order_same ops _ c0.ll ?_ hp
              intro x hx
              apply (touches_ne k x.kv.key ?_).2
              intro e1
              have := (hi.2.2.2.1 k x.ptr).2 ⟨x, hx, rfl, e1⟩
              exact (lookup_none_iff c0.cache k).1 hl (List.mem_map.2 ⟨_, this, rfl⟩)
          | some p =>
              obtain ⟨e, a, b, hll, _, hk, hg⟩ := Get_hit vlen c0 k p hi hl
              rw [hg] at hstep
              cases hstep
              have hn := hi.2.1
              rw [hll, List.map_append, List.map_cons, List.nodup_append,
                List.nodup_cons] at hn
              rw [hll] at hp
              refine order_front ops _ k e (a ++ b) hk (by simp [Op.touches]) ?_
                (hp.sublist (List.Sublist.append (List.Sublist.refl _)
                  (List.sublist_cons_self _ _)))
              intro x hx
              apply (touches_ne k x.kv.key ?_).2
              intro e1
              rcases List.mem_append.1 hx with h1 | h1
              · exact hn.2.2 (List.mem_map.2 ⟨x, h1, rfl⟩) (by rw [e1, ← hk]; simp)
              · exact hn.2.1.1 (by rw [hk, ← e1]; exact List.mem_map.2 ⟨x, h1, rfl⟩)
      | add k v =>
          change Add vlen c0 k v = some c at hstep
          unfold Add at hstep
          cases hs : store vlen c0 k v with
          | none => rw [hs] at hstep; cases hstep
          | some cs =>
              rw [hs] at hstep
              obtain ⟨_, _, p, rest, hll, hsub, hrest⟩ := store_shape vlen c0 cs k v hi hs
              obtain ⟨_, n, hn, _⟩ := evictLoop_spec vlen _ _ _ hstep
              have : cs.ll.Pairwise (fun a b =>
                  lastTouch (ops ++ [Op.add k v]) b.kv.key
                    < lastTouch (ops ++ [Op.add k v]) a.kv.key) := by
                rw [hll]
                refine order_front ops _ k _ rest rfl (by simp [Op.touches]) ?_
                  (hp.sublist hsub)
                intro x hx
                exact (touches_ne k x.kv.key ((hrest x).1 hx).2).1 v
              rw [hn]
              exact this.sublist (iterate_sublist vlen n cs)

theorem lookup_filter_key {β : Type} (l : List (String × β)) (k0 k : String) :
    (l.filter (fun x => x.1 ≠ k0)).lookup k = if k = k0 then none else l.lookup k := by
  induction l with
  | nil => simp
  | cons a rest ih =>
      obtain ⟨k1, v1⟩ := a
      by_cases h1 : k1 = k0
      · rw [List.filter_cons_of_neg (by simpa using h1), ih]
        by_cases h2 : k = k0
        · rw [if_pos h2, if_pos h2]
        · rw [if_neg h2, if_neg h2]
          have : (k == k1) = false := by
            simp only [beq_eq_false_iff_ne, ne_eq]
            rw [h1]
            exact h2
          simp [List.lookup, this]
      · rw [List.filter_cons_of_pos (by simpa using h1)]
        by_cases h3 : k = k1
        · subst h3
          simp [List.lookup, h1]
        · have : (k == k1) = false := by simpa using h3
          simp only [List.lookup, this]
          exact ih

theorem front_stays {V : Type} (vlen : V → Int) (c : Cache V) (y : Element V)
    (rest : List (Element V)) (hi : Inv vlen c) (h : c.ll = y :: rest) :
    ∀ n, n < c.Len → y ∈ ((RemoveOldest vlen)^[n] c).ll := by
  intro n hn
  rw [(iterate_RemoveOldest vlen n c hi).2.1, h]
  unfold Cache.Len at hn
  rw [h] at hn
  simp only [List.length_cons] at hn ⊢
  obtain ⟨m, hm⟩ : ∃ m, rest.length + 1 - n = m + 1 := ⟨rest.length - n, by omega⟩
  rw [hm, List.take_succ_cons]
  exact List.mem_cons_self _ _

/-- C23.  In every state reached from `New` by calls `ops` of `Add`, `Get`
and `RemoveOldest`: the list is in the order of the last touch, the entry
touched last at the front.  When the list is `front` followed by the element
`e`, `e` is the entry that has gone longest without an `Add` or a `Get` of
its key, and `RemoveOldest` leaves the list `front`, deletes the key of `e`
from the map and nothing else, and calls the callback, if there is one, once,
with the key and the value of `e`.  A `Get` that finds its key, and the first
statement of an `Add` of a key that is there, put the element of the key at
the front and keep the other elements, so that it is still in the list after
any number of `RemoveOldest` smaller than `Len()`; after the whole `Add` the
list is empty or that element is at its front.  On an empty cache
`RemoveOldest` changes nothing. -/
theorem C23_RemoveOldest {V : Type} (vlen : V → Int) (maxBytes : Int) (onEvicted : Bool)
    (ops : List (Op V)) (c : Cache V)
    (h : run vlen ops (New maxBytes onEvicted) = some c) :
    c.ll.Pairwise (fun a b => lastTouch ops b.kv.key < lastTouch ops a.kv.key) ∧
    (∀ front e, c.ll = front ++ [e] →
      (∀ x ∈ front, lastTouch ops e.kv.key < lastTouch ops x.kv.key) ∧
      (RemoveOldest vlen c).ll = front ∧
      (RemoveOldest vlen c).cache.lookup e.kv.key = none ∧
      (∀ k, k ≠ e.kv.key → (RemoveOldest vlen c).cache.lookup k = c.cache.lookup k) ∧
      (RemoveOldest vlen c).evicted =
        if onEvicted then c.evicted ++ [(e.kv.key, e.kv.value)] else c.evicted) ∧
    (∀ k v c1, Get c k = some (c1, some v) →
      ∃ e rest, c1.ll = e :: rest ∧ e.kv.key = k ∧ e.kv.value = v ∧ c1.ll.Perm c.ll ∧
        ∀ n, n < c1.Len → e ∈ ((RemoveOldest vlen)^[n] c1).ll) ∧
    (∀ k v p c0, c.cache.lookup k = some p → store vlen c k v = some c0 →
      (∃ rest, c0.ll = ⟨p, ⟨k, v⟩⟩ :: rest ∧
        (∀ x, x ∈ rest ↔ x ∈ c.ll ∧ x.kv.key ≠ k) ∧
        ∀ n, n < c0.Len → ⟨p, ⟨k, v⟩⟩ ∈ ((RemoveOldest vlen)^[n] c0).ll) ∧
      ∀ c1, Add vlen c k v = some c1 →
        c1.ll = [] ∨ c1.ll.head? = some ⟨p, ⟨k, v⟩⟩) ∧
    (c.ll = [] → RemoveOldest vlen c = c) := by
  obtain ⟨hi, _, hon⟩ := reached_inv vlen maxBytes onEvicted ops c h
  have hord := reached_order vlen maxBytes onEvicted ops c h
  refine ⟨hord, ?_, ?_, ?_, RemoveOldest_nil vlen c⟩
  · intro front e hll
    rw [RemoveOldest_last vlen c front e hi hll]
    refine ⟨?_, rfl, ?_, ?_, ?_⟩
    · rw [hll, List.pairwise_append] at hord
      intro x hx
      exact hord.2.2 x hx e (List.mem_singleton_self _)
    · show (c.cache.filter (fun x => x.1 ≠ e.kv.key)).lookup e.kv.key = none
      rw [lookup_filter_key, if_pos rfl]
    · intro k hk
      show (c.cache.filter (fun x => x.1 ≠ e.kv.key)).lookup k = _
      rw [lookup_filter_key, if_neg hk]
    · show (if c.OnEvicted then _ else _) = _
      rw [hon]
  · intro k v c1 hg
    cases hl : c.cache.lookup k with
    | none =>
        rw [Get_miss c k hl] at hg
        cases hg
    | some p =>
        obtain ⟨e, a, b, hll, _, hk, hg2⟩ := Get_hit vlen c k p hi hl
        rw [hg2] at hg
        cases hg
        have hperm : (e :: (a ++ b)).Perm c.ll := by rw [hll]; exact perm_front a b e
        refine ⟨e, a ++ b, rfl, hk, rfl, hperm, ?_⟩
        exact front_stays vlen _ e (a ++ b) (Inv_perm vlen c _ hperm hi) rfl
  · intro k v p c0 hl hs
    have hi0 := Inv_store vlen c c0 k v hi hs
    obtain ⟨e, a, b, hll, _, hk, hs2⟩ := store_hit vlen c k v p hi hl
    obtain ⟨_, _, p2, rest, hll0, _, hrest⟩ := store_shape vlen c c0 k v hi hs
    have hp2 : c0.ll = ⟨p, ⟨k, v⟩⟩ :: (a ++ b) := by
      rw [hs2] at hs
      cases hs
      rfl
    have hrest2 : rest = a ++ b ∧ p2 = p := by
      rw [hll0] at hp2
      cases hp2
      exact ⟨rfl, rfl⟩
    rw [hrest2.1] at hrest
    refine ⟨⟨a ++ b, hp2, hrest, front_stays vlen c0 _ (a ++ b) hi0 hp2⟩, ?_⟩
    intro c1 ha
    unfold Add at ha
    rw [hs] at ha
    obtain ⟨_, n, hn, _⟩ := evictLoop_spec vlen _ _ _ ha
    rw [hn, (iterate_RemoveOldest vlen n c0 hi0).2.1, hp2]
    cases hm : (⟨p, ⟨k, v⟩⟩ :: (a ++ b)).length - n with
    | zero => left; rfl
    | succ m => right; rfl

/-- An instance of C23: after `Add("a")`, `Add("b")` and `Get("a")` the call
`RemoveOldest` evicts the entry of "b". -/
theorem C23_RemoveOldest_witness :
    run strLen [Op.add "a" "1", Op.add "b" "22", Op.get "a"] (New 0 true) = some touched ∧
    (RemoveOldest strLen touched).ll = [⟨0, ⟨"a", "1"⟩⟩] ∧
    (RemoveOldest strLen touched).evicted = [("b", "22")] :=
  ⟨by decide,
    ((C23_RemoveOldest strLen 0 true [Op.add "a" "1", Op.add "b" "22", Op.get "a"] touched
      (by decide)).2.1 [⟨0, ⟨"a", "1"⟩⟩] ⟨1, ⟨"b", "22"⟩⟩ rfl).2.1,
    by decide⟩

/-! ## What the group cache needs of the LRU cache -/

theorem wrapInt_lt (i : Int) : Grpc.wrapInt i < 2 ^ 63 := by
  unfold Grpc.wrapInt
  norm_num
  omega

theorem Add_keeps {V : Type} (vlen : V → Int) (c : Cache V) (key : String) (value : V)
    (hi : Inv vlen c) (hv : 0 ≤ vlen value)
    (hfit : c.maxBytes = 0 ∨ (len key : Int) + vlen value ≤ c.maxBytes) :
    ∃ c1 p rest, Add vlen c key value = some c1 ∧ c1.ll = ⟨p, ⟨key, value⟩⟩ :: rest ∧
      (∀ x ∈ rest, x ∈ c.ll) ∧ Inv vlen c1 ∧ c1.maxBytes = c.maxBytes := by
  have hlen : (0 : Int) ≤ (len key : Int) := Int.natCast_nonneg _
  have hm : 0 ≤ c.maxBytes := by
    rcases hfit with h | h
    · rw [h]
    · omega
  obtain ⟨c0, hs⟩ := store_returns vlen c key value hi
  have hi0 := Inv_store vlen c c0 key value hi hs
  have hm0 := store_maxBytes vlen c c0 key value hs
  obtain ⟨_, _, p, rest0, hll0, hsub, _⟩ := store_shape vlen c c0 key value hi hs
  obtain ⟨c1, ha⟩ := Add_returns vlen c key value hi hm
  have he : evictLoop vlen (c0.ll.length + 1) c0 = some c1 := by
    unfold Add at ha
    rw [hs] at ha
    exact ha
  obtain ⟨_, n, hn, hbefore⟩ := evictLoop_spec vlen _ _ _ he
  have hit := iterate_RemoveOldest vlen n c0 hi0
  rw [← hn] at hit
  have hlt : n < c0.ll.length := by
    by_contra hge
    have hlen0 : c0.ll.length = rest0.length + 1 := by rw [hll0]; rfl
    have hover := hbefore (c0.ll.length - 1) (by omega)
    obtain ⟨hiM, hllM, hmM, _⟩ := iterate_RemoveOldest vlen (c0.ll.length - 1) c0 hi0
    have h1 : ((RemoveOldest vlen)^[c0.ll.length - 1] c0).ll = [⟨p, ⟨key, value⟩⟩] := by
      rw [hllM, hll0]
      have : (⟨p, ⟨key, value⟩⟩ :: rest0 : List (Element V)).length
          - ((⟨p, ⟨key, value⟩⟩ :: rest0 : List (Element V)).length - 1) = 1 := by
        simp
      rw [this]
      rfl
    have hb := hiM.2.2.2.2.2
    rw [h1, total_cons, total_nil] at hb
    simp only [add_zero] at hb
    unfold over at hover
    rw [hmM, hm0, hb] at hover
    rcases hfit with h | h
    · exact hover.1 h
    · by_cases hbig : c.maxBytes < 2 ^ 63
      · rw [wrapInt_range _ (by omega) (by omega)] at hover
        omega
      · have := wrapInt_lt ((len key : Int) + vlen value)
        omega
  have hlen0 : c0.ll.length = rest0.length + 1 := by rw [hll0]; rfl
  obtain ⟨m, hm1⟩ : ∃ m, c0.ll.length - n = m + 1 := ⟨c0.ll.length - n - 1, by omega⟩
  refine ⟨c1, p, rest0.take m, ha, ?_, ?_, hit.1, ?_⟩
  · rw [hit.2.1, hm1, hll0, List.take_succ_cons]
  · intro x hx
    exact hsub.subset ((List.take_sublist _ _).subset hx)
  · rw [hit.2.2.1, hm0]

theorem Get_front {V : Type} (vlen : V → Int) (c : Cache V) (p : Nat) (key : String)
    (value : V) (rest : List (Element V)) (hi : Inv vlen c)
    (h : c.ll = ⟨p, ⟨key, value⟩⟩ :: rest) : Get c key = some (c, some value) := by
  have hl : c.cache.lookup key = some p :=
    lookup_of_mem _ _ _ hi.2.2.1
      ((hi.2.2.2.1 key p).2 ⟨⟨p, ⟨key, value⟩⟩, by rw [h]; simp, rfl, rfl⟩)
  obtain ⟨hf, hm⟩ := MoveToFront_split c.ll [] rest ⟨p, ⟨key, value⟩⟩ hi.1 h
  unfold Get
  rw [hl]
  simp only
  rw [hf]
  simp only
  rw [hm, List.nil_append, ← h]

theorem Get_shape {V : Type} (vlen : V → Int) (c c1 : Cache V) (key : String) (r : Option V)
    (hi : Inv vlen c) (h : Get c key = some (c1, r)) :
    c1.ll.Perm c.ll ∧ c1.maxBytes = c.maxBytes ∧
    (r = none → c1 = c ∧ c.cache.lookup key = none) ∧
    (∀ v, r = some v → ∃ e ∈ c.ll, e.kv.key = key ∧ e.kv.value = v) := by
  cases hl : c.cache.lookup key with
  | none =>
      rw [Get_miss c key hl] at h
      cases h
      exact ⟨List.Perm.refl _, rfl, fun _ => ⟨rfl, rfl⟩, (fun v hv => by cases hv)⟩
  | some p =>
      obtain ⟨e, a, b, hll, _, hk, hg⟩ := Get_hit vlen c key p hi hl
      rw [hg] at h
      cases h
      refine ⟨by rw [hll]; exact perm_front a b e, rfl, (fun hr => by cases hr), ?_⟩
      intro v hv
      cases hv
      exact ⟨e, by rw [hll]; simp, hk, rfl⟩

theorem Add_entries {V : Type} (vlen : V → Int) (c c1 : Cache V) (key : String) (value : V)
    (hi : Inv vlen c) (h : Add vlen c key value = some c1) :
    (∀ x ∈ c1.ll, x.kv = ⟨key, value⟩ ∨ x ∈ c.ll) ∧ c1.maxBytes = c.maxBytes := by
  unfold Add at h
  cases hs : store vlen c key value with
  | none => rw [hs] at h; cases h
  | some c0 =>
      rw [hs] at h
      have hi0 := Inv_store vlen c c0 key value hi hs
      obtain ⟨_, _, p, rest0, hll0, hsub, _⟩ := store_shape vlen c c0 key value hi hs
      obtain ⟨_, n, hn, _⟩ := evictLoop_spec vlen _ _ _ h
      have hit := iterate_RemoveOldest vlen n c0 hi0
      rw [← hn] at hit
      refine ⟨?_, by rw [hit.2.2.1, store_maxBytes vlen c c0 key value hs]⟩
      intro x hx
      rw [hn] at hx
      have hx0 := (iterate_sublist vlen n c0).subset hx
      rw [hll0] at hx0
      rcases List.mem_cons.1 hx0 with h1 | h1
      · left
        rw [h1]
      · right
        exact hsub.subset h1

end Lru

namespace Gcache

/-! ## `Group.Get` (C22) -/

theorem cache_eta (c : cache) (l : Lru.Cache ByteView) (h : c.lru = some l) :
    ({ c with lru := some l } : cache) = c := by
  cases c
  simp only at h
  subst h
  rfl

theorem cache_get_miss (c : cache) (key : String)
    (h : ∀ l, c.lru = some l → l.cache.lookup key = none) :
    c.get key = some (c, none) := by
  unfold cache.get
  cases hl : c.lru with
  | none => rfl
  | some l =>
      simp only
      rw [Lru.Get_miss l key (h l hl)]
      show some (({ c with lru := some l } : cache), (none : Option ByteView)) = _
      rw [cache_eta c l hl]

theorem cache_get_front (c : cache) (l : Lru.Cache ByteView) (p : Nat) (key : String)
    (value : ByteView) (rest : List (Lru.Element ByteView)) (hl : c.lru = some l)
    (hi : Lru.Inv ByteView.Len l) (h : l.ll = ⟨p, ⟨key, value⟩⟩ :: rest) :
    c.get key = some (c, some value) := by
  unfold cache.get
  rw [hl]
  simp only
  rw [Lru.Get_front ByteView.Len l p key value rest hi h]
  show some (({ c with lru := some l } : cache), some value) = _
  rw [cache_eta c l hl]

theorem not_cached (cacheBytes : Int) (getter : String → Except Grpc.GoError (List UInt8))
    (ks : List String) (g : Group) (key : String) (hg : GroupOK cacheBytes getter ks g)
    (h : key ∉ ks ∨ ∃ err, getter key = .error err) :
    ∀ l, g.mainCache.lru = some l → l.cache.lookup key = none := by
  intro l hl
  obtain ⟨hi, _, hent⟩ := hg.2.2.2 l hl
  rw [Lru.lookup_none_iff]
  intro hm
  obtain ⟨x, hx, hxk⟩ := List.mem_map.1 hm
  obtain ⟨e, he, _, hek⟩ := (hi.2.2.2.1 x.1 x.2).1 hx
  have := hent e he
  rw [hek, hxk] at this
  rcases h with h | ⟨err, h⟩
  · exact h this.1
  · rw [h] at this
    cases this.2

theorem Group_eta (g : Group) : ({ g with mainCache := g.mainCache } : Group) = g := by
  cases g
  rfl

theorem Get_load (g : Group) (key : String) (hk : key ≠ "")
    (hm : g.mainCache.get key = some (g.mainCache, none)) (hp : g.peers.isNone = true) :
    g.Get key = g.getLocally key := by
  unfold Group.Get
  rw [if_neg hk, hm]
  simp only
  rw [Group_eta]
  unfold Group.load
  cases hpe : g.peers with
  | none => rfl
  | some x => rw [hpe] at hp; cases hp

theorem Get_cached (g : Group) (l : Lru.Cache ByteView) (p : Nat) (key : String)
    (value : ByteView) (rest : List (Lru.Element ByteView)) (hk : key ≠ "")
    (hl : g.mainCache.lru = some l) (hi : Lru.Inv ByteView.Len l)
    (h : l.ll = ⟨p, ⟨key, value⟩⟩ :: rest) :
    g.Get key = some (g, .ok value) := by
  unfold Group.Get
  rw [if_neg hk, cache_get_front g.mainCache l p key value rest hl hi h]

theorem GroupOK_mono (cacheBytes : Int) (getter : String → Except Grpc.GoError (List UInt8))
    (ks ks1 : List String) (g : Group) (hs : ∀ k ∈ ks, k ∈ ks1)
    (hg : GroupOK cacheBytes getter ks g) : GroupOK cacheBytes getter ks1 g := by
  obtain ⟨h1, h2, h3, h4⟩ := hg
  refine ⟨h1, h2, h3, ?_⟩
  intro l hl
  obtain ⟨a, b, c⟩ := h4 l hl
  exact ⟨a, b, fun e he => ⟨hs _ (c e he).1, (c e he).2⟩⟩

theorem GroupOK_New (name : String) (cacheBytes : Int)
    (getter : String → Except Grpc.GoError (List UInt8)) :
    GroupOK cacheBytes getter [] (NewGroup name cacheBytes getter) :=
  ⟨rfl, rfl, rfl, fun l hl => by cases hl⟩

theorem cache_start (cacheBytes : Int) (getter : String → Except Grpc.GoError (List UInt8))
    (ks : List String) (g : Group) (hg : GroupOK cacheBytes getter ks g) :
    ∃ l0 : Lru.Cache ByteView,
      (match g.mainCache.lru with
        | none => Lru.New g.mainCache.cacheBytes false
        | some l => l) = l0 ∧
      Lru.Inv ByteView.Len l0 ∧ l0.maxBytes = cacheBytes ∧
      ∀ e ∈ l0.ll, e.kv.key ∈ ks ∧ getter e.kv.key = .ok e.kv.value.b := by
  cases hl : g.mainCache.lru with
  | none =>
      refine ⟨_, rfl, Lru.Inv_New _ _ _, hg.2.2.1, ?_⟩
      intro e he
      cases he
  | some l =>
      obtain ⟨a, b, c⟩ := hg.2.2.2 l hl
      exact ⟨l, rfl, a, b, c⟩

theorem GroupOK_Get (cacheBytes : Int) (getter : String → Except Grpc.GoError (List UInt8))
    (ks : List String) (g g1 : Group) (key : String) (r : Except Grpc.GoError ByteView)
    (hg : GroupOK cacheBytes getter ks g) (h : g.Get key = some (g1, r)) :
    GroupOK cacheBytes getter (ks ++ [key]) g1 := by
  have hgetter := hg.1
  subst hgetter
  have hmono : ∀ k ∈ ks, k ∈ ks ++ [key] := fun k hk => List.mem_append_left _ hk
  by_cases hk : key = ""
  · unfold Group.Get at h
    rw [if_pos hk] at h
    cases h
    exact GroupOK_mono _ _ _ _ _ hmono hg
  · unfold Group.Get at h
    rw [if_neg hk] at h
    cases hget : g.mainCache.get key with
    | none => rw [hget] at h; cases h
    | some x =>
        obtain ⟨mc, res⟩ := x
        rw [hget] at h
        -- the cache after the lookup
        have hmc : mc.cacheBytes = cacheBytes ∧
            ∀ l, mc.lru = some l →
              Lru.Inv ByteView.Len l ∧ l.maxBytes = cacheBytes ∧
              ∀ e ∈ l.ll, e.kv.key ∈ ks ∧ g.getter e.kv.key = .ok e.kv.value.b := by
          unfold cache.get at hget
          cases hl : g.mainCache.lru with
          | none =>
              rw [hl] at hget
              cases hget
              exact ⟨hg.2.2.1, fun l h2 => by rw [hl] at h2; cases h2⟩
          | some l =>
              rw [hl] at hget
              simp only at hget
              cases hlg : Lru.Get l key with
              | none => rw [hlg] at hget; cases hget
              | some y =>
                  rw [hlg] at hget
                  cases hget
                  obtain ⟨a, b, c⟩ := hg.2.2.2 l hl
                  obtain ⟨hperm, hmax, _, _⟩ := Lru.Get_shape ByteView.Len l y.1 key y.2 a hlg
                  refine ⟨hg.2.2.1, ?_⟩
                  intro l2 h2
                  cases h2
                  exact ⟨Lru.Inv_Get ByteView.Len l y.1 key y.2 a hlg, by rw [hmax, b],
                    fun e he => c e (hperm.mem_iff.1 he)⟩
        cases res with
        | some v =>
            simp only at h
            cases h
            exact ⟨hg.1, hg.2.1, hmc.1, fun l hl => by
              obtain ⟨a, b, c⟩ := hmc.2 l hl
              exact ⟨a, b, fun e he => ⟨hmono _ (c e he).1, (c e he).2⟩⟩⟩
        | none =>
            simp only at h
            have hg2 : GroupOK cacheBytes g.getter ks { g with mainCache := mc } :=
              ⟨hg.1, hg.2.1, hmc.1, hmc.2⟩
            have hloc : Group.getLocally { g with mainCache := mc } key = some (g1, r) := by
              unfold Group.load at h
              cases hpe : g.peers with
              | none => rw [show ({ g with mainCache := mc } : Group).peers = g.peers from rfl,
                  hpe] at h; exact h
              | some x => have := hg.2.1; rw [hpe] at this; cases this
            unfold Group.getLocally at hloc
            cases hgt : g.getter key with
            | error err =>
                rw [show ({ g with mainCache := mc } : Group).getter key = g.getter key
                  from rfl, hgt] at hloc
                cases hloc
                exact GroupOK_mono _ _ _ _ _ hmono hg2
            | ok bytes =>
                rw [show ({ g with mainCache := mc } : Group).getter key = g.getter key
                  from rfl, hgt] at hloc
                simp only at hloc
                obtain ⟨l0, hl0, hi0, hm0, hent0⟩ := cache_start _ _ _ _ hg2
                unfold cache.add at hloc
                simp only at hloc hl0
                rw [hl0] at hloc
                cases hadd : Lru.Add ByteView.Len l0 key ⟨cloneBytes bytes⟩ with
                | none => rw [hadd] at hloc; cases hloc
                | some l1 =>
                    rw [hadd] at hloc
                    cases hloc
                    refine ⟨hg.1, hg.2.1, hmc.1, ?_⟩
                    intro l hl
                    cases hl
                    obtain ⟨hent, hmax⟩ := Lru.Add_entries ByteView.Len l0 l1 key _ hi0 hadd
                    refine ⟨Lru.Inv_Add ByteView.Len l0 l1 key _ hi0 hadd, by rw [hmax, hm0], ?_⟩
                    intro e he
                    rcases hent e he with h1 | h1
                    · rw [h1]
                      exact ⟨by simp, hgt⟩
                    · exact ⟨hmono _ (hent0 e h1).1, (hent0 e h1).2⟩

theorem gets_ok (cacheBytes : Int) (getter : String → Except Grpc.GoError (List UInt8)) :
    ∀ (ks ks0 : List String) (g0 g : Group), GroupOK cacheBytes getter ks0 g0 →
      Group.gets ks g0 = some g → GroupOK cacheBytes getter (ks0 ++ ks) g := by
  intro ks
  induction ks with
  | nil =>
      intro ks0 g0 g hg h
      cases h
      rw [List.append_nil]
      exact hg
  | cons k rest ih =>
      intro ks0 g0 g hg h
      unfold Group.gets at h
      cases hget : g0.Get k with
      | none => rw [hget] at h; cases h
      | some x =>
          rw [hget] at h
          have := ih (ks0 ++ [k]) x.1 g (GroupOK_Get _ _ _ g0 x.1 k x.2 hg hget) h
          rw [List.append_assoc] at this
          exact this

/-- C22.  Let `g` be a group made by `NewGroup`, without peers, on which `Get`
has been called for the keys `ks`.  For a non-empty key `k` that is not among
`ks`, on which the getter returns `v`, with `len(k) + len(v) <= cacheBytes` or
`cacheBytes = 0`: `Get(k)` calls the getter once, with `k`, and returns a view
of `v`; a second `Get(k)` returns a view of `v` and does not call the getter.
For a non-empty key on which the getter fails, `Get` calls the getter once,
returns its error and leaves the cache as it was.  `Get("")` returns the error
"key is required" and leaves the group as it was. -/
theorem C22_Group_Get (name : String) (cacheBytes : Int)
    (getter : String → Except Grpc.GoError (List UInt8)) (ks : List String) (g : Group)
    (h : Group.gets ks (NewGroup name cacheBytes getter) = some g) :
    (∀ (k : String) (v : List UInt8), k ≠ "" → k ∉ ks → getter k = .ok v →
      ((Lru.len k : Int) + (v.length : Int) ≤ cacheBytes ∨ cacheBytes = 0) →
      ∃ g1, g.Get k = some (g1, .ok ⟨v⟩) ∧ g1.loads = g.loads ++ [k] ∧
        g1.Get k = some (g1, .ok ⟨v⟩)) ∧
    (∀ (k : String) (err : Grpc.GoError), k ≠ "" → getter k = .error err →
      g.Get k = some ({ g with loads := g.loads ++ [k] }, .error err)) ∧
    g.Get "" = some (g, .error (Grpc.fmtErrorf "key is required")) := by
  have hg : GroupOK cacheBytes getter ks g := by
    have := gets_ok cacheBytes getter ks [] _ g (GroupOK_New name cacheBytes getter) h
    rw [List.nil_append] at this
    exact this
  refine ⟨?_, ?_, ?_⟩
  · intro k v hk hfirst hgt hfit
    have hmiss := cache_get_miss g.mainCache k
      (not_cached cacheBytes getter ks g k hg (Or.inl hfirst))
    obtain ⟨l0, hl0, hi0, hm0, _⟩ := cache_start _ _ _ _ hg
    obtain ⟨l1, p, rest, hadd, hll, _, hi1, _⟩ :=
      Lru.Add_keeps ByteView.Len l0 k ⟨v⟩ hi0
        (by show (0 : Int) ≤ ((v.length : Nat) : Int); exact Int.natCast_nonneg _)
        (by
          rw [hm0]
          rcases hfit with hf | hf
          · exact Or.inr hf
          · exact Or.inl hf)
    have hget : ∃ g1 : Group, g.Get k = some (g1, .ok ⟨v⟩) ∧ g1.loads = g.loads ++ [k] ∧
        g1.mainCache.lru = some l1 := by
      rw [Get_load g k hk hmiss hg.2.1]
      unfold Group.getLocally
      rw [hg.1, hgt]
      simp only
      unfold cache.add
      simp only
      rw [hl0]
      unfold cloneBytes
      rw [hadd]
      exact ⟨_, rfl, rfl, rfl⟩
    obtain ⟨g1, hget1, hloads, hlru⟩ := hget
    exact ⟨g1, hget1, hloads, Get_cached g1 l1 p k ⟨v⟩ rest hk hlru hi1 hll⟩
  · intro k err hk hgt
    have hmiss := cache_get_miss g.mainCache k
      (not_cached cacheBytes getter ks g k hg (Or.inr ⟨err, hgt⟩))
    rw [Get_load g k hk hmiss hg.2.1]
    unfold Group.getLocally
    rw [hg.1, hgt]
  · unfold Group.Get
    rw [if_pos rfl]

/-- An instance of C22: the group of `TestGroup` after `Get("Tom")`, and the
key "Jack". -/
theorem C22_Group_Get_witness :
    Group.gets ["Tom"] (NewGroup "scores" 2048 db) = some afterTom ∧
    ∃ g1, afterTom.Get "Jack" = some (g1, .ok ⟨[53, 56, 57]⟩) ∧
      g1.loads = afterTom.loads ++ ["Jack"] ∧
      g1.Get "Jack" = some (g1, .ok ⟨[53, 56, 57]⟩) :=
  ⟨rfl, (C22_Group_Get "scores" 2048 db ["Tom"] afterTom rfl).1 "Jack" [53, 56, 57]
    (by decide) (by decide) rfl (Or.inl (by decide))⟩

/-! ## `HTTPPool.ServeHTTP` on a group that is not there (C26) -/

theorem span_sep (sep : Char) (l rest : List Char) (h : sep ∉ l) :
    (l ++ sep :: rest).span (fun c => c ≠ sep) = (l, sep :: rest) := by
  induction l with
  | nil => simp [List.span_eq_take_drop]
  | cons c l ih =>
      have hc : c ≠ sep := fun e => h (by rw [e]; exact List.mem_cons_self _ _)
      have hr : sep ∉ l := fun e => h (List.mem_cons_of_mem _ e)
      have := ih hr
      rw [List.span_eq_take_drop] at this ⊢
      simp only [Prod.mk.injEq] at this
      simp only [List.cons_append, List.takeWhile_cons, List.dropWhile_cons,
        decide_eq_true hc, if_true, Prod.mk.injEq, List.cons.injEq, true_and]
      exact this

theorem SplitN_two (groupName key : String) (h : '/' ∉ groupName.data) :
    Strings.SplitN (String.mk (groupName.data ++ '/' :: key.data)) '/' 2 = [groupName, key] := by
  unfold Strings.SplitN
  show (Strings.splitNChars '/' 2 (groupName.data ++ '/' :: key.data)).map String.mk = _
  unfold Strings.splitNChars
  rw [span_sep '/' groupName.data key.data h]
  rfl

theorem path_parts (p : HTTPPool) (groupName key : String) :
    Strings.HasPrefix (p.basePath ++ groupName ++ "/" ++ key) p.basePath = true ∧
    String.mk ((p.basePath ++ groupName ++ "/" ++ key).data.drop p.basePath.data.length)
      = String.mk (groupName.data ++ '/' :: key.data) := by
  have hd : (p.basePath ++ groupName ++ "/" ++ key).data
      = p.basePath.data ++ (groupName.data ++ '/' :: key.data) := by
    simp [String.data_append]
  constructor
  · unfold Strings.HasPrefix
    rw [hd, List.isPrefixOf_iff_prefix]
    exact List.prefix_append _ _
  · rw [hd, List.drop_left]

/-- C26 fails on the group that is not there.  For a path
`<basePath><group>/<key>` whose group name has no slash and is not in the map
`groups`, `ServeHTTP` writes the status 404 and "no such group: <group>" and
then goes on: it calls `Get(key)` on the nil group.  With a non-empty key
that call panics on the nil pointer; with the empty key it returns "key is
required", which `ServeHTTP` writes as a second text, followed by the write
of the empty value.  On a group that is there and whose `Get` fails,
`ServeHTTP` writes the status 500 and the text of the error, followed by the
write of an empty value. -/
theorem C26_missing_group (p : HTTPPool) (groups : List (String × Group)) (w : Http.Response)
    (groupName key : String) (hslash : '/' ∉ groupName.data)
    (hmiss : groups.lookup groupName = none) :
    (∃ s, p.ServeHTTP groups w (p.basePath ++ groupName ++ "/" ++ key) = some s ∧
      s.gets = [(groupName, key)] ∧
      (key ≠ "" → s.panicked = some nilDereference ∧
        s.w = Http.Error w ("no such group: " ++ groupName) Http.StatusNotFound) ∧
      (key = "" → s.panicked = none ∧
        s.w.body = w.body ++ [.text ("no such group: " ++ groupName ++ "\n"),
          .text "key is required\n", .bytes []])) ∧
    (∀ (groups2 : List (String × Group)) (group g1 : Group) (err : Grpc.GoError),
      groups2.lookup groupName = some group → group.Get key = some (g1, .error err) →
      ∃ s, p.ServeHTTP groups2 w (p.basePath ++ groupName ++ "/" ++ key) = some s ∧
        s.panicked = none ∧ s.gets = [(groupName, key)] ∧
        s.w.body = w.body ++ [.text (err.msg ++ "\n"), .bytes []] ∧
        (w.w.status = none → s.w.w.statusCode = 500)) := by
  obtain ⟨hp, hdrop⟩ := path_parts p groupName key
  have hsplit := SplitN_two groupName key hslash
  constructor
  · unfold HTTPPool.ServeHTTP
    rw [hp, if_neg (by simp), hdrop, hsplit]
    simp only
    rw [hmiss]
    unfold callGet
    simp only
    by_cases hk : key = ""
    · rw [if_pos hk]
      refine ⟨_, rfl, rfl, fun h => absurd hk h, fun _ => ⟨rfl, ?_⟩⟩
      simp [writeView, Http.Error, Http.Response.Write, ByteView.ByteSlice, cloneBytes,
        Grpc.fmtErrorf, Grpc.errorsNew]
      decide
    · rw [if_neg hk]
      exact ⟨_, rfl, rfl, fun _ => ⟨rfl, rfl⟩, fun h => absurd h hk⟩
  · intro groups2 group g1 err hl hget
    unfold HTTPPool.ServeHTTP
    rw [hp, if_neg (by simp), hdrop, hsplit]
    simp only
    rw [hl]
    unfold callGet
    simp only
    rw [hget]
    refine ⟨_, rfl, rfl, rfl, ?_, ?_⟩
    · simp [writeView, Http.Error, Http.Response.Write, ByteView.ByteSlice, cloneBytes]
    · intro hw
      simp [writeView, Http.Error, Http.Response.Write, Http.ResponseWriter.WriteHeader,
        Http.ResponseWriter.statusCode, hw, Http.StatusInternalServerError]

/-- An instance of C26: no group is registered and the path is
"/_gcache/scores/Tom". -/
theorem C26_missing_group_witness :
    ('/' ∉ "scores".data ∧ ([] : List (String × Group)).lookup "scores" = none) ∧
    Served.view ((NewHTTPPool "self").ServeHTTP [] Http.freshResponse "/_gcache/scores/Tom")
      = some (404, [.text "no such group: scores\n"], [("scores", "Tom")],
          some nilDereference) ∧
    Served.view ((NewHTTPPool "self").ServeHTTP [] Http.freshResponse "/_gcache/scores/")
      = some (404, [.text "no such group: scores\n", .text "key is required\n", .bytes []],
          [("scores", "")], none) ∧
    ∃ s, (NewHTTPPool "self").ServeHTTP [] Http.freshResponse
        ((NewHTTPPool "self").basePath ++ "scores" ++ "/" ++ "Tom") = some s ∧
      s.gets = [("scores", "Tom")] :=
  ⟨⟨by decide, rfl⟩, by decide, by decide,
    match C26_missing_group (NewHTTPPool "self") [] Http.freshResponse "scores" "Tom"
      (by decide) rfl with
    | ⟨⟨s, h1, h2, _⟩, _⟩ => ⟨s, h1, h2⟩⟩

end Gcache
